import Mathlib

/-!
PicoVim buffer: document store, line index, mutation protocol, block scanner and
syntax tokenizer.

A shallow embedding of `src/src/buffer.cpp` (`PicoVimBuffer`): the byte store
`m_buffer`, the line index `m_lineEnds`, the counter `m_processedLine`, and the
operations `FindLineEnds`, `SetText`, `Insert`, `Delete`, `GetLineOffsets` and
`GetBlock`; and of `src/src/syntax_glsl.cpp` (`PicoVimSyntaxGlsl`): the syntax map
`m_syntax`, the offset `m_processedChar`, and `UpdateSyntax` and `GetType`.

Modelling conventions.
* Bytes (`utf8 = uint8_t`) are natural numbers; `'\r'` is 13, `'\n'` is 10 and
  the terminator is 0.
* `buffer.h`, `syntax_glsl.h` and the gap buffer header are not among the sources.
  `buffer.cpp` builds a `BufferLocation` from a `long` and assigns one to a
  `long`, so a `BufferLocation` is a `long`; the entries of `m_lineEnds` are
  `long`s as well.  Both are integers here.  The only place where the machine
  width is visible is the comparison of a `long` with a `size()` (a `size_t`),
  which converts the `long` to an unsigned 64-bit value first; `asSizeT` is
  that conversion.  The store `m_buffer` is a `GapBuffer<utf8>`; it is the list
  of its bytes, and `GapBuffer.insert` and `GapBuffer.erase` are the positional
  splice and erase.
* Iterators into the store are offsets.  Reading through an iterator that is
  not at a byte of the store, `end()` included, is the fault
  `Fault.undefinedBehaviour`.
* The character classes are those of the "C" locale.
* The background workers run inline (`PicoVimEditorFlags::DisableThreads`), so
  `StopThreads` has nothing to join.  The cancellation flag `m_stop` is read once
  per iteration of `FindLineEnds` and of `UpdateSyntax`; it is a function of the
  iteration number.  The thread pool and the flag `m_dirty` are not part of the
  state.
* `GetEditor().Broadcast(msg)` appends `msg`, together with what a subscriber
  would see of the buffer at that moment, to `m_published`.
* Loops run on fuel; running out of fuel is the fault `Fault.outOfFuel`, and
  wherever a theorem below states a result, it shows that the fuel supplied is
  enough to reach it.
-/

namespace PicoVim

/-- Ways in which a call does not return normally. -/
inductive Fault where
  | assertion
  | undefinedBehaviour
  | outOfFuel
  deriving DecidableEq, Repr

deriving instance DecidableEq for Except

/-- Kinds of buffer message (`BufferMessageType`). -/
inductive BufferMessageType where
  | PreBufferChange
  | TextAdded
  | TextDeleted
  deriving DecidableEq, Repr

/-- A `BufferMessage`; `cursorAfter` is `none` where the constructor's default is used. -/
structure BufferMessage where
  type : BufferMessageType
  startLocation : Int
  endLocation : Int
  cursorAfter : Option Int
  deriving DecidableEq, Repr

/-- A published message with the store and line index a subscriber reads at that moment. -/
structure Published where
  message : BufferMessage
  store : List Nat
  lineEnds : List Int
  deriving DecidableEq, Repr

/-- The state of a `PicoVimBuffer`. -/
structure PicoVimBuffer where
  m_buffer : List Nat
  m_lineEnds : List Int
  m_processedLine : Int
  m_published : List Published
  deriving DecidableEq, Repr

/-- Conversion of a `long` to `size_t` (64 bits), as done by `long > size_t` comparisons. -/
def asSizeT (x : Int) : Nat := (x % 2 ^ 64).toNat

/-- Modelled from the spec: `GapBuffer::insert(pos, first, last)`, whose header is not among the
sources; the store supports positional splice, so the bytes are put in front of position
`pos`. -/
def GapBuffer.insert (buf : List Nat) (pos : Nat) (text : List Nat) : List Nat :=
  buf.take pos ++ text ++ buf.drop pos

/-- Modelled from the spec: `GapBuffer::erase(first, last)`, whose header is not among the
sources; the bytes at positions `first` up to but not including `last` are removed. -/
def GapBuffer.erase (buf : List Nat) (first last : Nat) : List Nat :=
  buf.take first ++ buf.drop last

/-- The byte `'\r'`. -/
def CR : Nat := 13

/-- The byte `'\n'`. -/
def LF : Nat := 10

/-- The characters of `lineEndSymbols("\r\n")`. -/
def lineEndSymbols : List Nat := [CR, LF]

/-- Number of leading elements that are not in `syms`. -/
def findFirstOfAux (syms : List Nat) : List Nat → Nat
  | [] => 0
  | c :: cs => if c ∈ syms then 0 else findFirstOfAux syms cs + 1

/-- The call `std::find_first_of(itr, end, syms.begin(), syms.end())` over the whole of `buf`:
the first position at or after `itr` holding one of `syms`, or `buf.length` if there is none.
The member `find_first_of` of the gap buffer, whose header is not among the sources, is taken to
be the same search on the store. -/
def find_first_of (buf : List Nat) (itr : Nat) (syms : List Nat) : Nat :=
  itr + findFirstOfAux syms (buf.drop itr)

/-- The iterator movement shared by the loops of `FindLineEnds` and `Insert`: go to the next
line-end symbol and, if there is one, step over `"\r"`, `"\n"` or `"\r\n"`. -/
def skipLineEnd (buf : List Nat) (itr : Nat) : Nat :=
  let itr1 := find_first_of buf itr lineEndSymbols
  if itr1 ≠ buf.length then
    let itr2 := if buf.getD itr1 0 = CR then itr1 + 1 else itr1
    if itr2 ≠ buf.length ∧ buf.getD itr2 0 = LF then itr2 + 1 else itr2
  else itr1

/-- The `while (itr != itrEnd)` loop of `FindLineEnds`; the state is the iterator, the line
index and the processed-line counter. -/
def findLineEndsLoop (stop : Nat → Bool) (buf : List Nat) :
    Nat → Nat → Nat → List Int → Int → Except Fault (List Int × Int)
  | 0, _, itr, ends, processed =>
    if itr = buf.length then .ok (ends, processed) else .error Fault.outOfFuel
  | fuel + 1, iter, itr, ends, processed =>
    if itr = buf.length then .ok (ends, processed)
    else if stop iter then .ok (ends, processed)
    else
      let itr1 := skipLineEnd buf itr
      let ends1 := ends ++ [(itr1 : Int)]
      findLineEndsLoop stop buf fuel (iter + 1) itr1 ends1 (ends1.length : Int)

/-- The method `PicoVimBuffer::FindLineEnds`. -/
def FindLineEnds (stop : Nat → Bool) (b : PicoVimBuffer) : Except Fault PicoVimBuffer :=
  match findLineEndsLoop stop b.m_buffer (b.m_buffer.length + 1) 0 0 [] 0 with
  | .ok (ends, processed) => .ok { b with m_lineEnds := ends, m_processedLine := processed }
  | .error e => .error e

/-- The call `GetEditor().Broadcast(...)`. -/
def Broadcast (b : PicoVimBuffer) (m : BufferMessage) : PicoVimBuffer :=
  { b with m_published := b.m_published ++ [⟨m, b.m_buffer, b.m_lineEnds⟩] }

/-- The method `PicoVimBuffer::SetText`, with the line count run inline. -/
def SetText (b : PicoVimBuffer) (text : List Nat) : Except Fault PicoVimBuffer :=
  let b1 := Broadcast b ⟨.TextDeleted, 0, (b.m_buffer.length : Int), none⟩
  let buf :=
    if text = [] then [0]
    else
      let buf1 := GapBuffer.insert b1.m_buffer 0 text
      if buf1.getD (buf1.length - 1) 0 ≠ 0 then buf1 ++ [0] else buf1
  let b2 := { b1 with m_buffer := buf, m_processedLine := 0 }
  match FindLineEnds (fun _ => false) b2 with
  | .ok b3 => .ok (Broadcast b3 ⟨.TextAdded, 0, (b3.m_buffer.length : Int), none⟩)
  | .error e => .error e

/-- The call `std::lower_bound(first, last, value)` on a sorted vector, as an index: the first
position whose element is not less than `value`. -/
def lower_bound (xs : List Int) (value : Int) : Nat :=
  (xs.takeWhile (fun x => decide (x < value))).length

/-- The call `std::upper_bound(first, last, value)` on a sorted vector, with `first` at index
`first`: the first position at or after `first` whose element is greater than `value`. -/
def upper_bound (xs : List Int) (first : Nat) (value : Int) : Nat :=
  first + ((xs.drop first).takeWhile (fun x => decide (x ≤ value))).length

/-- The `while (itr != itrEnd)` loop of `Insert` over the inserted string. -/
def insertScanLoop (str : List Nat) (startOffset : Int) :
    Nat → Nat → List Int → Except Fault (List Int)
  | 0, itr, lines => if itr = str.length then .ok lines else .error Fault.outOfFuel
  | fuel + 1, itr, lines =>
    if itr = str.length then .ok lines
    else
      let found := find_first_of str itr lineEndSymbols
      let itr1 := skipLineEnd str itr
      if found ≠ str.length then
        insertScanLoop str startOffset fuel itr1 (lines ++ [(itr1 : Int) + startOffset])
      else
        insertScanLoop str startOffset fuel itr1 lines

/-- The method `PicoVimBuffer::Insert`. -/
def Insert (b : PicoVimBuffer) (startOffset : Int) (str : List Nat) (cursorAfter : Int) :
    Except Fault (Bool × PicoVimBuffer) :=
  if asSizeT startOffset > b.m_buffer.length then .ok (false, b)
  else
    let changeRange : Int := b.m_buffer.length
    let b1 := Broadcast b ⟨.PreBufferChange, startOffset, changeRange, none⟩
    let itrLine0 := lower_bound b1.m_lineEnds startOffset
    let itrLine :=
      if itrLine0 ≠ b1.m_lineEnds.length ∧ b1.m_lineEnds.getD itrLine0 0 ≤ startOffset
      then itrLine0 + 1 else itrLine0
    match insertScanLoop str startOffset (str.length + 1) 0 [] with
    | .error e => .error e
    | .ok lines =>
      let ends1 := b1.m_lineEnds.take itrLine ++
        (b1.m_lineEnds.drop itrLine).map (fun x => x + (str.length : Int))
      let ends2 := if lines ≠ [] then ends1.take itrLine ++ lines ++ ends1.drop itrLine else ends1
      let processed := if lines ≠ [] then b1.m_processedLine + (lines.length : Int)
        else b1.m_processedLine
      let buf := GapBuffer.insert b1.m_buffer startOffset.toNat str
      let b2 := { b1 with m_buffer := buf, m_lineEnds := ends2, m_processedLine := processed }
      .ok (true, Broadcast b2 ⟨.TextAdded, startOffset, changeRange, some cursorAfter⟩)

/-- The method `PicoVimBuffer::Delete`. -/
def Delete (b : PicoVimBuffer) (startOffset endOffset : Int) (cursorAfter : Int) :
    Except Fault (Bool × PicoVimBuffer) :=
  if ¬ (startOffset ≥ 0 ∧ asSizeT endOffset ≤ (b.m_buffer.length + 2 ^ 64 - 1) % 2 ^ 64) then
    .error Fault.assertion
  else
    let b1 := Broadcast b ⟨.PreBufferChange, startOffset, endOffset, none⟩
    let itrLine0 := lower_bound b1.m_lineEnds startOffset
    if itrLine0 = b1.m_lineEnds.length then .ok (false, b1)
    else
      let itrLastLine := upper_bound b1.m_lineEnds itrLine0 endOffset
      let offsetDiff := endOffset - startOffset
      let itrLine := if b1.m_lineEnds.getD itrLine0 0 ≤ startOffset then itrLine0 + 1 else itrLine0
      let ends1 := b1.m_lineEnds.take itrLastLine ++
        (b1.m_lineEnds.drop itrLastLine).map (fun x => x - offsetDiff)
      if itrLine > itrLastLine then .error Fault.undefinedBehaviour
      else
        let ends2 := if itrLine ≠ itrLastLine then ends1.take itrLine ++ ends1.drop itrLastLine
          else ends1
        let processed := if itrLine ≠ itrLastLine
          then b1.m_processedLine - ((itrLastLine : Int) - (itrLine : Int))
          else b1.m_processedLine
        if startOffset > endOffset then .error Fault.undefinedBehaviour
        else
          let buf := GapBuffer.erase b1.m_buffer startOffset.toNat endOffset.toNat
          if ¬ (buf.length > 0 ∧ buf.getD (buf.length - 1) 0 = 0) then .error Fault.assertion
          else
            let b2 := { b1 with m_buffer := buf, m_lineEnds := ends2, m_processedLine := processed }
            .ok (true, Broadcast b2 ⟨.TextDeleted, startOffset, endOffset, some cursorAfter⟩)

/-- A freshly constructed buffer: nothing stored, nothing indexed, nothing published. -/
def emptyBuffer : PicoVimBuffer := ⟨[], [], 0, []⟩

/-- The sentinel invariant of the store: it is not empty and its last byte is the terminator
(the condition asserted at the end of `Delete`). -/
def Sentinel (buf : List Nat) : Prop :=
  buf.length > 0 ∧ buf.getD (buf.length - 1) 0 = 0

instance (buf : List Nat) : Decidable (Sentinel buf) := by
  unfold Sentinel; infer_instance

/-- A complete line index for a store of `n` bytes: strictly increasing, last entry `n`. -/
def CompleteIndex (ends : List Int) (n : Nat) : Prop :=
  ends.Pairwise (fun x y => x < y) ∧ ends.getLast? = some (n : Int)

instance (ends : List Int) (n : Nat) : Decidable (CompleteIndex ends n) := by
  unfold CompleteIndex; infer_instance

/-- The reference test for a line end at `p`: the byte before `p` is LF, or it is CR and the
byte at `p` is not LF. -/
def isLineEnd (buf : List Nat) (p : Nat) : Bool :=
  decide (buf.getD (p - 1) 0 = LF) || (decide (buf.getD (p - 1) 0 = CR) && decide (buf.getD p 0 ≠ LF))

/-- The reference line split of a store: every `p` with `1 ≤ p ≤ length - 1` passing
`isLineEnd`, in increasing order, followed by the length of the store. -/
def refLineEnds (buf : List Nat) : List Int :=
  ((List.range' 1 (buf.length - 1)).filter (isLineEnd buf)).map Int.ofNat ++ [(buf.length : Int)]

/-- The reference line ends strictly after position `i` and before the end of the store. -/
def lineEndsAfter (buf : List Nat) (i : Nat) : List Int :=
  ((List.range' (i + 1) (buf.length - 1 - i)).filter (isLineEnd buf)).map Int.ofNat

/-- The position `itrLine` computed at the start of `Insert`. -/
def insertItrLine (ends : List Int) (startOffset : Int) : Nat :=
  let itrLine0 := lower_bound ends startOffset
  if itrLine0 ≠ ends.length ∧ ends.getD itrLine0 0 ≤ startOffset then itrLine0 + 1 else itrLine0

/-- The line index written by `Insert`, given `itrLine`, the length of the inserted string and
the line ends found in it. -/
def insertLineEnds (ends : List Int) (itrLine : Nat) (n : Nat) (lines : List Int) : List Int :=
  let ends1 := ends.take itrLine ++ (ends.drop itrLine).map (fun x => x + (n : Int))
  if lines ≠ [] then ends1.take itrLine ++ lines ++ ends1.drop itrLine else ends1

/-- The line index written by `Delete` when it does not return early. -/
def deleteLineEnds (ends : List Int) (startOffset endOffset : Int) : List Int :=
  let itrLine0 := lower_bound ends startOffset
  let itrLastLine := upper_bound ends itrLine0 endOffset
  let itrLine := if ends.getD itrLine0 0 ≤ startOffset then itrLine0 + 1 else itrLine0
  let ends1 := ends.take itrLastLine ++
    (ends.drop itrLastLine).map (fun x => x - (endOffset - startOffset))
  if itrLine ≠ itrLastLine then ends1.take itrLine ++ ends1.drop itrLastLine else ends1

/-- Number of leading entries of a line index that are not above `v`. -/
def countLE (xs : List Int) (v : Int) : Nat :=
  (xs.takeWhile (fun x => decide (x ≤ v))).length

/-- The reference line ends of an inserted string after position `itr`, up to and including its
length: a CR in last place ends a line. -/
def stringLineEnds (str : List Nat) (itr : Nat) : List Nat :=
  (List.range' (itr + 1) (str.length - itr)).filter (isLineEnd str)

/-- The store written by `SetText` before the lines are counted. -/
def setTextStore (old text : List Nat) : List Nat :=
  if text = [] then [0]
  else
    let buf1 := GapBuffer.insert old 0 text
    if buf1.getD (buf1.length - 1) 0 ≠ 0 then buf1 ++ [0] else buf1

/-- A buffer holding `"a\r\nb"` and its terminator, with its line index. -/
def sampleCRLF : PicoVimBuffer := ⟨[97, 13, 10, 98, 0], [3, 5], 2, []⟩

/-- The method `PicoVimBuffer::GetLineOffsets`: the returned flag, `lineStart` and `lineEnd`.
The comparison of `m_lineEnds.size()` with `line` converts `line` to `size_t`. -/
def GetLineOffsets (b : PicoVimBuffer) (line : Int) : Bool × Int × Int :=
  if b.m_lineEnds.length ≤ asSizeT line then (false, 0, 0)
  else
    let lineEnd := b.m_lineEnds.getD line.toNat 0
    let lineStart := if line = 0 then 0 else b.m_lineEnds.getD (line - 1).toNat 0
    (true, lineStart, lineEnd)

/-- The function `std::isspace` on a byte, in the "C" locale: space, tab, LF, VT, FF and CR.
Bytes from 128 on are in no character class. -/
def isspace (ch : Nat) : Bool := decide (ch = 32) || (decide (9 ≤ ch) && decide (ch ≤ 13))

/-- The function `std::isalnum` on a byte, in the "C" locale. -/
def isalnum (ch : Nat) : Bool :=
  (decide (48 ≤ ch) && decide (ch ≤ 57)) || (decide (65 ≤ ch) && decide (ch ≤ 90)) ||
    (decide (97 ≤ ch) && decide (ch ≤ 122))

/-- The function `std::isgraph` on a byte, in the "C" locale. -/
def isgraph (ch : Nat) : Bool := decide (33 ≤ ch) && decide (ch ≤ 126)

/-- A word character: alphanumeric or underscore. -/
def IsWordChar (ch : Nat) : Bool := isalnum ch || decide (ch = 95)

/-- Neither a word character nor a space. -/
def IsNonWordChar (ch : Nat) : Bool := !IsWordChar ch && !isspace ch

/-- A WORD character: any graphic character. -/
def IsWORDChar (ch : Nat) : Bool := isgraph ch

/-- Neither a WORD character nor a space. -/
def IsNonWORDChar (ch : Nat) : Bool := !IsWORDChar ch && !isspace ch

/-- The enumeration `SearchDirection`. -/
inductive SearchDirection where
  | Forward
  | Backward
  deriving DecidableEq, Repr

/-- The record `BufferBlock` filled in by `GetBlock`. -/
structure BufferBlock where
  blockSearchPos : Int
  direction : Int
  spaceBefore : Bool
  spaceBetween : Bool
  spaceBeforeStart : Int
  startOnBlock : Bool
  firstBlock : Int
  firstNonBlock : Int
  secondBlock : Int
  secondNonBlock : Int
  deriving DecidableEq, Repr

/-- Reading `*itr` for an iterator at offset `itr` of the store; an iterator outside the bytes of
the store, `end()` included, must not be read. -/
def deref (buf : List Nat) (itr : Int) : Except Fault Nat :=
  if 0 ≤ itr ∧ itr < (buf.length : Int) then .ok (buf.getD itr.toNat 0)
  else .error Fault.undefinedBehaviour

/-- The loops `while (itr != bound && pred(*itr)) { flag = true; itr += step; }` of `GetBlock`;
the result is the iterator and the flag. -/
def walkWhile (buf : List Nat) (pred : Nat → Bool) (bound step : Int) :
    Nat → Int → Bool → Except Fault (Int × Bool)
  | 0, _, _ => .error Fault.outOfFuel
  | fuel + 1, itr, flag =>
    if itr = bound then .ok (itr, flag)
    else
      match deref buf itr with
      | .error e => .error e
      | .ok ch => if pred ch then walkWhile buf pred bound step fuel (itr + step) true
                  else .ok (itr, flag)

/-- The body of `GetBlock` once the predicates, the step `inc` and the two bounds are fixed:
`itrBegin` is the bound of the walks against the direction, `itrEnd` the bound of the walks
along it.  The checker of the second block is chosen from `*itrCurrent` and used only by the
last loop, `while (itrCurrent != itrEnd && pCheck(*itrCurrent))`; when the skip of the spaces
after the first block has stopped at `itrEnd` that loop is not entered, the byte under
`itrEnd` has no effect on any field, and the second block is empty.  The two reads before,
whose byte decides `startOnBlock` and `firstBlock`, must be of a byte of the store. -/
def scanBlocks (buf : List Nat) (pIsBlock pIsNotBlock : Nat → Bool) (inc itrBegin itrEnd : Int)
    (start : Int) : Except Fault BufferBlock :=
  let fuel := buf.length + 1
  match walkWhile buf isspace itrBegin (-inc) fuel start false with
  | .error e => .error e
  | .ok (itr1, _) =>
  let spaceBeforeStart := if itr1 ≠ itrBegin then itr1 + inc else itr1
  match walkWhile buf isspace itrEnd inc fuel start false with
  | .error e => .error e
  | .ok (itr2, spaceBefore) =>
  match deref buf itr2 with
  | .error e => .error e
  | .ok ch2 =>
  let startOnBlock := pIsBlock ch2
  let pCheck := if startOnBlock then pIsBlock else pIsNotBlock
  match walkWhile buf pCheck itrBegin (-inc) fuel itr2 false with
  | .error e => .error e
  | .ok (itr3, _) =>
  match deref buf itr3 with
  | .error e => .error e
  | .ok ch3 =>
  let firstBlock := if ¬ pCheck ch3 then itr3 + inc else itr3
  match walkWhile buf pCheck itrEnd inc fuel firstBlock false with
  | .error e => .error e
  | .ok (firstNonBlock, _) =>
  match walkWhile buf isspace itrEnd inc fuel firstNonBlock false with
  | .error e => .error e
  | .ok (secondBlock, spaceBetween) =>
  if secondBlock = itrEnd then
    .ok { blockSearchPos := start, direction := inc, spaceBefore := spaceBefore,
          spaceBetween := spaceBetween, spaceBeforeStart := spaceBeforeStart,
          startOnBlock := startOnBlock, firstBlock := firstBlock,
          firstNonBlock := firstNonBlock, secondBlock := secondBlock,
          secondNonBlock := secondBlock }
  else
  match deref buf secondBlock with
  | .error e => .error e
  | .ok ch5 =>
  let pCheck2 := if pIsBlock ch5 then pIsBlock else pIsNotBlock
  match walkWhile buf pCheck2 itrEnd inc fuel secondBlock false with
  | .error e => .error e
  | .ok (secondNonBlock, _) =>
  .ok { blockSearchPos := start, direction := inc, spaceBefore := spaceBefore,
        spaceBetween := spaceBetween, spaceBeforeStart := spaceBeforeStart,
        startOnBlock := startOnBlock, firstBlock := firstBlock,
        firstNonBlock := firstNonBlock, secondBlock := secondBlock,
        secondNonBlock := secondNonBlock }

/-- The method `PicoVimBuffer::GetBlock`; `alphaNumeric` says whether `searchType` has the bit
`SearchType::AlphaNumeric`, whose value is declared in a header that is not among the
sources.  The iterators are offsets into the store; scanning backward swaps the two bounds. -/
def GetBlock (b : PicoVimBuffer) (alphaNumeric : Bool) (start : Int) (dir : SearchDirection) :
    Except Fault BufferBlock :=
  let buf := b.m_buffer
  let pIsBlock := if alphaNumeric then IsWordChar else IsWORDChar
  let pIsNotBlock := if alphaNumeric then IsNonWordChar else IsNonWORDChar
  let inc : Int := if dir = SearchDirection.Forward then 1 else -1
  let itrBegin : Int := if inc = -1 then (buf.length : Int) else 0
  let itrEnd : Int := if inc = -1 then 0 else (buf.length : Int)
  scanBlocks buf pIsBlock pIsNotBlock inc itrBegin itrEnd start

/-- The text `"abc def\n\tghi"` of the block scan scenario. -/
def scenarioText : List Nat := [97, 98, 99, 32, 100, 101, 102, 10, 9, 103, 104, 105]

/-- A buffer holding the scenario text and its terminator, with its line index. -/
def scenarioBuffer : PicoVimBuffer :=
  ⟨[97, 98, 99, 32, 100, 101, 102, 10, 9, 103, 104, 105, 0], [8, 13], 2, []⟩

/-- The enumeration `SyntaxType`, with the values that `GetColor` tells apart. -/
inductive SyntaxType where
  | Normal
  | Comment
  | Keyword
  | Integer
  | Whitespace
  deriving DecidableEq, Repr

/-- The state of a `PicoVimSyntaxGlsl`: the syntax map and the processed offset. -/
structure PicoVimSyntaxGlsl where
  m_syntax : List SyntaxType
  m_processedChar : Int
  deriving DecidableEq, Repr

/-- The bytes of a string literal of the source; the literals used are ASCII. -/
def bytes (s : String) : List Nat := s.toList.map Char.toNat

/-- The set `keywords` filled in by the constructor of `PicoVimSyntaxGlsl`. -/
def keywords : List (List Nat) :=
  [bytes "float", bytes "vec2", bytes "vec3", bytes "vec4", bytes "int", bytes "uint",
   bytes "mat2", bytes "mat3", bytes "mat4", bytes "mat",
   bytes "uniform", bytes "layout", bytes "location", bytes "void", bytes "out", bytes "in",
   bytes "#version", bytes "core",
   bytes "sampler1D", bytes "sampler2D", bytes "sampler3D",
   bytes "pow", bytes "sin", bytes "cos", bytes "mul", bytes "abs", bytes "floor", bytes "ceil"]

/-- The characters of `delim(" \t.\r\n;(){}=")`. -/
def delim : List Nat := [32, 9, 46, 13, 10, 59, 40, 41, 123, 125, 61]

/-- The characters of `lineEnd("\r\n")`. -/
def lineEnd : List Nat := [13, 10]

/-- Number of leading elements that are in `syms`. -/
def findFirstNotOfAux (syms : List Nat) : List Nat → Nat
  | [] => 0
  | c :: cs => if c ∈ syms then findFirstNotOfAux syms cs + 1 else 0

/-- Modelled from the spec: the member `find_first_not_of(itr, end, syms.begin(), syms.end())` of
the gap buffer, whose header is not among the sources; the tokenizer uses it to skip delimiters,
so it is the first position at or after `itr` holding none of `syms`, or `buf.length` if there is
none. -/
def find_first_not_of (buf : List Nat) (itr : Nat) (syms : List Nat) : Nat :=
  itr + findFirstNotOfAux syms (buf.drop itr)

/-- Whether `pat` is found at the start of `s`. -/
def startsWith : List Nat → List Nat → Bool
  | _, [] => true
  | [], _ :: _ => false
  | c :: cs, p :: ps => decide (c = p) && startsWith cs ps

/-- The test `token.find(pat, 0) != std::string::npos`. -/
def strFind : List Nat → List Nat → Bool
  | [], pat => startsWith [] pat
  | c :: cs, pat => startsWith (c :: cs) pat || strFind cs pat

/-- The test `token.find_first_not_of("0123456789") == std::string::npos`. -/
def allDigits (token : List Nat) : Bool :=
  token.all (fun c => decide (48 ≤ c) && decide (c ≤ 57))

/-- The call `m_syntax.resize(n, type)`. -/
def resize (syn : List SyntaxType) (n : Nat) (type : SyntaxType) : List SyntaxType :=
  if n ≤ syn.length then syn.take n else syn ++ List.replicate (n - syn.length) type

/-- The lambda `mark` of `UpdateSyntax`: `std::fill` over the offsets from `a` up to but not
including `b`. -/
def mark (syn : List SyntaxType) (a b : Nat) (type : SyntaxType) : List SyntaxType :=
  (List.range' a (b - a)).foldl (fun acc i => acc.set i type) syn

/-- The lambda `markWhiteSpace` of `UpdateSyntax`: every offset from `a` up to but not including
`b` that holds a space is marked `Whitespace`. -/
def markWhiteSpace (buf : List Nat) (syn : List SyntaxType) (a b : Nat) : List SyntaxType :=
  (List.range' a (b - a)).foldl
    (fun acc i => if buf.getD i 0 = 32 then acc.set i SyntaxType.Whitespace else acc) syn

/-- The two loops at the start of `UpdateSyntax` that walk the iterator back while it is past
the start of the store and the byte under it is none of `syms`. -/
def walkBack (buf : List Nat) (syms : List Nat) : Nat → Nat → Except Fault Nat
  | 0, _ => .error Fault.outOfFuel
  | fuel + 1, itr =>
    if itr > 0 then
      match deref buf (itr : Int) with
      | .error e => .error e
      | .ok ch => if ch ∉ syms then walkBack buf syms fuel (itr - 1) else .ok itr
    else .ok itr

/-- The main loop of `UpdateSyntax`.  The state is the iteration number, `itrCurrent`,
`itrLastPoint`, `multiLineCommentBegin` (both are `buf.length` when they are `buffer.end()`), the
syntax map and `m_processedChar`. -/
def syntaxLoop (stop : Nat → Bool) (buf : List Nat) :
    Nat → Nat → Nat → Nat → Nat → List SyntaxType → Int → Except Fault (List SyntaxType × Int)
  | 0, _, itrCurrent, _, _, syn, processed =>
    if itrCurrent = buf.length then .ok (syn, processed) else .error Fault.outOfFuel
  | fuel + 1, iter, itrCurrent, itrLastPoint, multiLineCommentBegin, syn, processed =>
    if itrCurrent = buf.length then .ok (syn, processed)
    else if itrLastPoint ≠ buf.length ∧ itrLastPoint ≥ itrCurrent then .error Fault.assertion
    else if stop iter then .ok (syn, processed)
    else
      let itrFirst := find_first_not_of buf itrCurrent delim
      if itrFirst = buf.length then .ok (syn, processed)
      else
        let itrLast := find_first_of buf itrFirst delim
        if ¬ itrLast ≥ itrFirst then .error Fault.assertion
        else
          let token := (buf.drop itrFirst).take (itrLast - itrFirst)
          if token = [47, 47] then
            let itrLast1 := find_first_of buf itrLast lineEnd
            let syn1 := mark syn itrFirst itrLast1 SyntaxType.Comment
            let syn2 := markWhiteSpace buf syn1 itrCurrent itrLast1
            syntaxLoop stop buf fuel (iter + 1) itrLast1 itrCurrent multiLineCommentBegin syn2
              processed
          else if strFind token [47, 42] then
            syntaxLoop stop buf fuel (iter + 1) itrLast itrCurrent itrFirst syn (itrCurrent : Int)
          else if strFind token [42, 47] then
            if multiLineCommentBegin ≠ buf.length then
              let syn1 := mark syn multiLineCommentBegin itrLast SyntaxType.Comment
              let syn2 := markWhiteSpace buf syn1 multiLineCommentBegin itrLast
              syntaxLoop stop buf fuel (iter + 1) itrLast itrCurrent buf.length syn2
                (itrCurrent : Int)
            else
              syntaxLoop stop buf fuel (iter + 1) itrLast itrCurrent multiLineCommentBegin syn
                (itrCurrent : Int)
          else
            let syn1 :=
              if token ∈ keywords then
                mark (mark syn itrFirst itrLast SyntaxType.Keyword) itrFirst itrLast
                  SyntaxType.Keyword
              else if allDigits token then mark syn itrFirst itrLast SyntaxType.Integer
              else mark syn itrFirst itrLast SyntaxType.Normal
            let syn2 := markWhiteSpace buf syn1 itrCurrent itrLast
            syntaxLoop stop buf fuel (iter + 1) itrLast itrCurrent multiLineCommentBegin syn2
              (itrCurrent : Int)

/-- The method `PicoVimSyntaxGlsl::UpdateSyntax` on the store of buffer `b`; `stop` is the flag
`m_stop` as read at each iteration of the main loop. -/
def UpdateSyntax (stop : Nat → Bool) (b : PicoVimBuffer) (s : PicoVimSyntaxGlsl)
    (startOffset endOffset : Int) : Except Fault PicoVimSyntaxGlsl :=
  if ¬ startOffset ≥ 0 then .error Fault.assertion
  else if ¬ endOffset ≥ 0 then .error Fault.assertion
  else
    let buf := b.m_buffer
    let syn0 := resize s.m_syntax buf.length SyntaxType.Normal
    match walkBack buf lineEnd (buf.length + 1) startOffset.toNat with
    | .error e => .error e
    | .ok itr1 =>
    match walkBack buf delim (buf.length + 1) itr1 with
    | .error e => .error e
    | .ok itr2 =>
    match syntaxLoop stop buf (buf.length + 1) 0 itr2 buf.length buf.length syn0
        s.m_processedChar with
    | .error e => .error e
    | .ok (syn, _) => .ok { m_syntax := syn, m_processedChar := (buf.length : Int) - 1 }

/-- The method `PicoVimSyntaxGlsl::GetType`; both comparisons are between `long`s or convert
`offset` to `size_t`. -/
def GetType (s : PicoVimSyntaxGlsl) (offset : Int) : SyntaxType :=
  if s.m_processedChar < offset ∨ s.m_syntax.length ≤ asSizeT offset then SyntaxType.Normal
  else s.m_syntax.getD offset.toNat SyntaxType.Normal

/-- A freshly constructed syntax object: an empty syntax map. -/
def freshSyntax : PicoVimSyntaxGlsl := ⟨[], 0⟩

/-- One iteration of the main loop of `UpdateSyntax` that finds a token: the new `itrCurrent`,
the new `multiLineCommentBegin`, the new syntax map and the new `m_processedChar`. -/
def syntaxStep (buf : List Nat) (itrCurrent multiLineCommentBegin : Nat)
    (syn : List SyntaxType) (processed : Int) : Nat × Nat × List SyntaxType × Int :=
  let itrFirst := find_first_not_of buf itrCurrent delim
  let itrLast := find_first_of buf itrFirst delim
  let token := (buf.drop itrFirst).take (itrLast - itrFirst)
  if token = [47, 47] then
    let itrLast1 := find_first_of buf itrLast lineEnd
    (itrLast1, multiLineCommentBegin,
      markWhiteSpace buf (mark syn itrFirst itrLast1 SyntaxType.Comment) itrCurrent itrLast1,
      processed)
  else if strFind token [47, 42] then (itrLast, itrFirst, syn, (itrCurrent : Int))
  else if strFind token [42, 47] then
    if multiLineCommentBegin ≠ buf.length then
      (itrLast, buf.length,
        markWhiteSpace buf (mark syn multiLineCommentBegin itrLast SyntaxType.Comment)
          multiLineCommentBegin itrLast,
        (itrCurrent : Int))
    else (itrLast, multiLineCommentBegin, syn, (itrCurrent : Int))
  else
    (itrLast, multiLineCommentBegin,
      markWhiteSpace buf
        (if token ∈ keywords then
          mark (mark syn itrFirst itrLast SyntaxType.Keyword) itrFirst itrLast SyntaxType.Keyword
        else if allDigits token then mark syn itrFirst itrLast SyntaxType.Integer
        else mark syn itrFirst itrLast SyntaxType.Normal)
        itrCurrent itrLast,
      (itrCurrent : Int))

/-- The classification of the byte at offset `i` when it lies inside a comment. -/
def commentType (buf : List Nat) (i : Nat) : SyntaxType :=
  if buf.getD i 0 = 32 then SyntaxType.Whitespace else SyntaxType.Comment

/-- The syntax map classifies the offsets from `p` up to but not including `q` as a comment. -/
def CommentMarked (buf : List Nat) (syn : List SyntaxType) (p q : Nat) : Prop :=
  ∀ i, p ≤ i → i < q → syn[i]? = some (commentType buf i)

/-- A buffer holding `"a\n  // b\nc"` and its terminator, with its line index. -/
def commentBuffer : PicoVimBuffer :=
  ⟨[97, 10, 32, 32, 47, 47, 32, 98, 10, 99, 0], [2, 9, 11], 3, []⟩

/-- The `for` loop of `LocationFromOffsetByChars` with `count` iterations left; a `break` returns
`current` as it is.  The comparisons with `m_buffer.size()` and the subscripts convert the `long`
to `size_t`. -/
def stepChars (buf : List Nat) (dir : Int) (firstCR nextCR : Nat) : Nat → Int → Int
  | 0, current => current
  | count + 1, current =>
    let current1 := if dir = -1 then current + dir else current
    if asSizeT current1 ≥ buf.length then current1
    else if buf.getD (asSizeT current1) 0 = firstCR then
      if asSizeT (current1 + dir) ≥ buf.length then current1
      else
        let current2 :=
          if buf.getD (asSizeT (current1 + dir)) 0 = nextCR then current1 + dir else current1
        let current3 := if dir = 1 then current2 + dir else current2
        stepChars buf dir firstCR nextCR count current3
    else
      let current3 := if dir = 1 then current1 + dir else current1
      stepChars buf dir firstCR nextCR count current3

/-- The method `PicoVimBuffer::LocationFromOffsetByChars`; `LocationFromOffset(current)` wraps
`current` unchanged, and `std::swap` exchanges the two symbols when walking back.  The number
of iterations, `std::abs(offset)`, is the absolute value for every `long` above `LONG_MIN`; at
`offset = LONG_MIN` the negation overflows in the source, and that call is outside what this
definition describes. -/
def LocationFromOffsetByChars (b : PicoVimBuffer) (location offset : Int) : Int :=
  let dir : Int := if offset > 0 then 1 else -1
  let firstCR := if dir < 0 then LF else CR
  let nextCR := if dir < 0 then CR else LF
  stepChars b.m_buffer dir firstCR nextCR offset.natAbs location

/-- The method `PicoVimBuffer::LineFromOffset`; `long(m_lineEnds.size() - 1)` is the number of
entries less one, also for an empty index, where it is -1. -/
def LineFromOffset (b : PicoVimBuffer) (offset : Int) : Int :=
  let itrLine0 := lower_bound b.m_lineEnds offset
  let itrLine :=
    if itrLine0 ≠ b.m_lineEnds.length ∧ offset ≥ b.m_lineEnds.getD itrLine0 0
    then itrLine0 + 1 else itrLine0
  let line : Int := (itrLine : Int)
  min (max 0 line) ((b.m_lineEnds.length : Int) - 1)

/-- The enumeration `LineLocation`, with the values that `GetLinePos` tells apart. -/
inductive LineLocation where
  | LineBegin
  | LineEnd
  | LineCRBegin
  | LineFirstGraphChar
  | LineLastNonCR
  | LineLastGraphChar
  deriving DecidableEq, Repr

/-- Conversion of a `long` to `int` (32 bits), as in the assignment to `searchStart`. -/
def toInt32 (x : Int) : Int := (x + 2 ^ 31) % 2 ^ 32 - 2 ^ 31

/-- The call `std::find_if(first, last, pred)` over iterators of the store: the first iterator
from `itr` on whose byte satisfies `pred`, or `last`. -/
def findIf (buf : List Nat) (pred : Nat → Bool) (last : Int) : Nat → Int → Except Fault Int
  | 0, _ => .error Fault.outOfFuel
  | fuel + 1, itr =>
    if itr = last then .ok itr
    else
      match deref buf itr with
      | .error e => .error e
      | .ok ch => if pred ch then .ok itr else findIf buf pred last fuel (itr + 1)

/-- The call `std::find_if` over reverse iterators of the store; the iterators are given by
their `base()`, and the byte under a reverse iterator is the one before its base. -/
def findIfReverse (buf : List Nat) (pred : Nat → Bool) (rend : Int) :
    Nat → Int → Except Fault Int
  | 0, _ => .error Fault.outOfFuel
  | fuel + 1, base =>
    if base = rend then .ok base
    else
      match deref buf (base - 1) with
      | .error e => .error e
      | .ok ch => if pred ch then .ok base else findIfReverse buf pred rend fuel (base - 1)

/-- The method `PicoVimBuffer::GetLinePos`. -/
def GetLinePos (b : PicoVimBuffer) (line : Int) (location : LineLocation) : Except Fault Int :=
  let buf := b.m_buffer
  let fuel := buf.length + 1
  let line1 : Int :=
    if b.m_lineEnds.length ≤ asSizeT line then max 0 ((b.m_lineEnds.length : Int) - 1)
    else if line < 0 then 0 else line
  if b.m_lineEnds = [] then .ok 0
  else
    let searchEnd := b.m_lineEnds.getD line1.toNat 0
    let searchStart : Int :=
      if line1 > 0 then toInt32 (b.m_lineEnds.getD (line1 - 1).toNat 0) else 0
    match location with
    | .LineBegin => .ok searchStart
    | .LineEnd => .ok searchEnd
    | .LineCRBegin =>
      findIf buf (fun ch => decide (ch = 10) || decide (ch = 13) || decide (ch = 0))
        ((buf.length : Int) + searchEnd) fuel searchStart
    | .LineFirstGraphChar =>
      findIf buf (fun ch => decide (ch ≠ 0) && isgraph ch)
        ((buf.length : Int) + searchEnd) fuel searchStart
    | .LineLastNonCR =>
      match findIfReverse buf
          (fun ch => decide (ch ≠ 13) && decide (ch ≠ 10) && decide (ch ≠ 0))
          searchStart fuel searchEnd with
      | .error e => .error e
      | .ok base => .ok (if base = searchStart then searchEnd else base - 1)
    | .LineLastGraphChar =>
      match findIfReverse buf isgraph searchStart fuel searchEnd with
      | .error e => .error e
      | .ok base => .ok (if base = searchStart then searchEnd else base - 1)

/-- The subscripts of the reads `m_buffer[...]` that the loop of `LocationFromOffsetByChars`
performs, in order; the control flow is that of `stepChars`. -/
def stepCharsReads (buf : List Nat) (dir : Int) (firstCR nextCR : Nat) : Nat → Int → List Nat
  | 0, _ => []
  | count + 1, current =>
    let current1 := if dir = -1 then current + dir else current
    if asSizeT current1 ≥ buf.length then []
    else if buf.getD (asSizeT current1) 0 = firstCR then
      if asSizeT (current1 + dir) ≥ buf.length then [asSizeT current1]
      else
        let current2 :=
          if buf.getD (asSizeT (current1 + dir)) 0 = nextCR then current1 + dir else current1
        let current3 := if dir = 1 then current2 + dir else current2
        asSizeT current1 :: asSizeT (current1 + dir) ::
          stepCharsReads buf dir firstCR nextCR count current3
    else
      let current3 := if dir = 1 then current1 + dir else current1
      asSizeT current1 :: stepCharsReads buf dir firstCR nextCR count current3

/-- The subscripts of the store reads of a call of `LocationFromOffsetByChars`. -/
def LocationFromOffsetByCharsReads (b : PicoVimBuffer) (location offset : Int) : List Nat :=
  let dir : Int := if offset > 0 then 1 else -1
  let firstCR := if dir < 0 then LF else CR
  let nextCR := if dir < 0 then CR else LF
  stepCharsReads b.m_buffer dir firstCR nextCR offset.natAbs location

/-! ## Searching for line-end symbols -/

theorem findFirstOfAux_le (syms : List Nat) (l : List Nat) :
    findFirstOfAux syms l ≤ l.length := by
  induction l with
  | nil => simp [findFirstOfAux]
  | cons c cs ih =>
    simp only [findFirstOfAux, List.length_cons]
    split <;> omega

theorem findFirstOfAux_not_mem (syms : List Nat) (l : List Nat) (q : Nat)
    (hq : q < findFirstOfAux syms l) : l.getD q 0 ∉ syms := by
  induction l generalizing q with
  | nil => simp [findFirstOfAux] at hq
  | cons c cs ih =>
    simp only [findFirstOfAux] at hq
    split at hq
    · omega
    · rename_i hc
      cases q with
      | zero => simpa using hc
      | succ q =>
        have := ih q (by omega)
        simpa using this

theorem findFirstOfAux_mem (syms : List Nat) (l : List Nat)
    (h : findFirstOfAux syms l < l.length) : l.getD (findFirstOfAux syms l) 0 ∈ syms := by
  induction l with
  | nil => simp at h
  | cons c cs ih =>
    simp only [findFirstOfAux] at h ⊢
    split
    · rename_i hc
      simpa using hc
    · rename_i hc
      rw [if_neg hc] at h
      have := ih (by simpa using h)
      simpa using this

theorem getD_drop (buf : List Nat) (i q : Nat) : (buf.drop i).getD q 0 = buf.getD (i + q) 0 := by
  simp [List.getD_eq_getElem?_getD, List.getElem?_drop]

theorem find_first_of_ge (buf : List Nat) (i : Nat) (syms : List Nat) :
    i ≤ find_first_of buf i syms := by
  unfold find_first_of; omega

theorem find_first_of_le (buf : List Nat) (i : Nat) (syms : List Nat) (hi : i ≤ buf.length) :
    find_first_of buf i syms ≤ buf.length := by
  unfold find_first_of
  have := findFirstOfAux_le syms (buf.drop i)
  simp only [List.length_drop] at this
  omega

theorem find_first_of_not_mem (buf : List Nat) (i : Nat) (syms : List Nat) (q : Nat)
    (hiq : i ≤ q) (hq : q < find_first_of buf i syms) : buf.getD q 0 ∉ syms := by
  unfold find_first_of at hq
  have := findFirstOfAux_not_mem syms (buf.drop i) (q - i) (by omega)
  rw [getD_drop] at this
  have e : i + (q - i) = q := by omega
  rwa [e] at this

theorem find_first_of_mem (buf : List Nat) (i : Nat) (syms : List Nat)
    (h : find_first_of buf i syms < buf.length) :
    buf.getD (find_first_of buf i syms) 0 ∈ syms := by
  unfold find_first_of at h ⊢
  have := findFirstOfAux_mem syms (buf.drop i) (by simp only [List.length_drop]; omega)
  rwa [getD_drop] at this

/-! ## One step of the line scanners -/

theorem isLineEnd_true_iff (buf : List Nat) (p : Nat) :
    isLineEnd buf p = true ↔
      buf.getD (p - 1) 0 = LF ∨ (buf.getD (p - 1) 0 = CR ∧ buf.getD p 0 ≠ LF) := by
  simp only [isLineEnd, Bool.or_eq_true, Bool.and_eq_true, decide_eq_true_eq]

theorem isLineEnd_false_iff (buf : List Nat) (p : Nat) :
    isLineEnd buf p = false ↔
      buf.getD (p - 1) 0 ≠ LF ∧ (buf.getD (p - 1) 0 = CR → buf.getD p 0 = LF) := by
  rw [← Bool.not_eq_true, isLineEnd_true_iff]
  constructor
  · intro h
    refine ⟨fun h1 => h (Or.inl h1), fun h1 => ?_⟩
    by_contra h2
    exact h (Or.inr ⟨h1, h2⟩)
  · rintro ⟨h1, h2⟩ (h | ⟨h3, h4⟩)
    · exact h1 h
    · exact h4 (h2 h3)

theorem skipLineEnd_bounds (buf : List Nat) (i : Nat) (hi : i < buf.length) :
    i < skipLineEnd buf i ∧ skipLineEnd buf i ≤ buf.length := by
  have h1 := find_first_of_ge buf i lineEndSymbols
  have h2 := find_first_of_le buf i lineEndSymbols (by omega)
  have h3 : find_first_of buf i lineEndSymbols < buf.length →
      buf.getD (find_first_of buf i lineEndSymbols) 0 = CR ∨
      buf.getD (find_first_of buf i lineEndSymbols) 0 = LF := by
    intro h
    have := find_first_of_mem buf i lineEndSymbols h
    simpa [lineEndSymbols] using this
  unfold skipLineEnd
  simp only
  generalize find_first_of buf i lineEndSymbols = k at *
  by_cases hk : k = buf.length
  · rw [if_neg (by simpa using hk)]
    omega
  · rw [if_pos hk]
    by_cases hcr : buf.getD k 0 = CR
    · rw [if_pos hcr]
      split
      · rename_i h
        have := h.1
        omega
      · omega
    · rw [if_neg hcr]
      have hlf : buf.getD k 0 = LF := by
        rcases h3 (by omega) with h | h
        · exact absurd h hcr
        · exact h
      rw [if_pos ⟨hk, hlf⟩]
      omega

theorem skipLineEnd_gt (buf : List Nat) (i : Nat) (hi : i < buf.length) :
    i < skipLineEnd buf i := (skipLineEnd_bounds buf i hi).1

theorem skipLineEnd_le (buf : List Nat) (i : Nat) (hi : i ≤ buf.length) :
    skipLineEnd buf i ≤ buf.length := by
  by_cases h : i < buf.length
  · exact (skipLineEnd_bounds buf i h).2
  · have e : i = buf.length := by omega
    subst e
    unfold skipLineEnd find_first_of
    simp [findFirstOfAux]

theorem sentinel_last (buf : List Nat) (hs : Sentinel buf) (q : Nat) (hq : q < buf.length)
    (hne : buf.getD q 0 ≠ 0) : q + 1 < buf.length := by
  obtain ⟨hlen, hlast⟩ := hs
  by_contra hcon
  have e : q = buf.length - 1 := by omega
  subst e
  apply hne
  rw [List.getD_eq_getElem _ _ hq] at *
  exact hlast

/-- What one step of the scanner does on a store with the sentinel: either there is no line
end after `i` and the iterator reaches the end, or it lands on the first line end after `i`. -/
theorem skipLineEnd_spec (buf : List Nat) (hs : Sentinel buf) (i : Nat) (hi : i < buf.length) :
    (skipLineEnd buf i = buf.length ∧
        ∀ p, i < p → p < buf.length → isLineEnd buf p = false) ∨
    (i < skipLineEnd buf i ∧ skipLineEnd buf i < buf.length ∧
        isLineEnd buf (skipLineEnd buf i) = true ∧
        ∀ p, i < p → p < skipLineEnd buf i → isLineEnd buf p = false) := by
  have hle := find_first_of_le buf i lineEndSymbols (by omega)
  have hge := find_first_of_ge buf i lineEndSymbols
  have hnot : ∀ q, i ≤ q → q < find_first_of buf i lineEndSymbols →
      buf.getD q 0 ≠ CR ∧ buf.getD q 0 ≠ LF := by
    intro q h1 h2
    have := find_first_of_not_mem buf i lineEndSymbols q h1 h2
    simpa [lineEndSymbols] using this
  have hbefore : ∀ p, i < p → p ≤ find_first_of buf i lineEndSymbols →
      isLineEnd buf p = false := by
    intro p h1 h2
    have := hnot (p - 1) (by omega) (by omega)
    rw [isLineEnd_false_iff]
    exact ⟨this.2, fun h => absurd h this.1⟩
  unfold skipLineEnd
  simp only
  by_cases hk : find_first_of buf i lineEndSymbols = buf.length
  · left
    rw [if_neg (by simpa using hk)]
    exact ⟨hk, fun p h1 h2 => hbefore p h1 (by omega)⟩
  · right
    rw [if_pos hk]
    generalize hkdef : find_first_of buf i lineEndSymbols = k at *
    have hklt : k < buf.length := by omega
    have hmem : buf.getD k 0 = CR ∨ buf.getD k 0 = LF := by
      have := find_first_of_mem buf i lineEndSymbols (by rw [hkdef]; exact hklt)
      rw [hkdef] at this
      simpa [lineEndSymbols] using this
    have hk1 : k + 1 < buf.length := by
      apply sentinel_last buf hs k hklt
      rcases hmem with h | h <;> rw [h] <;> decide
    rcases hmem with hcr | hlf
    · rw [if_pos hcr]
      by_cases hnl : buf.getD (k + 1) 0 = LF
      · rw [if_pos ⟨by omega, hnl⟩]
        have hk2 : k + 2 < buf.length := by
          apply sentinel_last buf hs (k + 1) hk1
          rw [hnl]; decide
        refine ⟨by omega, hk2, ?_, ?_⟩
        · rw [isLineEnd_true_iff]
          exact Or.inl hnl
        · intro p h1 h2
          by_cases hp : p ≤ k
          · exact hbefore p h1 hp
          · have e : p = k + 1 := by omega
            subst e
            rw [isLineEnd_false_iff]
            refine ⟨?_, fun _ => hnl⟩
            show buf.getD k 0 ≠ LF
            rw [hcr]; decide
      · rw [if_neg (fun h => hnl h.2)]
        refine ⟨by omega, hk1, ?_, ?_⟩
        · rw [isLineEnd_true_iff]
          exact Or.inr ⟨hcr, hnl⟩
        · intro p h1 h2
          exact hbefore p h1 (by omega)
    · have hncr : buf.getD k 0 ≠ CR := by rw [hlf]; decide
      rw [if_neg hncr, if_pos ⟨hk, hlf⟩]
      refine ⟨by omega, hk1, ?_, ?_⟩
      · rw [isLineEnd_true_iff]
        exact Or.inl hlf
      · intro p h1 h2
        exact hbefore p h1 (by omega)

/-! ## The full scan -/

theorem lineEndsAfter_none (buf : List Nat) (i : Nat)
    (h : ∀ p, i < p → p < buf.length → isLineEnd buf p = false) : lineEndsAfter buf i = [] := by
  unfold lineEndsAfter
  rw [List.map_eq_nil_iff, List.filter_eq_nil_iff]
  intro p hp
  rw [List.mem_range'_1] at hp
  rw [h p (by omega) (by omega)]
  simp

theorem lineEndsAfter_step (buf : List Nat) (i j : Nat) (hij : i < j) (hj : j < buf.length)
    (hend : isLineEnd buf j = true) (h : ∀ p, i < p → p < j → isLineEnd buf p = false) :
    lineEndsAfter buf i = (j : Int) :: lineEndsAfter buf j := by
  unfold lineEndsAfter
  have e1 : List.range' (i + 1) (buf.length - 1 - i) =
      List.range' (i + 1) (j - 1 - i) ++ List.range' j (buf.length - 1 - j + 1) := by
    have := List.range'_append_1 (i + 1) (j - 1 - i) (buf.length - 1 - j + 1)
    have e2 : i + 1 + (j - 1 - i) = j := by omega
    have e3 : buf.length - 1 - j + 1 + (j - 1 - i) = buf.length - 1 - i := by omega
    rw [e2, e3] at this
    exact this.symm
  rw [e1, List.range'_succ, List.filter_append, List.filter_cons, if_pos hend]
  have e4 : (List.range' (i + 1) (j - 1 - i)).filter (isLineEnd buf) = [] := by
    rw [List.filter_eq_nil_iff]
    intro p hp
    rw [List.mem_range'_1] at hp
    rw [h p (by omega) (by omega)]
    simp
  rw [e4]
  rfl

theorem lineEndsAfter_last (buf : List Nat) : lineEndsAfter buf (buf.length - 1) = [] := by
  apply lineEndsAfter_none
  intro p h1 h2
  omega

/-- The loop of `FindLineEnds`, never cancelled, on a store with the sentinel: started at a
line start `i` with enough fuel it appends the reference line ends after `i` and then the
length of the store, and leaves the counter at the number of entries. -/
theorem findLineEndsLoop_spec (buf : List Nat) (hs : Sentinel buf) :
    ∀ (fuel iter i : Nat) (ends : List Int) (processed : Int),
      i < buf.length → buf.length - i + 1 ≤ fuel →
      findLineEndsLoop (fun _ => false) buf fuel iter i ends processed =
        .ok (ends ++ lineEndsAfter buf i ++ [(buf.length : Int)],
          ((ends ++ lineEndsAfter buf i ++ [(buf.length : Int)]).length : Int)) := by
  intro fuel
  induction fuel with
  | zero => intro iter i ends processed hi hf; omega
  | succ fuel ih =>
    intro iter i ends processed hi hf
    rw [findLineEndsLoop, if_neg (by omega)]
    simp only [Bool.false_eq_true, if_false]
    rcases skipLineEnd_spec buf hs i hi with ⟨hj, hnone⟩ | ⟨hij, hj, hend, hnone⟩
    · rw [hj, lineEndsAfter_none buf i hnone]
      cases fuel with
      | zero => omega
      | succ fuel =>
        rw [findLineEndsLoop, if_pos rfl]
        simp
    · rw [ih (iter + 1) (skipLineEnd buf i) _ _ hj (by omega),
        lineEndsAfter_step buf i (skipLineEnd buf i) hij hj hend hnone]
      simp

theorem refLineEnds_eq (buf : List Nat) :
    refLineEnds buf = lineEndsAfter buf 0 ++ [(buf.length : Int)] := by
  simp [refLineEnds, lineEndsAfter]

/-- The full scan of a store with the sentinel returns, and the line index it leaves is the
reference line split, the counter being the number of entries. -/
theorem FindLineEnds_eq (b : PicoVimBuffer) (hs : Sentinel b.m_buffer) :
    FindLineEnds (fun _ => false) b =
      .ok { b with m_lineEnds := refLineEnds b.m_buffer,
                   m_processedLine := ((refLineEnds b.m_buffer).length : Int) } := by
  unfold FindLineEnds
  rw [findLineEndsLoop_spec b.m_buffer hs _ 0 0 [] 0 hs.1 (by omega), refLineEnds_eq]
  simp

theorem refLineEnds_pairwise (buf : List Nat) :
    (refLineEnds buf).Pairwise (fun x y => x < y) := by
  unfold refLineEnds
  rw [List.pairwise_append]
  refine ⟨?_, List.pairwise_singleton _ _, ?_⟩
  · apply List.Pairwise.map Int.ofNat (fun a b (h : a < b) => Int.ofNat_lt.mpr h)
    exact List.Pairwise.filter _ (List.pairwise_lt_range' 1 (buf.length - 1))
  · intro x hx y hy
    rw [List.mem_singleton] at hy
    subst hy
    rw [List.mem_map] at hx
    obtain ⟨p, hp, rfl⟩ := hx
    have := (List.mem_filter.mp hp).1
    rw [List.mem_range'_1] at this
    show (p : Int) < (buf.length : Int)
    omega

/-- Claim C9: on a store with the sentinel, a completed (never cancelled) `FindLineEnds` leaves
the store as it was and a line index that is not empty, strictly increasing and ends with the
store length, with the processed-line counter equal to the number of entries. -/
theorem FindLineEnds_consistent (b : PicoVimBuffer) (hs : Sentinel b.m_buffer) :
    ∃ b1, FindLineEnds (fun _ => false) b = .ok b1 ∧
      b1.m_buffer = b.m_buffer ∧
      b1.m_lineEnds ≠ [] ∧
      b1.m_lineEnds.Pairwise (fun x y => x < y) ∧
      b1.m_lineEnds.getLast? = some (b.m_buffer.length : Int) ∧
      b1.m_processedLine = (b1.m_lineEnds.length : Int) := by
  refine ⟨_, FindLineEnds_eq b hs, rfl, ?_, refLineEnds_pairwise _, ?_, rfl⟩
  · simp [refLineEnds]
  · simp [refLineEnds]

/-- Witness for C9 on the store `"a\r\nb"` plus terminator. -/
theorem FindLineEnds_consistent_witness :
    Sentinel sampleCRLF.m_buffer ∧
    ∃ b1, FindLineEnds (fun _ => false) sampleCRLF = .ok b1 ∧
      b1.m_buffer = sampleCRLF.m_buffer ∧
      b1.m_lineEnds ≠ [] ∧
      b1.m_lineEnds.Pairwise (fun x y => x < y) ∧
      b1.m_lineEnds.getLast? = some (sampleCRLF.m_buffer.length : Int) ∧
      b1.m_processedLine = (b1.m_lineEnds.length : Int) :=
  ⟨by decide, FindLineEnds_consistent sampleCRLF (by decide)⟩

/-- Claim C10: on a store with the sentinel, a completed `FindLineEnds` returns and leaves
exactly the reference line split: the positions `p` in `1 .. length - 1` whose previous byte is
LF, or is CR not followed by LF, in increasing order, followed by the store length. -/
theorem FindLineEnds_eq_refLineEnds (b : PicoVimBuffer) (hs : Sentinel b.m_buffer) :
    ∃ b1, FindLineEnds (fun _ => false) b = .ok b1 ∧
      b1.m_lineEnds = ((List.range' 1 (b.m_buffer.length - 1)).filter (fun p =>
          decide (b.m_buffer.getD (p - 1) 0 = LF) ||
          (decide (b.m_buffer.getD (p - 1) 0 = CR) && decide (b.m_buffer.getD p 0 ≠ LF)))).map
          Int.ofNat ++ [(b.m_buffer.length : Int)] :=
  ⟨_, FindLineEnds_eq b hs, rfl⟩

/-- Witness for C10 on the store `"a\r\nb"` plus terminator: the index is `[3, 5]`. -/
theorem FindLineEnds_eq_refLineEnds_witness :
    Sentinel sampleCRLF.m_buffer ∧
    ∃ b1, FindLineEnds (fun _ => false) sampleCRLF = .ok b1 ∧ b1.m_lineEnds = [3, 5] :=
  ⟨by decide, by
    obtain ⟨b1, h1, h2⟩ := FindLineEnds_eq_refLineEnds sampleCRLF (by decide)
    exact ⟨b1, h1, by rw [h2]; decide⟩⟩

/-! ## Insert -/

theorem asSizeT_le (o : Int) (h0 : 0 ≤ o) : asSizeT o ≤ o.toNat := by
  unfold asSizeT
  omega

theorem asSizeT_eq (o : Int) (h0 : 0 ≤ o) (h1 : o < 2 ^ 64) : asSizeT o = o.toNat := by
  unfold asSizeT
  omega

theorem asSizeT_neg (o : Int) (h0 : o < 0) (h1 : -2 ^ 63 ≤ o) : 2 ^ 63 ≤ asSizeT o := by
  unfold asSizeT
  omega

/-- The scan of the inserted string returns: the fuel given by `Insert` is enough. -/
theorem insertScanLoop_ok (str : List Nat) (o : Int) :
    ∀ (fuel itr : Nat) (lines : List Int), itr ≤ str.length → str.length - itr + 1 ≤ fuel →
      ∃ r, insertScanLoop str o fuel itr lines = .ok r := by
  intro fuel
  induction fuel with
  | zero => intro itr lines h1 h2; omega
  | succ fuel ih =>
    intro itr lines h1 h2
    rw [insertScanLoop]
    by_cases he : itr = str.length
    · rw [if_pos he]
      exact ⟨_, rfl⟩
    · rw [if_neg he]
      have hb := skipLineEnd_bounds str itr (by omega)
      simp only
      split
      · exact ih _ _ hb.2 (by omega)
      · exact ih _ _ hb.2 (by omega)

/-- The result of an accepted `Insert`: it returns true, the store is spliced, the line index
is the patched one for the lines found in the inserted string, the counter grows by their number,
and two messages are published, one before and one after the change. -/
theorem Insert_accepted (b : PicoVimBuffer) (o : Int) (t : List Nat) (c : Int)
    (h : ¬ asSizeT o > b.m_buffer.length) :
    ∃ b1 lines, Insert b o t c = .ok (true, b1) ∧
      insertScanLoop t o (t.length + 1) 0 [] = .ok lines ∧
      b1.m_buffer = b.m_buffer.take o.toNat ++ t ++ b.m_buffer.drop o.toNat ∧
      b1.m_lineEnds = insertLineEnds b.m_lineEnds (insertItrLine b.m_lineEnds o) t.length lines ∧
      b1.m_processedLine = b.m_processedLine + (lines.length : Int) ∧
      b1.m_published = b.m_published ++
        [⟨⟨.PreBufferChange, o, (b.m_buffer.length : Int), none⟩, b.m_buffer, b.m_lineEnds⟩,
         ⟨⟨.TextAdded, o, (b.m_buffer.length : Int), some c⟩, b1.m_buffer, b1.m_lineEnds⟩] := by
  obtain ⟨lines, hl⟩ := insertScanLoop_ok t o (t.length + 1) 0 [] (by omega) (by omega)
  unfold Insert
  rw [if_neg h]
  simp only [hl]
  refine ⟨_, lines, rfl, rfl, rfl, rfl, ?_, ?_⟩
  · simp only [Broadcast]
    split
    · rfl
    · rename_i hne
      rw [not_not.mp hne]
      simp
  · simp only [Broadcast, List.append_assoc]
    rfl

/-- Claim C2: an `Insert` at an offset between 0 and the store length returns true, and the
store becomes the old bytes before the offset, then the text, then the old bytes from the offset
on; its length grows by the length of the text. -/
theorem Insert_success (b : PicoVimBuffer) (o : Int) (t : List Nat) (c : Int)
    (h0 : 0 ≤ o) (h1 : o ≤ (b.m_buffer.length : Int)) :
    ∃ b1, Insert b o t c = .ok (true, b1) ∧
      b1.m_buffer = b.m_buffer.take o.toNat ++ t ++ b.m_buffer.drop o.toNat ∧
      b1.m_buffer.length = b.m_buffer.length + t.length := by
  have hle := asSizeT_le o h0
  obtain ⟨b1, _, hb1, _, hbuf, _⟩ := Insert_accepted b o t c (by omega)
  refine ⟨b1, hb1, hbuf, ?_⟩
  rw [hbuf]
  simp only [List.length_append, List.length_take, List.length_drop]
  omega

/-- Witness for C2: inserting `"x"` at offset 2 of `"a\r\nb"` plus terminator. -/
theorem Insert_success_witness :
    ∃ b1, Insert sampleCRLF 2 [120] 3 = .ok (true, b1) ∧
      b1.m_buffer = sampleCRLF.m_buffer.take 2 ++ [120] ++ sampleCRLF.m_buffer.drop 2 ∧
      b1.m_buffer.length = sampleCRLF.m_buffer.length + 1 :=
  Insert_success sampleCRLF 2 [120] 3 (by decide) (by decide)

/-- Claim C3: an `Insert` whose offset is negative or greater than the store length returns
false and leaves the whole buffer state as it was: store, line index, processed-line counter and
the list of published messages.  Offsets are `long`s and the store has fewer than `2 ^ 63`
bytes. -/
theorem Insert_rejected (b : PicoVimBuffer) (o : Int) (t : List Nat) (c : Int)
    (hlo : -2 ^ 63 ≤ o) (hhi : o < 2 ^ 63) (hsize : b.m_buffer.length < 2 ^ 63)
    (h : o < 0 ∨ (b.m_buffer.length : Int) < o) :
    Insert b o t c = .ok (false, b) := by
  unfold Insert
  rw [if_pos]
  rcases h with h | h
  · have := asSizeT_neg o h hlo
    omega
  · have := asSizeT_eq o (by omega) (by omega)
    omega

/-- Witness for C3: offsets -1 and 6 on a store of five bytes. -/
theorem Insert_rejected_witness :
    Insert sampleCRLF (-1) [120] 0 = .ok (false, sampleCRLF) ∧
    Insert sampleCRLF 6 [120] 0 = .ok (false, sampleCRLF) :=
  ⟨Insert_rejected sampleCRLF (-1) [120] 0 (by decide) (by decide) (by decide) (by decide),
   Insert_rejected sampleCRLF 6 [120] 0 (by decide) (by decide) (by decide) (by decide)⟩

/-! ## The sentinel and the binary searches -/

theorem sentinel_iff_getLast (buf : List Nat) : Sentinel buf ↔ buf.getLast? = some 0 := by
  unfold Sentinel
  rw [List.getLast?_eq_getElem?]
  constructor
  · rintro ⟨h1, h2⟩
    rw [List.getD_eq_getElem _ _ (by omega)] at h2
    rw [List.getElem?_eq_getElem (by omega), h2]
  · intro h
    have hlen : buf.length > 0 := by
      rcases Nat.eq_zero_or_pos buf.length with h0 | h0
      · rw [List.length_eq_zero] at h0
        subst h0
        simp at h
      · exact h0
    refine ⟨hlen, ?_⟩
    rw [List.getD_eq_getElem _ _ (by omega)]
    rw [List.getElem?_eq_getElem (by omega)] at h
    exact Option.some.inj h

/-- Erasing a range that ends before the terminator keeps the sentinel. -/
theorem sentinel_erase (buf : List Nat) (hs : Sentinel buf) (s e : Nat)
    (he : e ≤ buf.length - 1) : Sentinel (buf.take s ++ buf.drop e) := by
  have hlen := hs.1
  rw [sentinel_iff_getLast] at hs ⊢
  rw [List.getLast?_append, List.getLast?_drop, if_neg (by omega), hs]
  rfl

theorem takeWhile_length_lt {p : Int → Bool} (ys : List Int) (m : Int) (hm : p m = false) :
    (List.takeWhile p (ys ++ [m])).length < (ys ++ [m]).length := by
  induction ys with
  | nil => simp [List.takeWhile, hm]
  | cons y ys ih =>
    simp only [List.cons_append, List.takeWhile_cons, List.length_cons]
    split
    · simp only [List.length_cons]
      omega
    · simp

theorem lower_bound_le (xs : List Int) (v : Int) : lower_bound xs v ≤ xs.length := by
  unfold lower_bound
  exact (List.takeWhile_sublist _).length_le

/-- When the last entry is not below the value searched for, `lower_bound` is not `end()`. -/
theorem lower_bound_lt (xs : List Int) (v m : Int) (hlast : xs.getLast? = some m) (hm : v ≤ m) :
    lower_bound xs v < xs.length := by
  obtain ⟨ys, rfl⟩ := List.getLast?_eq_some_iff.mp hlast
  unfold lower_bound
  apply takeWhile_length_lt
  simp only [decide_eq_false_iff_not]
  omega

theorem takeWhile_head_length {p : Int → Bool} (xs : List Int) (k : Nat) (hk : k < xs.length)
    (h : p (xs.getD k 0) = true) : 1 ≤ ((xs.drop k).takeWhile p).length := by
  rw [List.getD_eq_getElem _ _ hk] at h
  rw [List.drop_eq_getElem_cons hk, List.takeWhile_cons, if_pos h]
  simp

/-- In `Delete`, `itrLine` never passes `itrLastLine` when `startOffset ≤ endOffset`. -/
theorem itrLine_le_itrLastLine (xs : List Int) (s e : Int) (hse : s ≤ e)
    (hk : lower_bound xs s < xs.length) :
    (if xs.getD (lower_bound xs s) 0 ≤ s then lower_bound xs s + 1 else lower_bound xs s) ≤
      upper_bound xs (lower_bound xs s) e := by
  unfold upper_bound
  split
  · rename_i h
    have := takeWhile_head_length (p := fun x => decide (x ≤ e)) xs (lower_bound xs s) hk
      (by simp only [decide_eq_true_eq]; omega)
    omega
  · omega

/-! ## Delete -/

/-- The result of a `Delete` within its precondition on a store with the sentinel, when the
line index has an entry not below `startOffset`: it returns true, the byte range is erased and
the line index is the patched one. -/
theorem Delete_accepted (b : PicoVimBuffer) (s e c : Int) (hs : Sentinel b.m_buffer)
    (hsize : b.m_buffer.length < 2 ^ 63) (h0 : 0 ≤ s) (hse : s ≤ e)
    (he : e ≤ (b.m_buffer.length : Int) - 1)
    (hk : lower_bound b.m_lineEnds s < b.m_lineEnds.length) :
    ∃ b1, Delete b s e c = .ok (true, b1) ∧
      b1.m_buffer = b.m_buffer.take s.toNat ++ b.m_buffer.drop e.toNat ∧
      b1.m_lineEnds = deleteLineEnds b.m_lineEnds s e ∧
      Sentinel b1.m_buffer ∧
      b1.m_processedLine = b.m_processedLine -
        ((upper_bound b.m_lineEnds (lower_bound b.m_lineEnds s) e : Int) -
          (insertItrLine b.m_lineEnds s : Int)) ∧
      b1.m_published = b.m_published ++
        [⟨⟨.PreBufferChange, s, e, none⟩, b.m_buffer, b.m_lineEnds⟩,
         ⟨⟨.TextDeleted, s, e, some c⟩, b1.m_buffer, b1.m_lineEnds⟩] := by
  have hlen := hs.1
  have hassert : s ≥ 0 ∧ asSizeT e ≤ (b.m_buffer.length + 2 ^ 64 - 1) % 2 ^ 64 := by
    have := asSizeT_eq e (by omega) (by omega)
    refine ⟨h0, ?_⟩
    omega
  have hsent : Sentinel (b.m_buffer.take s.toNat ++ b.m_buffer.drop e.toNat) :=
    sentinel_erase b.m_buffer hs s.toNat e.toNat (by omega)
  have horder := itrLine_le_itrLastLine b.m_lineEnds s e hse hk
  have hpost := hsent
  unfold Sentinel at hpost
  unfold Delete
  rw [if_neg (not_not.mpr hassert)]
  simp only [Broadcast, GapBuffer.erase]
  rw [if_neg (by omega), if_neg (by omega), if_neg (by omega), if_neg (not_not.mpr hpost)]
  refine ⟨_, rfl, rfl, rfl, hsent, ?_, ?_⟩
  · have hitr : insertItrLine b.m_lineEnds s =
        (if b.m_lineEnds.getD (lower_bound b.m_lineEnds s) 0 ≤ s then lower_bound b.m_lineEnds s + 1
          else lower_bound b.m_lineEnds s) := by
      unfold insertItrLine
      simp only
      split
      · rename_i h
        rw [if_pos h.2]
      · rename_i h
        rw [if_neg (fun h2 => h ⟨by omega, h2⟩)]
    rw [hitr]
    simp only
    generalize (if b.m_lineEnds.getD (lower_bound b.m_lineEnds s) 0 ≤ s
      then lower_bound b.m_lineEnds s + 1 else lower_bound b.m_lineEnds s) = i
    generalize upper_bound b.m_lineEnds (lower_bound b.m_lineEnds s) e = j
    by_cases hij : i = j
    · rw [if_neg (not_not.mpr hij), hij]
      omega
    · rw [if_pos hij]
  · simp only [List.append_assoc]
    rfl

/-- Claim C4: on a store with the sentinel and a complete line index, a `Delete` with
`0 ≤ start ≤ end ≤ length - 1` returns true (it neither returns early nor trips an assertion),
the store becomes the old bytes before `start` followed by the old bytes from `end` on, and it
still has the sentinel.  The store has fewer than `2 ^ 63` bytes. -/
theorem Delete_success (b : PicoVimBuffer) (s e c : Int) (hs : Sentinel b.m_buffer)
    (hidx : CompleteIndex b.m_lineEnds b.m_buffer.length)
    (hsize : b.m_buffer.length < 2 ^ 63) (h0 : 0 ≤ s) (hse : s ≤ e)
    (he : e ≤ (b.m_buffer.length : Int) - 1) :
    ∃ b1, Delete b s e c = .ok (true, b1) ∧
      b1.m_buffer = b.m_buffer.take s.toNat ++ b.m_buffer.drop e.toNat ∧
      Sentinel b1.m_buffer := by
  have hk := lower_bound_lt b.m_lineEnds s _ hidx.2 (by omega)
  obtain ⟨b1, h1, h2, _, h4, _⟩ := Delete_accepted b s e c hs hsize h0 hse he hk
  exact ⟨b1, h1, h2, h4⟩

/-- Witness for C4: deleting the LF of `"a\r\nb"` plus terminator. -/
theorem Delete_success_witness :
    Sentinel sampleCRLF.m_buffer ∧ CompleteIndex sampleCRLF.m_lineEnds sampleCRLF.m_buffer.length ∧
    ∃ b1, Delete sampleCRLF 2 3 2 = .ok (true, b1) ∧
      b1.m_buffer = sampleCRLF.m_buffer.take 2 ++ sampleCRLF.m_buffer.drop 3 ∧
      Sentinel b1.m_buffer :=
  ⟨by decide, by decide,
    Delete_success sampleCRLF 2 3 2 (by decide) (by decide) (by decide) (by decide) (by decide)
      (by decide)⟩

/-! ## Insert followed by Delete -/

theorem getD_last (xs : List Int) (m : Int) (hlast : xs.getLast? = some m) :
    xs.getD (xs.length - 1) 0 = m := by
  obtain ⟨ys, rfl⟩ := List.getLast?_eq_some_iff.mp hlast
  simp [List.getD_eq_getElem?_getD]

/-- In `Insert` before the last byte, `itrLine` stays before the last entry of a line index
whose last entry is beyond the offset. -/
theorem insertItrLine_lt (xs : List Int) (o m : Int) (hlast : xs.getLast? = some m)
    (hm : o < m) : insertItrLine xs o < xs.length := by
  have hk := lower_bound_lt xs o m hlast (by omega)
  have hd := getD_last xs m hlast
  unfold insertItrLine
  simp only
  split
  · rename_i h
    by_contra hcon
    have e : lower_bound xs o = xs.length - 1 := by omega
    rw [e, hd] at h
    omega
  · exact hk

theorem insertLineEnds_getLast (xs : List Int) (k n : Nat) (lines : List Int) (m : Int)
    (hk : k < xs.length) (hlast : xs.getLast? = some m) :
    (insertLineEnds xs k n lines).getLast? = some (m + (n : Int)) := by
  have hdrop : ((xs.drop k).map (fun x => x + (n : Int))).getLast? = some (m + (n : Int)) := by
    rw [List.getLast?_map, List.getLast?_drop, if_neg (by omega), hlast]
    rfl
  unfold insertLineEnds
  simp only
  split
  · rw [List.drop_left' (by rw [List.length_take]; omega), List.getLast?_append, hdrop]
    rfl
  · rw [List.getLast?_append, hdrop]
    rfl

/-- Splicing text in before the terminator keeps the sentinel. -/
theorem sentinel_splice (buf : List Nat) (hs : Sentinel buf) (o : Nat) (t : List Nat)
    (ho : o ≤ buf.length - 1) : Sentinel (buf.take o ++ t ++ buf.drop o) := by
  have hlen := hs.1
  rw [sentinel_iff_getLast] at hs ⊢
  rw [List.getLast?_append, List.getLast?_drop, if_neg (by omega), hs]
  rfl

theorem splice_erase (buf t : List Nat) (o : Nat) (ho : o ≤ buf.length) :
    (buf.take o ++ t ++ buf.drop o).take o ++ (buf.take o ++ t ++ buf.drop o).drop (o + t.length)
      = buf := by
  have h1 : (buf.take o).length = o := by rw [List.length_take]; omega
  have h2 : (buf.take o ++ t).length = o + t.length := by rw [List.length_append, h1]
  rw [List.append_assoc, List.take_left' h1, ← List.append_assoc, List.drop_left' h2,
    List.take_append_drop]

/-- Claim C5: on a store with the sentinel and a complete line index, `Insert(o, t)` with
`0 ≤ o ≤ length - 1` followed by `Delete(o, o + length t)` both return true and leave the store
equal to the original one.  The store after the insertion has fewer than `2 ^ 63` bytes. -/
theorem Insert_Delete_roundtrip (b : PicoVimBuffer) (o : Int) (t : List Nat) (c1 c2 : Int)
    (hs : Sentinel b.m_buffer) (hidx : CompleteIndex b.m_lineEnds b.m_buffer.length)
    (hsize : b.m_buffer.length + t.length < 2 ^ 63) (h0 : 0 ≤ o)
    (h1 : o ≤ (b.m_buffer.length : Int) - 1) :
    ∃ b1 b2, Insert b o t c1 = .ok (true, b1) ∧
      Delete b1 o (o + (t.length : Int)) c2 = .ok (true, b2) ∧
      b2.m_buffer = b.m_buffer := by
  have hlen := hs.1
  have hle := asSizeT_le o h0
  obtain ⟨b1, lines, hb1, _, hbuf, hends, _⟩ := Insert_accepted b o t c1 (by omega)
  have hlen1 : b1.m_buffer.length = b.m_buffer.length + t.length := by
    rw [hbuf]
    simp only [List.length_append, List.length_take, List.length_drop]
    omega
  have hs1 : Sentinel b1.m_buffer := by
    rw [hbuf]
    exact sentinel_splice b.m_buffer hs o.toNat t (by omega)
  have hlast1 : b1.m_lineEnds.getLast? = some ((b.m_buffer.length : Int) + (t.length : Int)) := by
    rw [hends]
    exact insertLineEnds_getLast _ _ _ _ _
      (insertItrLine_lt b.m_lineEnds o _ hidx.2 (by omega)) hidx.2
  have hk := lower_bound_lt b1.m_lineEnds o _ hlast1 (by omega)
  obtain ⟨b2, hb2, hbuf2, _⟩ := Delete_accepted b1 o (o + (t.length : Int)) c2 hs1
    (by omega) h0 (by omega) (by omega) hk
  refine ⟨b1, b2, hb1, hb2, ?_⟩
  have e : (o + (t.length : Int)).toNat = o.toNat + t.length := by omega
  rw [hbuf2, hbuf, e]
  exact splice_erase b.m_buffer t o.toNat (by omega)

/-- Witness for C5: inserting `"x\r"` between the CR and the LF of `"a\r\nb"` and deleting it
again. -/
theorem Insert_Delete_roundtrip_witness :
    Sentinel sampleCRLF.m_buffer ∧ CompleteIndex sampleCRLF.m_lineEnds sampleCRLF.m_buffer.length ∧
    ∃ b1 b2, Insert sampleCRLF 2 [120, 13] 4 = .ok (true, b1) ∧
      Delete b1 2 (2 + (([120, 13] : List Nat).length : Int)) 2 = .ok (true, b2) ∧
      b2.m_buffer = sampleCRLF.m_buffer :=
  ⟨by decide, by decide,
    Insert_Delete_roundtrip sampleCRLF 2 [120, 13] 4 2 (by decide) (by decide) (by decide)
      (by decide) (by decide)⟩

/-! ## SetText -/

theorem setTextStore_sentinel (old text : List Nat) : Sentinel (setTextStore old text) := by
  unfold setTextStore
  split
  · decide
  · rename_i ht
    simp only
    split
    · rw [sentinel_iff_getLast, List.getLast?_concat]
    · rename_i h
      refine ⟨?_, not_not.mp h⟩
      have : text.length > 0 := List.length_pos.mpr ht
      simp only [GapBuffer.insert, List.length_append]
      omega

/-- The method `SetText` returns, whatever the buffer held, and leaves a store with the
sentinel and the line index of a full scan of it. -/
theorem SetText_ok (b : PicoVimBuffer) (text : List Nat) :
    ∃ b1, SetText b text = .ok b1 ∧ b1.m_buffer = setTextStore b.m_buffer text ∧
      b1.m_lineEnds = refLineEnds b1.m_buffer ∧ Sentinel b1.m_buffer := by
  have hs := setTextStore_sentinel b.m_buffer text
  have hfind := FindLineEnds_eq
    { Broadcast b ⟨.TextDeleted, 0, (b.m_buffer.length : Int), none⟩ with
      m_buffer := setTextStore b.m_buffer text, m_processedLine := 0 } hs
  unfold SetText
  simp only [Broadcast] at hfind ⊢
  unfold setTextStore at hfind hs
  simp only [hfind]
  exact ⟨_, rfl, rfl, rfl, hs⟩

/-! ## The binary searches on a strictly increasing line index -/

theorem takeWhile_eq_nil_of_head (p : Int → Bool) (xs : List Int)
    (h : ∀ y ∈ xs, p y = false) : xs.takeWhile p = [] := by
  cases xs with
  | nil => rfl
  | cons y ys => rw [List.takeWhile_cons, h y (List.mem_cons_self _ _)]; rfl

/-- On a strictly increasing index, `itrLine` of `Insert` is the number of entries that are not
above the offset. -/
theorem insertItrLine_eq (xs : List Int) (o : Int) (hsorted : xs.Pairwise (fun x y => x < y)) :
    insertItrLine xs o = countLE xs o := by
  induction xs with
  | nil => simp [insertItrLine, lower_bound, countLE]
  | cons x xs ih =>
    rw [List.pairwise_cons] at hsorted
    have ih := ih hsorted.2
    unfold insertItrLine lower_bound countLE at ih ⊢
    by_cases h1 : x < o
    · have h2 : x ≤ o := by omega
      rw [List.takeWhile_cons_of_pos (by simpa using h1),
        List.takeWhile_cons_of_pos (by simpa using h2)]
      simp only [List.length_cons, List.getD_cons_succ] at ih ⊢
      rw [← ih]
      split <;> split <;> omega
    · rw [List.takeWhile_cons_of_neg (by simpa using h1)]
      simp only [List.length_nil, List.length_cons, List.getD_cons_zero]
      by_cases h2 : x ≤ o
      · rw [List.takeWhile_cons_of_pos (by simpa using h2), if_pos ⟨by omega, h2⟩,
          takeWhile_eq_nil_of_head _ xs]
        · rfl
        · intro y hy
          have := hsorted.1 y hy
          simp only [decide_eq_false_iff_not]
          omega
      · rw [List.takeWhile_cons_of_neg (by simpa using h2), if_neg (fun h => h2 h.2)]
        rfl

theorem takeWhile_length_split (p q : Int → Bool) (hpq : ∀ x, p x = true → q x = true)
    (xs : List Int) :
    (xs.takeWhile q).length =
      (xs.takeWhile p).length + ((xs.drop (xs.takeWhile p).length).takeWhile q).length := by
  induction xs with
  | nil => simp
  | cons x xs ih =>
    by_cases h : p x = true
    · rw [List.takeWhile_cons_of_pos h, List.takeWhile_cons_of_pos (hpq x h)]
      simp only [List.length_cons, List.drop_succ_cons]
      omega
    · rw [List.takeWhile_cons_of_neg h]
      simp

/-- In `Delete`, `itrLastLine` is the number of entries that are not above `endOffset`. -/
theorem upper_bound_eq (xs : List Int) (s e : Int) (hse : s ≤ e) :
    upper_bound xs (lower_bound xs s) e = countLE xs e := by
  have h := takeWhile_length_split (fun x => decide (x < s)) (fun x => decide (x ≤ e))
    (by
      intro x hx
      simp only [decide_eq_true_eq] at hx ⊢
      omega) xs
  unfold upper_bound lower_bound countLE
  omega

theorem countLE_le (xs : List Int) (v : Int) : countLE xs v ≤ xs.length := by
  unfold countLE
  exact (List.takeWhile_sublist _).length_le

theorem take_countLE (xs : List Int) (v : Int) (hsorted : xs.Pairwise (fun x y => x < y)) :
    xs.take (countLE xs v) = xs.filter (fun x => decide (x ≤ v)) := by
  induction xs with
  | nil => rfl
  | cons x xs ih =>
    rw [List.pairwise_cons] at hsorted
    have ih := ih hsorted.2
    unfold countLE at ih ⊢
    by_cases h : x ≤ v
    · rw [List.takeWhile_cons_of_pos (by simpa using h), List.filter_cons_of_pos (by simpa using h)]
      simp only [List.length_cons, List.take_succ_cons]
      rw [ih]
    · rw [List.takeWhile_cons_of_neg (by simpa using h), List.filter_cons_of_neg (by simpa using h)]
      simp only [List.length_nil, List.take_zero]
      symm
      rw [List.filter_eq_nil_iff]
      intro y hy
      have := hsorted.1 y hy
      simp only [decide_eq_true_eq]
      omega

theorem drop_countLE (xs : List Int) (v : Int) (hsorted : xs.Pairwise (fun x y => x < y)) :
    xs.drop (countLE xs v) = xs.filter (fun x => decide (v < x)) := by
  induction xs with
  | nil => rfl
  | cons x xs ih =>
    rw [List.pairwise_cons] at hsorted
    have ih := ih hsorted.2
    unfold countLE at ih ⊢
    by_cases h : x ≤ v
    · rw [List.takeWhile_cons_of_pos (by simpa using h),
        List.filter_cons_of_neg (by simp only [decide_eq_true_eq]; omega)]
      simp only [List.length_cons, List.drop_succ_cons]
      rw [ih]
    · rw [List.takeWhile_cons_of_neg (by simpa using h)]
      simp only [List.length_nil, List.drop_zero]
      symm
      rw [List.filter_eq_self]
      intro y hy
      simp only [decide_eq_true_eq]
      rcases List.mem_cons.mp hy with rfl | hy
      · omega
      · have := hsorted.1 y hy
        omega

/-! ## The patched line index in closed form -/

/-- On a strictly increasing index, `Insert` keeps the entries up to the offset, puts the new
line ends after them and shifts the entries beyond the offset. -/
theorem insertLineEnds_eq (xs : List Int) (o : Int) (n : Nat) (lines : List Int)
    (hsorted : xs.Pairwise (fun x y => x < y)) :
    insertLineEnds xs (insertItrLine xs o) n lines =
      xs.filter (fun x => decide (x ≤ o)) ++ lines ++
        (xs.filter (fun x => decide (o < x))).map (fun x => x + (n : Int)) := by
  have hle := countLE_le xs o
  have hlen : (xs.take (countLE xs o)).length = countLE xs o := by
    rw [List.length_take]; omega
  rw [insertItrLine_eq xs o hsorted]
  unfold insertLineEnds
  simp only
  split
  · rw [List.take_left' hlen, List.drop_left' hlen, take_countLE xs o hsorted,
      drop_countLE xs o hsorted]
  · rename_i h
    rw [not_not.mp h, take_countLE xs o hsorted, drop_countLE xs o hsorted, List.append_nil]

theorem countLE_mono (xs : List Int) (s e : Int) (hse : s ≤ e) : countLE xs s ≤ countLE xs e := by
  have h := takeWhile_length_split (fun x => decide (x ≤ s)) (fun x => decide (x ≤ e))
    (by
      intro x hx
      simp only [decide_eq_true_eq] at hx ⊢
      omega) xs
  unfold countLE
  omega

theorem delete_itrLine_eq (xs : List Int) (s : Int) (hk : lower_bound xs s < xs.length) :
    (if xs.getD (lower_bound xs s) 0 ≤ s then lower_bound xs s + 1 else lower_bound xs s) =
      insertItrLine xs s := by
  unfold insertItrLine
  simp only
  split
  · rename_i h
    rw [if_pos ⟨by omega, h⟩]
  · rename_i h
    rw [if_neg (fun h2 => h h2.2)]

/-- On a strictly increasing index, `Delete` keeps the entries up to `startOffset`, drops those
up to `endOffset` and shifts the entries beyond `endOffset`. -/
theorem deleteLineEnds_eq (xs : List Int) (s e : Int) (hsorted : xs.Pairwise (fun x y => x < y))
    (hse : s ≤ e) (hk : lower_bound xs s < xs.length) :
    deleteLineEnds xs s e =
      xs.filter (fun x => decide (x ≤ s)) ++
        (xs.filter (fun x => decide (e < x))).map (fun x => x - (e - s)) := by
  have hi := countLE_le xs s
  have hj := countLE_le xs e
  have hij := countLE_mono xs s e hse
  have hlen : (xs.take (countLE xs e)).length = countLE xs e := by
    rw [List.length_take]; omega
  unfold deleteLineEnds
  simp only
  rw [delete_itrLine_eq xs s hk, insertItrLine_eq xs s hsorted, upper_bound_eq xs s e hse]
  split
  · rw [List.drop_left' hlen, List.take_append_of_le_length (by omega), List.take_take,
      Nat.min_eq_left hij, take_countLE xs s hsorted, drop_countLE xs e hsorted]
  · rename_i h
    rw [drop_countLE xs e hsorted, ← not_not.mp h, take_countLE xs s hsorted]

/-! ## The line ends found in an inserted string -/

/-- What one step of the scanner does on any string: either no line-end symbol is left and the
iterator reaches the end, or it lands on the first line end after `i`. -/
theorem skipLineEnd_string_spec (buf : List Nat) (i : Nat) (hi : i < buf.length) :
    (find_first_of buf i lineEndSymbols = buf.length ∧ skipLineEnd buf i = buf.length ∧
        ∀ p, i < p → p ≤ buf.length → isLineEnd buf p = false) ∨
    (find_first_of buf i lineEndSymbols ≠ buf.length ∧
        i < skipLineEnd buf i ∧ skipLineEnd buf i ≤ buf.length ∧
        isLineEnd buf (skipLineEnd buf i) = true ∧
        ∀ p, i < p → p < skipLineEnd buf i → isLineEnd buf p = false) := by
  have hle := find_first_of_le buf i lineEndSymbols (by omega)
  have hge := find_first_of_ge buf i lineEndSymbols
  have hnot : ∀ q, i ≤ q → q < find_first_of buf i lineEndSymbols →
      buf.getD q 0 ≠ CR ∧ buf.getD q 0 ≠ LF := by
    intro q h1 h2
    have := find_first_of_not_mem buf i lineEndSymbols q h1 h2
    simpa [lineEndSymbols] using this
  have hbefore : ∀ p, i < p → p ≤ find_first_of buf i lineEndSymbols →
      isLineEnd buf p = false := by
    intro p h1 h2
    have := hnot (p - 1) (by omega) (by omega)
    rw [isLineEnd_false_iff]
    exact ⟨this.2, fun h => absurd h this.1⟩
  unfold skipLineEnd
  simp only
  by_cases hk : find_first_of buf i lineEndSymbols = buf.length
  · left
    rw [if_neg (by simpa using hk)]
    exact ⟨hk, hk, fun p h1 h2 => hbefore p h1 (by omega)⟩
  · right
    rw [if_pos hk]
    refine ⟨hk, ?_⟩
    generalize hkdef : find_first_of buf i lineEndSymbols = k at *
    have hklt : k < buf.length := by omega
    have hmem : buf.getD k 0 = CR ∨ buf.getD k 0 = LF := by
      have := find_first_of_mem buf i lineEndSymbols (by rw [hkdef]; exact hklt)
      rw [hkdef] at this
      simpa [lineEndSymbols] using this
    rcases hmem with hcr | hlf
    · rw [if_pos hcr]
      by_cases hnl : k + 1 ≠ buf.length ∧ buf.getD (k + 1) 0 = LF
      · rw [if_pos hnl]
        refine ⟨by omega, by omega, ?_, ?_⟩
        · rw [isLineEnd_true_iff]
          exact Or.inl hnl.2
        · intro p h1 h2
          by_cases hp : p ≤ k
          · exact hbefore p h1 hp
          · have e : p = k + 1 := by omega
            subst e
            rw [isLineEnd_false_iff]
            refine ⟨?_, fun _ => hnl.2⟩
            show buf.getD k 0 ≠ LF
            rw [hcr]; decide
      · rw [if_neg hnl]
        refine ⟨by omega, by omega, ?_, ?_⟩
        · rw [isLineEnd_true_iff]
          refine Or.inr ⟨hcr, ?_⟩
          by_cases hend : k + 1 = buf.length
          · rw [List.getD_eq_default _ _ (by omega)]
            decide
          · exact fun h => hnl ⟨hend, h⟩
        · intro p h1 h2
          exact hbefore p h1 (by omega)
    · have hncr : buf.getD k 0 ≠ CR := by rw [hlf]; decide
      rw [if_neg hncr, if_pos ⟨hk, hlf⟩]
      refine ⟨by omega, by omega, ?_, ?_⟩
      · rw [isLineEnd_true_iff]
        exact Or.inl hlf
      · intro p h1 h2
        exact hbefore p h1 (by omega)

theorem stringLineEnds_none (str : List Nat) (i : Nat)
    (h : ∀ p, i < p → p ≤ str.length → isLineEnd str p = false) : stringLineEnds str i = [] := by
  unfold stringLineEnds
  rw [List.filter_eq_nil_iff]
  intro p hp
  rw [List.mem_range'_1] at hp
  rw [h p (by omega) (by omega)]
  simp

theorem stringLineEnds_step (str : List Nat) (i j : Nat) (hij : i < j) (hj : j ≤ str.length)
    (hend : isLineEnd str j = true) (h : ∀ p, i < p → p < j → isLineEnd str p = false) :
    stringLineEnds str i = j :: stringLineEnds str j := by
  unfold stringLineEnds
  have e1 : List.range' (i + 1) (str.length - i) =
      List.range' (i + 1) (j - 1 - i) ++ List.range' j (str.length - j + 1) := by
    have := List.range'_append_1 (i + 1) (j - 1 - i) (str.length - j + 1)
    have e2 : i + 1 + (j - 1 - i) = j := by omega
    have e3 : str.length - j + 1 + (j - 1 - i) = str.length - i := by omega
    rw [e2, e3] at this
    exact this.symm
  rw [e1, List.range'_succ, List.filter_append, List.filter_cons, if_pos hend]
  have e4 : (List.range' (i + 1) (j - 1 - i)).filter (isLineEnd str) = [] := by
    rw [List.filter_eq_nil_iff]
    intro p hp
    rw [List.mem_range'_1] at hp
    rw [h p (by omega) (by omega)]
    simp
  rw [e4]
  rfl

/-- The scan of the inserted string returns the reference line ends of the string, each moved
by the offset of the insertion. -/
theorem insertScanLoop_eq (str : List Nat) (o : Int) :
    ∀ (fuel itr : Nat) (lines : List Int), itr ≤ str.length → str.length - itr + 1 ≤ fuel →
      insertScanLoop str o fuel itr lines =
        .ok (lines ++ (stringLineEnds str itr).map (fun (j : Nat) => (j : Int) + o)) := by
  intro fuel
  induction fuel with
  | zero => intro itr lines h1 h2; omega
  | succ fuel ih =>
    intro itr lines h1 h2
    rw [insertScanLoop]
    by_cases he : itr = str.length
    · rw [if_pos he, stringLineEnds_none str itr (fun p hp1 hp2 => by omega)]
      simp
    · rw [if_neg he]
      simp only
      rcases skipLineEnd_string_spec str itr (by omega) with
        ⟨hf, hj, hnone⟩ | ⟨hf, hij, hj, hend, hnone⟩
      · rw [if_neg (not_not.mpr hf), hj, ih _ _ (le_refl _) (by omega),
          stringLineEnds_none str itr hnone,
          stringLineEnds_none str str.length (fun p hp1 hp2 => by omega)]
      · rw [if_pos hf, ih _ _ hj (by omega), stringLineEnds_step str itr _ hij hj hend hnone]
        simp

theorem stringLineEnds_mem (str : List Nat) (i j : Nat) (hj : j ∈ stringLineEnds str i) :
    i < j ∧ j ≤ str.length := by
  unfold stringLineEnds at hj
  have := (List.mem_filter.mp hj).1
  rw [List.mem_range'_1] at this
  omega

theorem stringLineEnds_pairwise (str : List Nat) (i : Nat) :
    (stringLineEnds str i).Pairwise (fun x y => x < y) :=
  List.Pairwise.filter _ (List.pairwise_lt_range' (i + 1) (str.length - i))

/-! ## The patches keep a complete line index complete -/

theorem insert_patch_pairwise (xs : List Int) (o : Int) (n : Nat) (lines : List Int)
    (hsorted : xs.Pairwise (fun x y => x < y)) (hlines : lines.Pairwise (fun x y => x < y))
    (hmem : ∀ y ∈ lines, o < y ∧ y ≤ o + (n : Int)) :
    (xs.filter (fun x => decide (x ≤ o)) ++ lines ++
        (xs.filter (fun x => decide (o < x))).map (fun x => x + (n : Int))).Pairwise
      (fun x y => x < y) := by
  rw [List.pairwise_append, List.pairwise_append]
  refine ⟨⟨hsorted.filter _, hlines, ?_⟩, ?_, ?_⟩
  · intro a ha y hy
    have h1 := (List.mem_filter.mp ha).2
    have h2 := hmem y hy
    simp only [decide_eq_true_eq] at h1
    omega
  · exact (hsorted.filter _).map _ (fun a c h => by omega)
  · intro a ha c hc
    obtain ⟨y, hy, rfl⟩ := List.mem_map.mp hc
    have h3 := (List.mem_filter.mp hy).2
    simp only [decide_eq_true_eq] at h3
    rcases List.mem_append.mp ha with ha | ha
    · have h1 := (List.mem_filter.mp ha).2
      simp only [decide_eq_true_eq] at h1
      omega
    · have h2 := hmem a ha
      omega

theorem delete_patch_pairwise (xs : List Int) (s e : Int)
    (hsorted : xs.Pairwise (fun x y => x < y)) :
    (xs.filter (fun x => decide (x ≤ s)) ++
        (xs.filter (fun x => decide (e < x))).map (fun x => x - (e - s))).Pairwise
      (fun x y => x < y) := by
  rw [List.pairwise_append]
  refine ⟨hsorted.filter _, ?_, ?_⟩
  · exact (hsorted.filter _).map _ (fun a c h => by omega)
  · intro a ha c hc
    obtain ⟨y, hy, rfl⟩ := List.mem_map.mp hc
    have h3 := (List.mem_filter.mp hy).2
    have h1 := (List.mem_filter.mp ha).2
    simp only [decide_eq_true_eq] at h1 h3
    omega

theorem getLast?_filter_of_last (xs : List Int) (p : Int → Bool) (m : Int)
    (hlast : xs.getLast? = some m) (hm : p m = true) : (xs.filter p).getLast? = some m := by
  obtain ⟨ys, rfl⟩ := List.getLast?_eq_some_iff.mp hlast
  rw [List.filter_append, List.filter_cons_of_pos hm, List.filter_nil, List.getLast?_concat]

theorem insertLineEnds_length (xs : List Int) (k n : Nat) (lines : List Int)
    (hk : k ≤ xs.length) : (insertLineEnds xs k n lines).length = xs.length + lines.length := by
  unfold insertLineEnds
  simp only
  split
  · simp only [List.length_append, List.length_take, List.length_drop, List.length_map]
    omega
  · rename_i h
    rw [not_not.mp h]
    simp only [List.length_append, List.length_take, List.length_drop, List.length_map,
      List.length_nil]
    omega

/-- An `Insert` before the terminator keeps a complete line index complete, and the counter
equal to the number of entries if it was so. -/
theorem Insert_keeps_index (b : PicoVimBuffer) (o : Int) (t : List Nat) (c : Int)
    (hidx : CompleteIndex b.m_lineEnds b.m_buffer.length) (h0 : 0 ≤ o)
    (h1 : o ≤ (b.m_buffer.length : Int) - 1) :
    ∃ b1, Insert b o t c = .ok (true, b1) ∧
      CompleteIndex b1.m_lineEnds b1.m_buffer.length ∧
      (b.m_processedLine = (b.m_lineEnds.length : Int) →
        b1.m_processedLine = (b1.m_lineEnds.length : Int)) := by
  have hle := asSizeT_le o h0
  obtain ⟨b1, lines, hb1, hscan, hbuf, hends, hproc, _⟩ := Insert_accepted b o t c (by omega)
  have hlines : lines = (stringLineEnds t 0).map (fun (j : Nat) => (j : Int) + o) := by
    rw [insertScanLoop_eq t o (t.length + 1) 0 [] (by omega) (by omega)] at hscan
    exact (Except.ok.inj hscan).symm
  have hlen1 : (b1.m_buffer.length : Int) = (b.m_buffer.length : Int) + (t.length : Int) := by
    rw [hbuf]
    simp only [List.length_append, List.length_take, List.length_drop]
    omega
  have hk := insertItrLine_lt b.m_lineEnds o _ hidx.2 (by omega)
  refine ⟨b1, hb1, ⟨?_, ?_⟩, ?_⟩
  · rw [hends, insertLineEnds_eq _ _ _ _ hidx.1]
    apply insert_patch_pairwise _ _ _ _ hidx.1
    · rw [hlines]
      exact (stringLineEnds_pairwise t 0).map (fun j : Nat => (j : Int) + o)
        (fun a c h => by show (a : Int) + o < (c : Int) + o; omega)
    · intro y hy
      rw [hlines] at hy
      obtain ⟨j, hj, rfl⟩ := List.mem_map.mp hy
      have := stringLineEnds_mem t 0 j hj
      show o < (j : Int) + o ∧ (j : Int) + o ≤ o + (t.length : Int)
      omega
  · rw [hends, insertLineEnds_getLast _ _ _ _ _ hk hidx.2, hlen1]
  · intro hp
    rw [hproc, hends, insertLineEnds_length _ _ _ _ (by omega), hp]
    omega

/-- A `Delete` within its precondition keeps a complete line index complete, and the counter
equal to the number of entries if it was so. -/
theorem Delete_keeps_index (b : PicoVimBuffer) (s e c : Int) (hs : Sentinel b.m_buffer)
    (hidx : CompleteIndex b.m_lineEnds b.m_buffer.length)
    (hsize : b.m_buffer.length < 2 ^ 63) (h0 : 0 ≤ s) (hse : s ≤ e)
    (he : e ≤ (b.m_buffer.length : Int) - 1) :
    ∃ b1, Delete b s e c = .ok (true, b1) ∧
      CompleteIndex b1.m_lineEnds b1.m_buffer.length ∧
      (b.m_processedLine = (b.m_lineEnds.length : Int) →
        b1.m_processedLine = (b1.m_lineEnds.length : Int)) := by
  have hk := lower_bound_lt b.m_lineEnds s _ hidx.2 (by omega)
  obtain ⟨b1, hb1, hbuf, hends, _, hproc, _⟩ := Delete_accepted b s e c hs hsize h0 hse he hk
  have hlen1 : (b1.m_buffer.length : Int) = (b.m_buffer.length : Int) - (e - s) := by
    rw [hbuf]
    simp only [List.length_append, List.length_take, List.length_drop]
    omega
  have hi := countLE_le b.m_lineEnds s
  have hj := countLE_le b.m_lineEnds e
  have hij := countLE_mono b.m_lineEnds s e hse
  refine ⟨b1, hb1, ⟨?_, ?_⟩, ?_⟩
  · rw [hends, deleteLineEnds_eq _ _ _ hidx.1 hse hk]
    exact delete_patch_pairwise _ _ _ hidx.1
  · rw [hends, deleteLineEnds_eq _ _ _ hidx.1 hse hk, List.getLast?_append, List.getLast?_map,
      getLast?_filter_of_last _ _ _ hidx.2 (by simp only [decide_eq_true_eq]; omega), hlen1]
    rfl
  · intro hp
    rw [hproc, hends, deleteLineEnds_eq _ _ _ hidx.1 hse hk, upper_bound_eq _ _ _ hse,
      insertItrLine_eq _ _ hidx.1, ← take_countLE _ _ hidx.1, ← drop_countLE _ _ hidx.1, hp]
    simp only [List.length_append, List.length_take, List.length_drop, List.length_map]
    omega

/-! ## Where the code leaves its own invariants -/

/-- Claim C1, at the failing input: after `SetText("a")` the store is `"a"` plus terminator;
`Insert(2, "b")`, whose offset equals the store length, is accepted and puts the text behind the
terminator, so the store no longer ends with it, and the next `Delete(0, 0)` trips the assertion
at its end. -/
theorem Insert_at_length_breaks_sentinel :
    ∃ b1 b2, SetText emptyBuffer [97] = .ok b1 ∧ b1.m_buffer = [97, 0] ∧
      Insert b1 2 [98] 2 = .ok (true, b2) ∧ b2.m_buffer = [97, 0, 98] ∧
      ¬ Sentinel b2.m_buffer ∧ Delete b2 0 0 0 = .error Fault.assertion :=
  ⟨_, _, rfl, rfl, rfl, rfl, by decide, by decide⟩

/-- Claim C6, at the failing input: `SetText("a\r\nb")` leaves the full-scan index `[3, 5]`;
`Insert(2, "x")` splits the CR from the LF and patches the index to `[4, 6]`, while a full scan
of the resulting store `"a\rx\nb"` plus terminator gives `[2, 4, 6]`. -/
theorem Insert_patch_differs_from_rebuild :
    ∃ b1 b2 b3, SetText emptyBuffer [97, 13, 10, 98] = .ok b1 ∧
      b1.m_lineEnds = refLineEnds b1.m_buffer ∧
      Insert b1 2 [120] 3 = .ok (true, b2) ∧ b2.m_buffer = [97, 13, 120, 10, 98, 0] ∧
      FindLineEnds (fun _ => false) b2 = .ok b3 ∧
      b2.m_lineEnds = [4, 6] ∧ b3.m_lineEnds = [2, 4, 6] :=
  ⟨_, _, _, rfl, by decide, rfl, rfl, rfl, rfl, rfl⟩

/-- Claim C7, at the failing input: `SetText("a\r\nb")` leaves the full-scan index `[3, 5]`;
`Delete(2, 3)` removes the LF of the CRLF pair and patches the index to `[4]`, while a full scan
of the resulting store `"a\rb"` plus terminator gives `[2, 4]`. -/
theorem Delete_patch_differs_from_rebuild :
    ∃ b1 b2 b3, SetText emptyBuffer [97, 13, 10, 98] = .ok b1 ∧
      b1.m_lineEnds = refLineEnds b1.m_buffer ∧
      Delete b1 2 3 2 = .ok (true, b2) ∧ b2.m_buffer = [97, 13, 98, 0] ∧
      FindLineEnds (fun _ => false) b2 = .ok b3 ∧
      b2.m_lineEnds = [4] ∧ b3.m_lineEnds = [2, 4] :=
  ⟨_, _, _, rfl, by decide, rfl, rfl, rfl, rfl, rfl⟩

/-- Claim C8, at the failing input: after `SetText("a")` the line index `[2]` is complete for
the store of two bytes; `Insert(2, "b")`, whose offset equals the store length, is accepted and
leaves the index `[2]` for a store of three bytes, so its last entry is not the store length. -/
theorem Insert_at_length_breaks_index :
    ∃ b1 b2, SetText emptyBuffer [97] = .ok b1 ∧
      CompleteIndex b1.m_lineEnds b1.m_buffer.length ∧
      Insert b1 (b1.m_buffer.length : Int) [98] 2 = .ok (true, b2) ∧
      b2.m_lineEnds = [2] ∧ b2.m_buffer.length = 3 ∧
      ¬ CompleteIndex b2.m_lineEnds b2.m_buffer.length :=
  ⟨_, _, rfl, by decide, rfl, rfl, rfl, by decide⟩

/-! ## GetLineOffsets -/

/-- Claim C11: for a line number `i` with `0 ≤ i < |L|`, `GetLineOffsets(i)` returns true with
`lineStart` 0 for line 0 and `L[i-1]` otherwise, and `lineEnd = L[i]`; for `i ≥ |L|` or `i`
negative it returns false with both set to 0.  The method is a function of the buffer: it
writes nothing.  Line numbers are `long`s and the index has fewer than `2 ^ 63` entries. -/
theorem GetLineOffsets_contract (b : PicoVimBuffer) (i : Int)
    (hlo : -2 ^ 63 ≤ i) (hhi : i < 2 ^ 63) (hsize : b.m_lineEnds.length < 2 ^ 63) :
    (0 ≤ i ∧ i < (b.m_lineEnds.length : Int) →
      GetLineOffsets b i =
        (true, (if i = 0 then 0 else b.m_lineEnds.getD (i - 1).toNat 0),
          b.m_lineEnds.getD i.toNat 0)) ∧
    ((b.m_lineEnds.length : Int) ≤ i ∨ i < 0 → GetLineOffsets b i = (false, 0, 0)) := by
  constructor
  · rintro ⟨h0, h1⟩
    have := asSizeT_eq i h0 (by omega)
    unfold GetLineOffsets
    rw [if_neg (by omega)]
  · intro h
    unfold GetLineOffsets
    rw [if_pos]
    rcases h with h | h
    · have := asSizeT_eq i (by omega) (by omega)
      omega
    · have := asSizeT_neg i h hlo
      omega

/-- Witness for C11 on the index `[3, 5]`: lines 0 and 1 are `[0, 3)` and `[3, 5)`, lines 2 and
-1 do not exist. -/
theorem GetLineOffsets_contract_witness :
    GetLineOffsets sampleCRLF 0 = (true, 0, 3) ∧ GetLineOffsets sampleCRLF 1 = (true, 3, 5) ∧
    GetLineOffsets sampleCRLF 2 = (false, 0, 0) ∧ GetLineOffsets sampleCRLF (-1) = (false, 0, 0) :=
  ⟨(GetLineOffsets_contract sampleCRLF 0 (by decide) (by decide) (by decide)).1 (by decide),
   (GetLineOffsets_contract sampleCRLF 1 (by decide) (by decide) (by decide)).1 (by decide),
   (GetLineOffsets_contract sampleCRLF 2 (by decide) (by decide) (by decide)).2 (by decide),
   (GetLineOffsets_contract sampleCRLF (-1) (by decide) (by decide) (by decide)).2 (by decide)⟩

/-! ## SetText on a buffer that already holds text -/

/-- Claim C12, at the failing input: after `SetText("a")` the store is `"a"` plus terminator; a
second `SetText("b")` puts the new text in front of the old store, which is not cleared, so the
store is `"ba"` plus terminator and not `"b"` plus terminator. -/
theorem SetText_keeps_previous_content :
    ∃ b1 b2, SetText emptyBuffer [97] = .ok b1 ∧ b1.m_buffer = [97, 0] ∧
      SetText b1 [98] = .ok b2 ∧ b2.m_buffer = [98, 97, 0] ∧ b2.m_buffer ≠ [98, 0] :=
  ⟨_, _, rfl, rfl, rfl, rfl, by decide⟩

/-! ## The order of the notifications -/

/-- Whatever `Insert` returns with the flag true is the spliced buffer with the two messages
published around the change. -/
theorem Insert_true_published (b : PicoVimBuffer) (o : Int) (t : List Nat) (c : Int)
    (b1 : PicoVimBuffer) (h : Insert b o t c = .ok (true, b1)) :
    b1.m_buffer = GapBuffer.insert b.m_buffer o.toNat t ∧
    b1.m_published = b.m_published ++
      [⟨⟨.PreBufferChange, o, (b.m_buffer.length : Int), none⟩, b.m_buffer, b.m_lineEnds⟩,
       ⟨⟨.TextAdded, o, (b.m_buffer.length : Int), some c⟩, b1.m_buffer, b1.m_lineEnds⟩] := by
  by_cases hg : asSizeT o > b.m_buffer.length
  · unfold Insert at h
    rw [if_pos hg] at h
    simp at h
  · obtain ⟨b2, _, hb2, _, hbuf, _, _, hpub⟩ := Insert_accepted b o t c hg
    rw [hb2] at h
    have e : b2 = b1 := by
      have := Except.ok.inj h
      exact (Prod.mk.inj this).2
    subst e
    exact ⟨hbuf, hpub⟩

/-- Whatever `Delete` returns with the flag true is the buffer after the erase with the two
messages published around the change. -/
theorem Delete_true_published (b : PicoVimBuffer) (s e c : Int)
    (b1 : PicoVimBuffer) (h : Delete b s e c = .ok (true, b1)) :
    b1.m_buffer = GapBuffer.erase b.m_buffer s.toNat e.toNat ∧
    b1.m_published = b.m_published ++
      [⟨⟨.PreBufferChange, s, e, none⟩, b.m_buffer, b.m_lineEnds⟩,
       ⟨⟨.TextDeleted, s, e, some c⟩, b1.m_buffer, b1.m_lineEnds⟩] := by
  unfold Delete at h
  simp only [Broadcast] at h
  repeat' split at h
  all_goals first
    | (cases h; done)
    | (cases h; exact ⟨rfl, by simp only [List.append_assoc]; rfl⟩)

/-- Claim C13: with `Broadcast` recorded as a log of messages, each with the store and the line
index read at that moment, every `Insert` that returns true appends exactly two entries: a
`PreBufferChange` seen on the store and line index as they were before the call, then a
`TextAdded` seen on the store and line index as they are after the call, the store being the
spliced one; every `Delete` that returns true likewise appends a `PreBufferChange` seen on the
unmodified buffer, then a `TextDeleted` seen on the fully modified one. -/
theorem notification_order :
    (∀ (b : PicoVimBuffer) (o : Int) (t : List Nat) (c : Int) (b1 : PicoVimBuffer),
      Insert b o t c = .ok (true, b1) →
      b1.m_buffer = GapBuffer.insert b.m_buffer o.toNat t ∧
      ∃ m1 m2, m1.type = .PreBufferChange ∧ m2.type = .TextAdded ∧
        b1.m_published = b.m_published ++
          [⟨m1, b.m_buffer, b.m_lineEnds⟩, ⟨m2, b1.m_buffer, b1.m_lineEnds⟩]) ∧
    (∀ (b : PicoVimBuffer) (s e c : Int) (b1 : PicoVimBuffer),
      Delete b s e c = .ok (true, b1) →
      b1.m_buffer = GapBuffer.erase b.m_buffer s.toNat e.toNat ∧
      ∃ m1 m2, m1.type = .PreBufferChange ∧ m2.type = .TextDeleted ∧
        b1.m_published = b.m_published ++
          [⟨m1, b.m_buffer, b.m_lineEnds⟩, ⟨m2, b1.m_buffer, b1.m_lineEnds⟩]) := by
  constructor
  · intro b o t c b1 h
    obtain ⟨h1, h2⟩ := Insert_true_published b o t c b1 h
    exact ⟨h1, _, _, rfl, rfl, h2⟩
  · intro b s e c b1 h
    obtain ⟨h1, h2⟩ := Delete_true_published b s e c b1 h
    exact ⟨h1, _, _, rfl, rfl, h2⟩

/-- Witness for C13: `Insert(2, "x")` into `"a\r\nb"` plus terminator publishes two messages, the
first seen on the old store and the second on the new one. -/
theorem notification_order_witness :
    ∃ b1, Insert sampleCRLF 2 [120] 3 = .ok (true, b1) ∧
      b1.m_buffer = [97, 13, 120, 10, 98, 0] ∧
      ∃ m1 m2, m1.type = .PreBufferChange ∧ m2.type = .TextAdded ∧
        b1.m_published = sampleCRLF.m_published ++
          [⟨m1, sampleCRLF.m_buffer, sampleCRLF.m_lineEnds⟩, ⟨m2, b1.m_buffer, b1.m_lineEnds⟩] :=
  ⟨_, rfl, (notification_order.1 sampleCRLF 2 [120] 3 _ rfl).1,
    (notification_order.1 sampleCRLF 2 [120] 3 _ rfl).2⟩

/-! ## The block scanner on the scenario text -/

/-- Claim C14: on the store `"abc def\n\tghi"` plus terminator, the forward word scan from
offset 1 returns first block `[0, 3)`, a space between, second block `[4, 7)`, with
`startOnBlock` true and `spaceBefore` false. -/
theorem GetBlock_scenario_before :
    ∃ b1 r, SetText emptyBuffer scenarioText = .ok b1 ∧
      b1.m_buffer = [97, 98, 99, 32, 100, 101, 102, 10, 9, 103, 104, 105, 0] ∧
      GetBlock b1 true 1 SearchDirection.Forward = .ok r ∧
      r.firstBlock = 0 ∧ r.firstNonBlock = 3 ∧ r.spaceBetween = true ∧
      r.secondBlock = 4 ∧ r.secondNonBlock = 7 ∧
      r.startOnBlock = true ∧ r.spaceBefore = false :=
  ⟨_, _, rfl, rfl, rfl, rfl, rfl, rfl, rfl, rfl, rfl, rfl⟩

/-- Claim C15 as stated fails: after `Delete(3, 4)` has removed the space, the forward word scan
from offset 1 does not return first block `[0, 3)`, no space between and second block
`[3, 6)`. -/
theorem GetBlock_scenario_after_not_as_stated :
    ∃ b1 b2 r, SetText emptyBuffer scenarioText = .ok b1 ∧
      Delete b1 3 4 3 = .ok (true, b2) ∧
      GetBlock b2 true 1 SearchDirection.Forward = .ok r ∧
      ¬ (r.firstBlock = 0 ∧ r.firstNonBlock = 3 ∧ r.spaceBetween = false ∧
          r.secondBlock = 3 ∧ r.secondNonBlock = 6) :=
  ⟨_, _, _, rfl, rfl, rfl, by decide⟩

/-- Claim C15, amended: after `Delete(3, 4)` has removed the space the store is
`"abcdef\n\tghi"` plus terminator, and the forward word scan from offset 1 returns first block
`[0, 6)`, the whole of `"abcdef"`, a space between, and second block `[8, 11)`, which is
`"ghi"`. -/
theorem GetBlock_scenario_after :
    ∃ b1 b2 r, SetText emptyBuffer scenarioText = .ok b1 ∧
      Delete b1 3 4 3 = .ok (true, b2) ∧
      b2.m_buffer = [97, 98, 99, 100, 101, 102, 10, 9, 103, 104, 105, 0] ∧
      GetBlock b2 true 1 SearchDirection.Forward = .ok r ∧
      r.firstBlock = 0 ∧ r.firstNonBlock = 6 ∧ r.spaceBetween = true ∧
      r.secondBlock = 8 ∧ r.secondNonBlock = 11 :=
  ⟨_, _, _, rfl, rfl, rfl, rfl, rfl, rfl, rfl, rfl, rfl⟩

/-! ## The walks of the block scanner -/

/-- A walk towards the end of the store: it returns, having passed only bytes that satisfy the
predicate, and stops at the end or at the first byte that does not. -/
theorem walkWhile_up (buf : List Nat) (pred : Nat → Bool) (bound step : Int)
    (hb : bound = (buf.length : Int)) (hst : step = 1) :
    ∀ (fuel : Nat) (i : Int) (flag : Bool), 0 ≤ i → i ≤ (buf.length : Int) →
      (buf.length : Int) - i + 1 ≤ (fuel : Int) →
      ∃ j fl, walkWhile buf pred bound step fuel i flag = .ok (j, fl) ∧
        i ≤ j ∧ j ≤ (buf.length : Int) ∧
        (∀ k, i ≤ k → k < j → pred (buf.getD k.toNat 0) = true) ∧
        (j = (buf.length : Int) ∨ pred (buf.getD j.toNat 0) = false) ∧
        fl = (flag || decide (j ≠ i)) := by
  subst hb hst
  intro fuel
  induction fuel with
  | zero => intro i flag h0 h1 h2; omega
  | succ fuel ih =>
    intro i flag h0 h1 h2
    rw [walkWhile]
    by_cases hi : i = (buf.length : Int)
    · rw [if_pos hi]
      exact ⟨i, flag, rfl, le_refl _, h1, fun k hk1 hk2 => by omega, Or.inl hi, by simp⟩
    · rw [if_neg hi]
      have hd : deref buf i = .ok (buf.getD i.toNat 0) := by
        unfold deref
        rw [if_pos ⟨h0, by omega⟩]
      rw [hd]
      simp only
      by_cases hp : pred (buf.getD i.toNat 0) = true
      · rw [if_pos hp]
        obtain ⟨j, fl, hw, hj1, hj2, hall, hstop, hfl⟩ :=
          ih (i + 1) true (by omega) (by omega) (by push_cast at h2 ⊢; omega)
        refine ⟨j, fl, hw, by omega, hj2, ?_, hstop, ?_⟩
        · intro k hk1 hk2
          by_cases hk : k = i
          · rw [hk]; exact hp
          · exact hall k (by omega) hk2
        · rw [hfl]
          have : decide (j ≠ i) = true := by
            simp only [decide_eq_true_eq]; omega
          rw [this]
          simp
      · rw [if_neg hp]
        exact ⟨i, flag, rfl, le_refl _, h1, fun k hk1 hk2 => by omega,
          Or.inr (by simpa using hp), by simp⟩

/-- A walk towards the start of the store from a byte of the store: it returns, having passed
only bytes that satisfy the predicate, and stops at offset 0 or at the first byte that does
not. -/
theorem walkWhile_down (buf : List Nat) (pred : Nat → Bool) (bound step : Int)
    (hb : bound = 0) (hst : step = -1) :
    ∀ (fuel : Nat) (i : Int) (flag : Bool), 0 ≤ i → i < (buf.length : Int) →
      i + 1 ≤ (fuel : Int) →
      ∃ j fl, walkWhile buf pred bound step fuel i flag = .ok (j, fl) ∧
        0 ≤ j ∧ j ≤ i ∧
        (∀ k, j < k → k ≤ i → pred (buf.getD k.toNat 0) = true) ∧
        (j = 0 ∨ pred (buf.getD j.toNat 0) = false) ∧
        fl = (flag || decide (j ≠ i)) := by
  subst hb hst
  intro fuel
  induction fuel with
  | zero => intro i flag h0 h1 h2; omega
  | succ fuel ih =>
    intro i flag h0 h1 h2
    rw [walkWhile]
    by_cases hi : i = 0
    · rw [if_pos hi]
      exact ⟨i, flag, rfl, h0, le_refl _, fun k hk1 hk2 => by omega, Or.inl hi, by simp⟩
    · rw [if_neg hi]
      have hd : deref buf i = .ok (buf.getD i.toNat 0) := by
        unfold deref
        rw [if_pos ⟨h0, h1⟩]
      rw [hd]
      simp only
      by_cases hp : pred (buf.getD i.toNat 0) = true
      · rw [if_pos hp]
        obtain ⟨j, fl, hw, hj1, hj2, hall, hstop, hfl⟩ :=
          ih (i + -1) true (by omega) (by omega) (by push_cast at h2 ⊢; omega)
        refine ⟨j, fl, hw, hj1, by omega, ?_, hstop, ?_⟩
        · intro k hk1 hk2
          by_cases hk : k = i
          · rw [hk]; exact hp
          · exact hall k hk1 (by omega)
        · rw [hfl]
          have : decide (j ≠ i) = true := by
            simp only [decide_eq_true_eq]; omega
          rw [this]
          simp
      · rw [if_neg hp]
        exact ⟨i, flag, rfl, h0, le_refl _, fun k hk1 hk2 => by omega,
          Or.inr (by simpa using hp), by simp⟩

/-! ## The forward block scan -/

theorem deref_ok (buf : List Nat) (i : Int) (h0 : 0 ≤ i) (h1 : i < (buf.length : Int)) :
    deref buf i = .ok (buf.getD i.toNat 0) := by
  unfold deref
  rw [if_pos ⟨h0, h1⟩]

theorem deref_end (buf : List Nat) (i : Int) (h1 : (buf.length : Int) ≤ i) :
    deref buf i = .error Fault.undefinedBehaviour := by
  unfold deref
  rw [if_neg (by omega)]

/-- What a forward scan that returns has found: the first byte `c` at or after the start that is
not a space, the run of bytes around `c` that are in the class of `c`, the spaces after that
run and the start of the second block. -/
theorem scanBlocks_forward_spec (buf : List Nat) (pIsBlock pIsNotBlock : Nat → Bool)
    (hnot : ∀ ch, pIsNotBlock ch = (!pIsBlock ch && !isspace ch))
    (o : Int) (h0 : 0 ≤ o) (h1 : o < (buf.length : Int)) (r : BufferBlock)
    (h : scanBlocks buf pIsBlock pIsNotBlock 1 0 (buf.length : Int) o = .ok r) :
    ∃ c : Int, o ≤ c ∧ c < (buf.length : Int) ∧
      (∀ k, o ≤ k → k < c → isspace (buf.getD k.toNat 0) = true) ∧
      isspace (buf.getD c.toNat 0) = false ∧
      r.startOnBlock = pIsBlock (buf.getD c.toNat 0) ∧
      r.spaceBefore = decide (c ≠ o) ∧
      0 ≤ r.firstBlock ∧ r.firstBlock ≤ c ∧ c < r.firstNonBlock ∧
      r.firstNonBlock ≤ r.secondBlock ∧ r.secondBlock ≤ (buf.length : Int) ∧
      (∀ k, r.firstBlock ≤ k → k < r.firstNonBlock →
        (if pIsBlock (buf.getD c.toNat 0) then pIsBlock else pIsNotBlock)
          (buf.getD k.toNat 0) = true) ∧
      (r.firstBlock = 0 ∨
        (if pIsBlock (buf.getD c.toNat 0) then pIsBlock else pIsNotBlock)
          (buf.getD (r.firstBlock - 1).toNat 0) = false) ∧
      (r.firstNonBlock = (buf.length : Int) ∨
        (if pIsBlock (buf.getD c.toNat 0) then pIsBlock else pIsNotBlock)
          (buf.getD r.firstNonBlock.toNat 0) = false) ∧
      (∀ k, r.firstNonBlock ≤ k → k < r.secondBlock → isspace (buf.getD k.toNat 0) = true) ∧
      (r.secondBlock = (buf.length : Int) ∨
        isspace (buf.getD r.secondBlock.toNat 0) = false) ∧
      r.spaceBetween = decide (r.secondBlock ≠ r.firstNonBlock) := by
  unfold scanBlocks at h
  simp only at h
  obtain ⟨j1, f1, hw1, -⟩ := walkWhile_down buf isspace 0 (-1) rfl rfl (buf.length + 1) o false
    h0 h1 (by push_cast; omega)
  rw [hw1] at h
  simp only at h
  obtain ⟨c, f2, hw2, hc1, hc2, hcall, hcstop, hf2⟩ := walkWhile_up buf isspace
    (buf.length : Int) 1 rfl rfl (buf.length + 1) o false h0 (by omega) (by push_cast; omega)
  rw [hw2] at h
  simp only at h
  by_cases hcl : c = (buf.length : Int)
  · rw [deref_end buf c (by omega)] at h
    cases h
  have hsp : isspace (buf.getD c.toNat 0) = false := by
    rcases hcstop with hx | hx
    · exact absurd hx hcl
    · exact hx
  rw [deref_ok buf c (by omega) (by omega)] at h
  simp only at h
  have hPc : (if pIsBlock (buf.getD c.toNat 0) = true then pIsBlock else pIsNotBlock)
      (buf.getD c.toNat 0) = true := by
    by_cases hx : pIsBlock (buf.getD c.toNat 0) = true
    · rw [if_pos hx]; exact hx
    · rw [if_neg hx, hnot, hsp]
      simpa using hx
  refine ⟨c, hc1, by omega, hcall, hsp, ?_⟩
  generalize (if pIsBlock (buf.getD c.toNat 0) = true then pIsBlock else pIsNotBlock) = P
    at h hPc ⊢
  obtain ⟨i3, f3, hw3, hi1, hi2, hiall, histop, -⟩ := walkWhile_down buf P 0 (-1) rfl rfl
    (buf.length + 1) c false (by omega) (by omega) (by push_cast; omega)
  rw [hw3] at h
  simp only at h
  rw [deref_ok buf i3 hi1 (by omega)] at h
  simp only at h
  have hfb : ∃ fb : Int, (if ¬ P (buf.getD i3.toNat 0) = true then i3 + 1 else i3) = fb ∧
      0 ≤ fb ∧ fb ≤ c ∧ (∀ k, fb ≤ k → k ≤ c → P (buf.getD k.toNat 0) = true) ∧
      (fb = 0 ∨ P (buf.getD (fb - 1).toNat 0) = false) := by
    by_cases hx : P (buf.getD i3.toNat 0) = true
    · refine ⟨i3, by rw [if_neg (not_not.mpr hx)], hi1, hi2, ?_, ?_⟩
      · intro k hk1 hk2
        by_cases hk : k = i3
        · rw [hk]; exact hx
        · exact hiall k (by omega) hk2
      · rcases histop with hy | hy
        · exact Or.inl hy
        · rw [hx] at hy; cases hy
    · have hne : i3 ≠ c := by
        intro hxx
        rw [hxx] at hx
        exact hx hPc
      refine ⟨i3 + 1, by rw [if_pos hx], by omega, by omega, ?_, Or.inr ?_⟩
      · intro k hk1 hk2
        exact hiall k (by omega) hk2
      · have e : i3 + 1 - 1 = i3 := by omega
        rw [e]
        simpa using hx
  obtain ⟨fb, hfbeq, hfb0, hfbc, hfball, hfbstop⟩ := hfb
  rw [hfbeq] at h
  obtain ⟨fnb, f4, hw4, hn1, hn2, hnall, hnstop, -⟩ := walkWhile_up buf P
    (buf.length : Int) 1 rfl rfl (buf.length + 1) fb false hfb0 (by omega) (by push_cast; omega)
  rw [hw4] at h
  simp only at h
  have hcn : c < fnb := by
    by_contra hcon
    rcases hnstop with hy | hy
    · omega
    · rw [hfball fnb hn1 (by omega)] at hy
      cases hy
  obtain ⟨sb, f5, hw5, hs1, hs2, hsall, hsstop, hf5⟩ := walkWhile_up buf isspace
    (buf.length : Int) 1 rfl rfl (buf.length + 1) fnb false (by omega) hn2 (by push_cast; omega)
  rw [hw5] at h
  simp only at h
  by_cases hsl : sb = (buf.length : Int)
  · rw [if_pos hsl] at h
    have hr := Except.ok.inj h
    subst hr
    simp only
    refine ⟨trivial, ?_, hfb0, hfbc, hcn, hs1, hs2, ?_, hfbstop, hnstop, hsall, Or.inl hsl, ?_⟩
    · rw [hf2]; simp
    · intro k hk1 hk2
      exact hnall k hk1 hk2
    · rw [hf5]; simp
  rw [if_neg hsl, deref_ok buf sb (by omega) (by omega)] at h
  simp only at h
  obtain ⟨snb, f6, hw6, -⟩ := walkWhile_up buf
    (if pIsBlock (buf.getD sb.toNat 0) = true then pIsBlock else pIsNotBlock)
    (buf.length : Int) 1 rfl rfl (buf.length + 1) sb false (by omega) hs2 (by push_cast; omega)
  rw [hw6] at h
  simp only at h
  have hr := Except.ok.inj h
  subst hr
  simp only
  refine ⟨trivial, ?_, hfb0, hfbc, hcn, hs1, hs2, ?_, hfbstop, hnstop, hsall, Or.inr ?_, ?_⟩
  · rw [hf2]; simp
  · intro k hk1 hk2
    exact hnall k hk1 hk2
  · rcases hsstop with hy | hy
    · exact absurd hy hsl
    · exact hy
  · rw [hf5]; simp

/-! ## Scanning forward, then backward from the second block -/

theorem IsWordChar_not_space (ch : Nat) (h : IsWordChar ch = true) : isspace ch = false := by
  simp only [IsWordChar, isalnum, Bool.or_eq_true, Bool.and_eq_true, decide_eq_true_eq] at h
  simp only [isspace, Bool.or_eq_false_iff, Bool.and_eq_false_iff, decide_eq_false_iff_not]
  omega

theorem IsNonWordChar_not_space (ch : Nat) (h : IsNonWordChar ch = true) :
    isspace ch = false := by
  simp only [IsNonWordChar, Bool.and_eq_true, Bool.not_eq_true'] at h
  exact h.2

theorem IsNonWordChar_not_word (ch : Nat) (h : IsNonWordChar ch = true) :
    IsWordChar ch = false := by
  simp only [IsNonWordChar, Bool.and_eq_true, Bool.not_eq_true'] at h
  exact h.1

/-- Claim C16: on a store with the sentinel, under the word policy, if the forward scan from an
offset `o` inside the store returns `r` and its second block starts before the terminator at a
word character, then the backward scan from `r.secondBlock` returns, and its own second block
starts inside the first block of the forward scan: `r.firstBlock ≤ r2.secondBlock <
r.firstNonBlock`. -/
theorem GetBlock_direction_symmetry (b : PicoVimBuffer) (o : Int) (r : BufferBlock)
    (hs : Sentinel b.m_buffer) (h0 : 0 ≤ o) (h1 : o < (b.m_buffer.length : Int))
    (h : GetBlock b true o SearchDirection.Forward = .ok r)
    (hsb : r.secondBlock < (b.m_buffer.length : Int) - 1)
    (hword : IsWordChar (b.m_buffer.getD r.secondBlock.toNat 0) = true) :
    ∃ r2, GetBlock b true r.secondBlock SearchDirection.Backward = .ok r2 ∧
      r.firstBlock ≤ r2.secondBlock ∧ r2.secondBlock < r.firstNonBlock := by
  have hfwd : scanBlocks b.m_buffer IsWordChar IsNonWordChar 1 0 (b.m_buffer.length : Int) o
      = .ok r := h
  obtain ⟨c, hc1, hc2, -, -, -, -, hfb0, hfbc, hcn, hns, -, hPall, -, hPstop, hspall, -, -⟩ :=
    scanBlocks_forward_spec b.m_buffer IsWordChar IsNonWordChar (fun _ => rfl) o h0 h1 r hfwd
  show ∃ r2, scanBlocks b.m_buffer IsWordChar IsNonWordChar (-1) (b.m_buffer.length : Int) 0
    r.secondBlock = .ok r2 ∧ r.firstBlock ≤ r2.secondBlock ∧ r2.secondBlock < r.firstNonBlock
  generalize hbuf : b.m_buffer = buf at *
  generalize hsdef : r.secondBlock = s at *
  generalize hfnbdef : r.firstNonBlock = fnb at *
  generalize hfbdef : r.firstBlock = fb at *
  have hPsp : ∀ ch, (if IsWordChar (buf.getD c.toNat 0) = true then IsWordChar
      else IsNonWordChar) ch = true → isspace ch = false := by
    intro ch hch
    split at hch
    · exact IsWordChar_not_space ch hch
    · exact IsNonWordChar_not_space ch hch
  have hsw : isspace (buf.getD s.toNat 0) = false := IsWordChar_not_space _ hword
  -- the byte before the second block is not a word character
  have hprev : IsWordChar (buf.getD (s - 1).toNat 0) = false := by
    by_cases hx : s = fnb
    · have hlast := hPall (fnb - 1) (by omega) (by omega)
      rcases hPstop with hy | hy
      · omega
      · rw [← hx] at hy hlast
        split at hy
        · rw [hword] at hy; cases hy
        · rename_i hnw
          rw [if_neg hnw] at hlast
          exact IsNonWordChar_not_word _ hlast
    · have := hspall (s - 1) (by omega) (by omega)
      by_contra hcon
      have hw2 : IsWordChar (buf.getD (s - 1).toNat 0) = true := by simpa using hcon
      rw [IsWordChar_not_space _ hw2] at this
      cases this
  have hmns : isspace (buf.getD (fnb - 1).toNat 0) = false :=
    hPsp _ (hPall (fnb - 1) (by omega) (by omega))
  have hzero : IsWordChar (buf.getD ((buf.length : Int) - 1).toNat 0) = false := by
    have e : ((buf.length : Int) - 1).toNat = buf.length - 1 := by omega
    rw [e, hs.2]
    decide
  unfold scanBlocks
  simp only
  obtain ⟨j1, f1, hw1, -⟩ := walkWhile_up buf isspace (buf.length : Int) (-(-1)) rfl
    (by decide) (buf.length + 1) s false (by omega) (by omega) (by push_cast; omega)
  rw [hw1]
  simp only
  obtain ⟨j2, f2, hw2, hj20, hj2s, hj2all, -, -⟩ := walkWhile_down buf isspace 0 (-1) rfl rfl
    (buf.length + 1) s false (by omega) (by omega) (by push_cast; omega)
  have hj2 : j2 = s := by
    by_contra hcon
    have := hj2all s (by omega) (le_refl _)
    rw [hsw] at this
    cases this
  subst hj2
  rw [hw2]
  simp only
  rw [deref_ok buf j2 (by omega) (by omega)]
  simp only [hword, if_true]
  obtain ⟨e2, f3, hw3, he1, he2, heall, hestop, -⟩ := walkWhile_up buf IsWordChar
    (buf.length : Int) (-(-1)) rfl (by decide) (buf.length + 1) j2 false (by omega) (by omega)
    (by push_cast; omega)
  have hse : j2 < e2 := by
    by_contra hcon
    have e : e2 = j2 := by omega
    rcases hestop with hy | hy
    · omega
    · rw [e, hword] at hy; cases hy
  have hen : e2 < (buf.length : Int) := by
    by_contra hcon
    have := heall ((buf.length : Int) - 1) (by omega) (by omega)
    rw [hzero] at this
    cases this
  have hee : IsWordChar (buf.getD e2.toNat 0) = false := by
    rcases hestop with hy | hy
    · omega
    · exact hy
  rw [hw3]
  simp only
  rw [deref_ok buf e2 (by omega) hen]
  simp only [hee, Bool.false_eq_true, not_false_eq_true, if_true]
  obtain ⟨j4, f4, hw4, hj40, hj4e, hj4all, hj4stop, -⟩ := walkWhile_down buf IsWordChar 0 (-1)
    rfl rfl (buf.length + 1) (e2 + -1) false (by omega) (by omega) (by push_cast; omega)
  have hj4 : j4 = j2 - 1 := by
    have hlow : j2 - 1 ≤ j4 := by
      by_contra hcon
      have := hj4all (j2 - 1) (by omega) (by omega)
      rw [hprev] at this
      cases this
    have hhigh : j4 ≤ j2 - 1 := by
      by_contra hcon
      have hw := heall j4 (by omega) (by omega)
      rcases hj4stop with hy | hy
      · omega
      · rw [hw] at hy; cases hy
    omega
  rw [hw4]
  simp only
  obtain ⟨q, f5, hw5, hq0, hqs, hqall, hqstop, -⟩ := walkWhile_down buf isspace 0 (-1)
    rfl rfl (buf.length + 1) j4 false (by omega) (by omega) (by push_cast; omega)
  have hq : q = fnb - 1 := by
    have hlow : fnb - 1 ≤ q := by
      by_contra hcon
      have := hqall (fnb - 1) (by omega) (by omega)
      rw [hmns] at this
      cases this
    have hhigh : q ≤ fnb - 1 := by
      by_contra hcon
      have hw := hspall q (by omega) (by omega)
      rcases hqstop with hy | hy
      · omega
      · rw [hw] at hy; cases hy
    omega
  rw [hw5]
  simp only
  by_cases hqz : q = 0
  · rw [if_pos hqz]
    exact ⟨_, rfl, by simp only; omega, by simp only; omega⟩
  rw [if_neg hqz, deref_ok buf q hq0 (by omega)]
  simp only
  obtain ⟨j6, f6, hw6, -⟩ := walkWhile_down buf
    (if IsWordChar (buf.getD q.toNat 0) = true then IsWordChar else IsNonWordChar) 0 (-1)
    rfl rfl (buf.length + 1) q false hq0 (by omega) (by push_cast; omega)
  rw [hw6]
  simp only
  exact ⟨_, rfl, by simp only; omega, by simp only; omega⟩

/-- Witness for C16 on the scenario text: the forward scan from offset 1 has first block
`[0, 3)` and second block at 4; the backward scan from 4 has its second block inside
`[0, 3)`. -/
theorem GetBlock_direction_symmetry_witness :
    GetBlock scenarioBuffer true 1 SearchDirection.Forward
      = .ok ⟨1, 1, false, true, 2, true, 0, 3, 4, 7⟩ ∧
    ∃ r2, GetBlock scenarioBuffer true 4 SearchDirection.Backward = .ok r2 ∧
      0 ≤ r2.secondBlock ∧ r2.secondBlock < 3 :=
  ⟨rfl, GetBlock_direction_symmetry scenarioBuffer 1 ⟨1, 1, false, true, 2, true, 0, 3, 4, 7⟩
    (by decide) (by decide) (by decide) rfl (by decide) (by decide)⟩

/-! ## Marking the syntax map -/

theorem findFirstNotOfAux_le (syms : List Nat) (l : List Nat) :
    findFirstNotOfAux syms l ≤ l.length := by
  induction l with
  | nil => simp [findFirstNotOfAux]
  | cons c cs ih =>
    simp only [findFirstNotOfAux, List.length_cons]
    split <;> omega

theorem findFirstNotOfAux_mem (syms : List Nat) (l : List Nat) (q : Nat)
    (hq : q < findFirstNotOfAux syms l) : l.getD q 0 ∈ syms := by
  induction l generalizing q with
  | nil => simp [findFirstNotOfAux] at hq
  | cons c cs ih =>
    simp only [findFirstNotOfAux] at hq
    split at hq
    · rename_i hc
      cases q with
      | zero => simpa using hc
      | succ q =>
        have := ih q (by omega)
        simpa using this
    · omega

theorem findFirstNotOfAux_not_mem (syms : List Nat) (l : List Nat)
    (h : findFirstNotOfAux syms l < l.length) :
    l.getD (findFirstNotOfAux syms l) 0 ∉ syms := by
  induction l with
  | nil => simp at h
  | cons c cs ih =>
    simp only [findFirstNotOfAux] at h ⊢
    split
    · rename_i hc
      rw [if_pos hc] at h
      have := ih (by simpa using h)
      simpa using this
    · rename_i hc
      simpa using hc

theorem find_first_not_of_ge (buf : List Nat) (i : Nat) (syms : List Nat) :
    i ≤ find_first_not_of buf i syms := by
  unfold find_first_not_of; omega

theorem find_first_not_of_le (buf : List Nat) (i : Nat) (syms : List Nat)
    (hi : i ≤ buf.length) : find_first_not_of buf i syms ≤ buf.length := by
  unfold find_first_not_of
  have := findFirstNotOfAux_le syms (buf.drop i)
  simp only [List.length_drop] at this
  omega

theorem find_first_not_of_mem (buf : List Nat) (i : Nat) (syms : List Nat) (q : Nat)
    (hiq : i ≤ q) (hq : q < find_first_not_of buf i syms) : buf.getD q 0 ∈ syms := by
  unfold find_first_not_of at hq
  have := findFirstNotOfAux_mem syms (buf.drop i) (q - i) (by omega)
  rw [getD_drop] at this
  have e : i + (q - i) = q := by omega
  rwa [e] at this

theorem find_first_not_of_not_mem (buf : List Nat) (i : Nat) (syms : List Nat)
    (h : find_first_not_of buf i syms < buf.length) :
    buf.getD (find_first_not_of buf i syms) 0 ∉ syms := by
  unfold find_first_not_of at h ⊢
  have := findFirstNotOfAux_not_mem syms (buf.drop i) (by simp only [List.length_drop]; omega)
  rwa [getD_drop] at this

theorem foldl_set_length (f : Nat → Option SyntaxType) (l : List Nat) (syn : List SyntaxType) :
    (l.foldl (fun acc i => match f i with | some t => acc.set i t | none => acc) syn).length
      = syn.length := by
  induction l generalizing syn with
  | nil => rfl
  | cons x xs ih =>
    rw [List.foldl_cons, ih]
    split <;> simp

theorem foldl_set_getElem? (f : Nat → Option SyntaxType) (a n : Nat) (syn : List SyntaxType)
    (i : Nat) :
    ((List.range' a n).foldl (fun acc i => match f i with | some t => acc.set i t | none => acc)
        syn)[i]? =
      if a ≤ i ∧ i < a + n ∧ i < syn.length then
        (match f i with | some t => some t | none => syn[i]?)
      else syn[i]? := by
  induction n generalizing a syn with
  | zero =>
    simp only [List.range'_zero, List.foldl_nil]
    rw [if_neg (by omega)]
  | succ n ih =>
    rw [List.range'_succ, List.foldl_cons, ih]
    by_cases hia : i = a
    · subst hia
      rw [if_neg (by omega)]
      by_cases hlen : i < syn.length
      · rw [if_pos ⟨le_refl _, by omega, hlen⟩]
        cases f i with
        | none => rfl
        | some t => simp [List.getElem?_set, hlen]
      · rw [if_neg (by omega)]
        cases f i with
        | none => rfl
        | some t =>
          simp only
          rw [List.getElem?_eq_none (by rw [List.length_set]; omega),
            List.getElem?_eq_none (by omega)]
    · have hlen : (match f a with | some t => syn.set a t | none => syn).length = syn.length := by
        split <;> simp
      have hget : (match f a with | some t => syn.set a t | none => syn)[i]? = syn[i]? := by
        split
        · rw [List.getElem?_set_ne (by omega)]
        · rfl
      rw [hlen, hget]
      by_cases hc : a + 1 ≤ i ∧ i < a + 1 + n ∧ i < syn.length
      · rw [if_pos hc, if_pos ⟨by omega, by omega, hc.2.2⟩]
      · rw [if_neg hc, if_neg (by omega)]

theorem mark_length (syn : List SyntaxType) (a b : Nat) (ty : SyntaxType) :
    (mark syn a b ty).length = syn.length :=
  foldl_set_length (fun _ => some ty) _ syn

theorem mark_getElem? (syn : List SyntaxType) (a b : Nat) (ty : SyntaxType) (i : Nat) :
    (mark syn a b ty)[i]? = if a ≤ i ∧ i < b ∧ i < syn.length then some ty else syn[i]? := by
  have h := foldl_set_getElem? (fun _ => some ty) a (b - a) syn i
  unfold mark
  simp only at h
  rw [h]
  by_cases hc : a ≤ i ∧ i < b ∧ i < syn.length
  · rw [if_pos hc, if_pos ⟨hc.1, by omega, hc.2.2⟩]
  · rw [if_neg hc, if_neg (by omega)]

theorem markWhiteSpace_eq (buf : List Nat) (syn : List SyntaxType) (a b : Nat) :
    markWhiteSpace buf syn a b =
      (List.range' a (b - a)).foldl (fun acc i =>
        match (if buf.getD i 0 = 32 then some SyntaxType.Whitespace else none) with
        | some t => acc.set i t
        | none => acc) syn := by
  unfold markWhiteSpace
  congr 1
  funext acc i
  split <;> rfl

theorem markWhiteSpace_length (buf : List Nat) (syn : List SyntaxType) (a b : Nat) :
    (markWhiteSpace buf syn a b).length = syn.length := by
  rw [markWhiteSpace_eq]
  exact foldl_set_length _ _ syn

theorem markWhiteSpace_getElem? (buf : List Nat) (syn : List SyntaxType) (a b i : Nat) :
    (markWhiteSpace buf syn a b)[i]? =
      if a ≤ i ∧ i < b ∧ i < syn.length ∧ buf.getD i 0 = 32 then some SyntaxType.Whitespace
      else syn[i]? := by
  rw [markWhiteSpace_eq, foldl_set_getElem?]
  by_cases hc : a ≤ i ∧ i < b ∧ i < syn.length
  · rw [if_pos ⟨hc.1, by omega, hc.2.2⟩]
    by_cases h32 : buf.getD i 0 = 32
    · rw [if_pos h32, if_pos ⟨hc.1, hc.2.1, hc.2.2, h32⟩]
    · rw [if_neg h32, if_neg (fun h => h32 h.2.2.2)]
  · rw [if_neg (by omega), if_neg (fun h => hc ⟨h.1, h.2.1, h.2.2.1⟩)]

/-! ## One iteration of the tokenizer -/

/-- The token found by an iteration is not empty: the end of the token lies beyond its
start. -/
theorem token_nonempty (buf : List Nat) (c : Nat)
    (hf : find_first_not_of buf c delim ≠ buf.length) (hc : c ≤ buf.length) :
    find_first_not_of buf c delim <
      find_first_of buf (find_first_not_of buf c delim) delim := by
  have h1 := find_first_not_of_le buf c delim hc
  have h2 := find_first_of_ge buf (find_first_not_of buf c delim) delim
  by_contra hcon
  have e : find_first_of buf (find_first_not_of buf c delim) delim =
      find_first_not_of buf c delim := by omega
  have h3 := find_first_of_mem buf (find_first_not_of buf c delim) delim (by omega)
  rw [e] at h3
  exact find_first_not_of_not_mem buf c delim (by omega) h3

/-- An iteration of the main loop that is not cancelled, does not start at the end of the store
and finds a token passes the no-progress check and goes on with the result of `syntaxStep`. -/
theorem syntaxLoop_step (buf : List Nat) (fuel iter c lp mlcb : Nat) (syn : List SyntaxType)
    (proc : Int) (hc : c < buf.length) (hlp : lp = buf.length ∨ lp < c)
    (hf : find_first_not_of buf c delim ≠ buf.length) :
    syntaxLoop (fun _ => false) buf (fuel + 1) iter c lp mlcb syn proc =
      syntaxLoop (fun _ => false) buf fuel (iter + 1) (syntaxStep buf c mlcb syn proc).1 c
        (syntaxStep buf c mlcb syn proc).2.1 (syntaxStep buf c mlcb syn proc).2.2.1
        (syntaxStep buf c mlcb syn proc).2.2.2 := by
  have hlt := token_nonempty buf c hf (by omega)
  rw [syntaxLoop, if_neg (by omega), if_neg (by omega)]
  simp only [Bool.false_eq_true, if_false]
  rw [if_neg hf, if_neg (by omega)]
  unfold syntaxStep
  simp only
  split
  · rfl
  · split
    · rfl
    · split
      · split <;> rfl
      · rfl

/-- Each iteration moves the iterator forward and keeps it inside the store. -/
theorem syntaxStep_progress (buf : List Nat) (c mlcb : Nat) (syn : List SyntaxType) (proc : Int)
    (hc : c ≤ buf.length) (hf : find_first_not_of buf c delim ≠ buf.length) :
    c < (syntaxStep buf c mlcb syn proc).1 ∧ (syntaxStep buf c mlcb syn proc).1 ≤ buf.length := by
  have h1 := find_first_not_of_ge buf c delim
  have h2 := find_first_not_of_le buf c delim hc
  have hlt := token_nonempty buf c hf hc
  have h3 := find_first_of_le buf (find_first_not_of buf c delim) delim h2
  have h4 := find_first_of_ge buf (find_first_of buf (find_first_not_of buf c delim) delim) lineEnd
  have h5 := find_first_of_le buf (find_first_of buf (find_first_not_of buf c delim) delim)
    lineEnd h3
  unfold syntaxStep
  simp only
  split
  · simp only; omega
  · split
    · simp only; omega
    · split
      · split <;> (simp only; omega)
      · simp only; omega

theorem syntaxStep_length (buf : List Nat) (c mlcb : Nat) (syn : List SyntaxType) (proc : Int) :
    (syntaxStep buf c mlcb syn proc).2.2.1.length = syn.length := by
  unfold syntaxStep
  simp only
  split
  · simp only [markWhiteSpace_length, mark_length]
  · split
    · rfl
    · split
      · split
        · simp only [markWhiteSpace_length, mark_length]
        · rfl
      · simp only [markWhiteSpace_length]
        split
        · simp only [mark_length]
        · split <;> simp only [mark_length]

/-- An invariant of the iterations holds when the main loop, never cancelled, returns, which it
does: the loop ends at the end of the store or where only delimiters are left. -/
theorem syntaxLoop_invariant (buf : List Nat) (Inv : Nat → Nat → List SyntaxType → Prop)
    (hstep : ∀ c mlcb syn proc, c < buf.length → syn.length = buf.length →
      find_first_not_of buf c delim ≠ buf.length → Inv c mlcb syn →
      Inv (syntaxStep buf c mlcb syn proc).1 (syntaxStep buf c mlcb syn proc).2.1
        (syntaxStep buf c mlcb syn proc).2.2.1) :
    ∀ (fuel iter c lp mlcb : Nat) (syn : List SyntaxType) (proc : Int),
      c ≤ buf.length → (lp = buf.length ∨ lp < c) → syn.length = buf.length →
      Inv c mlcb syn → buf.length - c + 1 ≤ fuel →
      ∃ syn1 proc1 c1 mlcb1,
        syntaxLoop (fun _ => false) buf fuel iter c lp mlcb syn proc = .ok (syn1, proc1) ∧
        syn1.length = buf.length ∧ Inv c1 mlcb1 syn1 ∧ c1 ≤ buf.length ∧
        (c1 = buf.length ∨ find_first_not_of buf c1 delim = buf.length) := by
  intro fuel
  induction fuel with
  | zero => intro iter c lp mlcb syn proc h1 h2 h3 h4 h5; omega
  | succ fuel ih =>
    intro iter c lp mlcb syn proc h1 h2 h3 h4 h5
    by_cases hc : c = buf.length
    · rw [syntaxLoop, if_pos hc]
      exact ⟨syn, proc, c, mlcb, rfl, h3, h4, h1, Or.inl hc⟩
    · by_cases hf : find_first_not_of buf c delim = buf.length
      · rw [syntaxLoop, if_neg hc, if_neg (by omega)]
        simp only [Bool.false_eq_true, if_false]
        rw [if_pos hf]
        exact ⟨syn, proc, c, mlcb, rfl, h3, h4, h1, Or.inr hf⟩
      · rw [syntaxLoop_step buf fuel iter c lp mlcb syn proc (by omega) h2 hf]
        have hp := syntaxStep_progress buf c mlcb syn proc h1 hf
        exact ih _ _ _ _ _ _ hp.2 (Or.inr hp.1)
          (by rw [syntaxStep_length]; exact h3)
          (hstep c mlcb syn proc (by omega) h3 hf h4) (by omega)

/-! ## Line comments -/

theorem find_first_of_le_of_mem (buf : List Nat) (i k : Nat) (syms : List Nat) (hik : i ≤ k)
    (hmem : buf.getD k 0 ∈ syms) : find_first_of buf i syms ≤ k := by
  by_contra hcon
  exact find_first_of_not_mem buf i syms k hik (by omega) hmem

theorem drop_take_two (buf : List Nat) (p : Nat) (hp : p + 2 ≤ buf.length) :
    (buf.drop p).take 2 = [buf.getD p 0, buf.getD (p + 1) 0] := by
  rw [List.drop_eq_getElem_cons (by omega), List.drop_eq_getElem_cons (by omega),
    List.getD_eq_getElem _ _ (by omega), List.getD_eq_getElem _ _ (by omega)]
  rfl

theorem resize_length (syn : List SyntaxType) (n : Nat) (ty : SyntaxType) :
    (resize syn n ty).length = n := by
  unfold resize
  split
  · rw [List.length_take]; omega
  · rw [List.length_append, List.length_replicate]; omega

theorem lineEnd_sub_delim (x : Nat) (h : x ∈ lineEnd) : x ∈ delim := by
  simp only [lineEnd, List.mem_cons, List.mem_singleton, List.not_mem_nil, or_false] at h
  rcases h with rfl | rfl <;> decide

/-- The iterations of the tokenizer keep this in force: either the iterator has not passed the
`//` token at `p`, or it is at or beyond the end `q` of its line and the offsets from `p` to
`q` are classified as a comment. -/
theorem line_comment_step (buf : List Nat) (p L : Nat)
    (hL : L ≤ p) (hLstart : L = 0 ∨ buf.getD (L - 1) 0 ∈ lineEnd)
    (hfirst : ∀ i, L ≤ i → i < p → buf.getD i 0 ∈ delim)
    (hp0 : buf.getD p 0 = 47) (hp1 : buf.getD (p + 1) 0 = 47)
    (hp2 : p + 2 < buf.length) (hp2d : buf.getD (p + 2) 0 ∈ delim)
    (c mlcb : Nat) (syn : List SyntaxType) (proc : Int)
    (hc : c < buf.length) (hlen : syn.length = buf.length)
    (hf : find_first_not_of buf c delim ≠ buf.length)
    (hinv : c ≤ p ∨ (find_first_of buf (p + 2) lineEnd ≤ c ∧
      CommentMarked buf syn p (find_first_of buf (p + 2) lineEnd))) :
    (syntaxStep buf c mlcb syn proc).1 ≤ p ∨
      (find_first_of buf (p + 2) lineEnd ≤ (syntaxStep buf c mlcb syn proc).1 ∧
        CommentMarked buf (syntaxStep buf c mlcb syn proc).2.2.1 p
          (find_first_of buf (p + 2) lineEnd)) := by
  have hq1 := find_first_of_ge buf (p + 2) lineEnd
  have hq2 := find_first_of_le buf (p + 2) lineEnd (by omega)
  have hfge := find_first_not_of_ge buf c delim
  have hfle := find_first_not_of_le buf c delim (by omega)
  have hlt := token_nonempty buf c hf (by omega)
  have hprog := syntaxStep_progress buf c mlcb syn proc (by omega) hf
  have h47 : (47 : Nat) ∉ delim := by decide
  rcases hinv with hcp | ⟨hqc, hcm⟩
  · -- the iterator has not passed `p`
    have hfp : find_first_not_of buf c delim ≤ p := by
      by_contra hcon
      have := find_first_not_of_mem buf c delim p hcp (by omega)
      rw [hp0] at this
      exact h47 this
    by_cases hfeq : find_first_not_of buf c delim = p
    · right
      have hl : find_first_of buf p delim = p + 2 := by
        have h1 := find_first_of_le_of_mem buf p (p + 2) delim (by omega) hp2d
        have h2 := find_first_of_ge buf p delim
        have h3 := find_first_of_mem buf p delim (by omega)
        by_contra hcon
        have h4 : find_first_of buf p delim = p ∨ find_first_of buf p delim = p + 1 := by omega
        rcases h4 with h4 | h4
        · rw [h4, hp0] at h3; exact h47 h3
        · rw [h4, hp1] at h3; exact h47 h3
      have htok : (buf.drop p).take (p + 2 - p) = [47, 47] := by
        have e : p + 2 - p = 2 := by omega
        rw [e, drop_take_two buf p (by omega), hp0, hp1]
      unfold syntaxStep
      simp only
      rw [hfeq, hl, if_pos htok]
      refine ⟨le_refl _, ?_⟩
      intro i hi1 hi2
      rw [markWhiteSpace_getElem?, mark_length, mark_getElem?]
      unfold commentType
      by_cases h32 : buf.getD i 0 = 32
      · rw [if_pos ⟨by omega, hi2, by omega, h32⟩, if_pos h32]
      · rw [if_neg (fun h => h32 h.2.2.2), if_pos ⟨hi1, hi2, by omega⟩, if_neg h32]
    · left
      have hfL : find_first_not_of buf c delim < L := by
        by_contra hcon
        exact find_first_not_of_not_mem buf c delim (by omega)
          (hfirst _ (by omega) (by omega))
      have hLmem : buf.getD (L - 1) 0 ∈ lineEnd := by
        rcases hLstart with h | h
        · omega
        · exact h
      have hl : find_first_of buf (find_first_not_of buf c delim) delim ≤ L - 1 :=
        find_first_of_le_of_mem buf _ (L - 1) delim (by omega) (lineEnd_sub_delim _ hLmem)
      have hl1 : find_first_of buf (find_first_of buf (find_first_not_of buf c delim) delim)
          lineEnd ≤ L - 1 :=
        find_first_of_le_of_mem buf _ (L - 1) lineEnd hl hLmem
      unfold syntaxStep
      simp only
      split
      · simp only; omega
      · split
        · simp only; omega
        · split
          · split <;> (simp only; omega)
          · simp only; omega
  · -- the comment has been marked; later iterations leave it as it is
    right
    refine ⟨by omega, ?_⟩
    have hkeep : ∀ (a b' : Nat) (ty : SyntaxType) (s0 : List SyntaxType),
        find_first_of buf (p + 2) lineEnd ≤ a →
        CommentMarked buf s0 p (find_first_of buf (p + 2) lineEnd) →
        CommentMarked buf (mark s0 a b' ty) p (find_first_of buf (p + 2) lineEnd) := by
      intro a b' ty s0 ha h0 i hi1 hi2
      rw [mark_getElem?, if_neg (by omega)]
      exact h0 i hi1 hi2
    have hkeepw : ∀ (a b' : Nat) (s0 : List SyntaxType),
        find_first_of buf (p + 2) lineEnd ≤ a →
        CommentMarked buf s0 p (find_first_of buf (p + 2) lineEnd) →
        CommentMarked buf (markWhiteSpace buf s0 a b') p (find_first_of buf (p + 2) lineEnd) := by
      intro a b' s0 ha h0 i hi1 hi2
      rw [markWhiteSpace_getElem?, if_neg (by omega)]
      exact h0 i hi1 hi2
    unfold syntaxStep
    simp only
    split
    · exact hkeepw _ _ _ hqc (hkeep _ _ _ _ (by omega) hcm)
    · split
      · exact hcm
      · split
        · split
          · intro i hi1 hi2
            have hcmi := hcm i hi1 hi2
            rw [markWhiteSpace_getElem?, mark_length, mark_getElem?]
            by_cases hin : mlcb ≤ i ∧
                i < find_first_of buf (find_first_not_of buf c delim) delim
            · unfold commentType
              by_cases h32 : buf.getD i 0 = 32
              · rw [if_pos ⟨hin.1, hin.2, by omega, h32⟩, if_pos h32]
              · rw [if_neg (fun h => h32 h.2.2.2), if_pos ⟨hin.1, hin.2, by omega⟩,
                  if_neg h32]
            · rw [if_neg (fun h => hin ⟨h.1, h.2.1⟩), if_neg (fun h => hin ⟨h.1, h.2.1⟩)]
              exact hcmi
          · exact hcm
        · apply hkeepw _ _ _ hqc
          split
          · exact hkeep _ _ _ _ (by omega) (hkeep _ _ _ _ (by omega) hcm)
          · split
            · exact hkeep _ _ _ _ (by omega) hcm
            · exact hkeep _ _ _ _ (by omega) hcm

/-- Line comments away from the end of the text: when the first token of a line is `//`,
starting at offset `p` (the line starts at `L`, only delimiters lie between `L` and `p`), and a
delimiter follows the two slashes, a completed `UpdateSyntax(0, e)` on a fresh syntax map
returns and classifies every offset from `p` up to the first CR or LF after the token, or up to
the end of the store if there is none, as `Comment`, except the offsets that hold a space, which
it classifies as `Whitespace`.  The terminator is not a delimiter, so this does not cover two
slashes that are the last bytes of the text. -/
theorem line_comment_classified (b : PicoVimBuffer) (p L : Nat) (e : Int) (he : 0 ≤ e)
    (hL : L ≤ p) (hLstart : L = 0 ∨ b.m_buffer.getD (L - 1) 0 ∈ lineEnd)
    (hfirst : ∀ i, L ≤ i → i < p → b.m_buffer.getD i 0 ∈ delim)
    (hp0 : b.m_buffer.getD p 0 = 47) (hp1 : b.m_buffer.getD (p + 1) 0 = 47)
    (hp2 : p + 2 < b.m_buffer.length) (hp2d : b.m_buffer.getD (p + 2) 0 ∈ delim) :
    ∃ s, UpdateSyntax (fun _ => false) b freshSyntax 0 e = .ok s ∧
      ∀ i, p ≤ i → i < find_first_of b.m_buffer (p + 2) lineEnd →
        s.m_syntax[i]? =
          some (if b.m_buffer.getD i 0 = 32 then SyntaxType.Whitespace
            else SyntaxType.Comment) := by
  obtain ⟨syn1, proc1, c1, mlcb1, hloop, -, hinv, hc1, hexit⟩ :=
    syntaxLoop_invariant b.m_buffer
      (fun c _ syn => c ≤ p ∨ (find_first_of b.m_buffer (p + 2) lineEnd ≤ c ∧
        CommentMarked b.m_buffer syn p (find_first_of b.m_buffer (p + 2) lineEnd)))
      (fun c mlcb syn proc hc hlen hf hinv =>
        line_comment_step b.m_buffer p L hL hLstart hfirst hp0 hp1 hp2 hp2d c mlcb syn proc
          hc hlen hf hinv)
      (b.m_buffer.length + 1) 0 0 b.m_buffer.length b.m_buffer.length
      (resize freshSyntax.m_syntax b.m_buffer.length SyntaxType.Normal) freshSyntax.m_processedChar
      (by omega) (Or.inl rfl) (resize_length _ _ _) (Or.inl (by omega)) (by omega)
  have hcm : CommentMarked b.m_buffer syn1 p (find_first_of b.m_buffer (p + 2) lineEnd) := by
    rcases hinv with hcp | ⟨-, hcm⟩
    · exfalso
      rcases hexit with hx | hx
      · omega
      · have := find_first_not_of_mem b.m_buffer c1 delim p hcp (by omega)
        rw [hp0] at this
        exact absurd this (by decide)
    · exact hcm
  refine ⟨⟨syn1, (b.m_buffer.length : Int) - 1⟩, ?_, hcm⟩
  unfold UpdateSyntax
  rw [if_neg (by omega), if_neg (by omega)]
  have hw : ∀ syms, walkBack b.m_buffer syms (b.m_buffer.length + 1) 0 = .ok 0 := by
    intro syms
    rw [walkBack, if_neg (by omega)]
  simp only [Int.toNat_zero, hw, hloop]

/-- The line comment of `"a\n  // b\nc"` plus terminator: the second line starts at 2, its
first token `//` starts at 4, and the offsets 4 to 7 are classified. -/
theorem line_comment_classified_witness :
    ∃ s, UpdateSyntax (fun _ => false) commentBuffer freshSyntax 0 0 = .ok s ∧
      ∀ i, 4 ≤ i → i < find_first_of commentBuffer.m_buffer (4 + 2) lineEnd →
        s.m_syntax[i]? =
          some (if commentBuffer.m_buffer.getD i 0 = 32 then SyntaxType.Whitespace
            else SyntaxType.Comment) :=
  line_comment_classified commentBuffer 4 2 0 (by decide) (by decide) (by decide)
    (fun i h1 h2 => by
      have hi : i = 2 ∨ i = 3 := by omega
      rcases hi with rfl | rfl <;> decide)
    (by decide) (by decide) (by decide) (by decide)

/-! ## Tokens that the tokenizer does not classify as the specification says -/

/-- Claim C18, at the failing input: the store `"a\n//"` plus terminator has the sentinel, the
first token of its second line is exactly `//`, starting at offset 2, and no CR or LF follows,
so the comment should run to the store length 5.  The terminator that follows the two slashes
is not a delimiter, so the token read by the tokenizer is `//` with the terminator, which is
not equal to `//`, and the offsets 2 to 4 are classified `Normal`, not `Comment`.  Followed by a
delimiter, as in `"a\n// "`, the two slashes and what follows are classified `Comment` and
`Whitespace`. -/
theorem line_comment_at_end_is_Normal :
    Sentinel [97, 10, 47, 47, 0] ∧
    (([97, 10, 47, 47, 0] : List Nat).drop 2).take 2 = [47, 47] ∧
    find_first_of [97, 10, 47, 47, 0] 4 lineEnd = 5 ∧
    ∃ s s2,
      UpdateSyntax (fun _ => false) ⟨[97, 10, 47, 47, 0], [2, 5], 2, []⟩ freshSyntax 0 0
        = .ok s ∧
      s.m_syntax = [SyntaxType.Normal, SyntaxType.Normal, SyntaxType.Normal, SyntaxType.Normal,
        SyntaxType.Normal] ∧
      GetType s 2 = SyntaxType.Normal ∧
      UpdateSyntax (fun _ => false) ⟨[97, 10, 47, 47, 32, 0], [2, 6], 2, []⟩ freshSyntax 0 0
        = .ok s2 ∧
      s2.m_syntax = [SyntaxType.Normal, SyntaxType.Normal, SyntaxType.Comment,
        SyntaxType.Comment, SyntaxType.Whitespace, SyntaxType.Comment] :=
  ⟨by decide, by decide, by decide, _, _, rfl, by decide, by decide, rfl, by decide⟩

/-- Claim C17, at the failing input: the text `"int"` is a keyword, but the terminator that
follows it is not a delimiter, so the token read by the tokenizer is `"int"` with the
terminator; it is not found among the keywords and its bytes are classified `Normal`.  Followed
by a delimiter, as in `"int;"`, the same bytes are classified `Keyword`. -/
theorem keyword_at_end_is_Normal :
    ∃ b s b2 s2, SetText emptyBuffer (bytes "int") = .ok b ∧ b.m_buffer = [105, 110, 116, 0] ∧
      bytes "int" ∈ keywords ∧
      UpdateSyntax (fun _ => false) b freshSyntax 0 0 = .ok s ∧
      s.m_syntax = [SyntaxType.Normal, SyntaxType.Normal, SyntaxType.Normal, SyntaxType.Normal] ∧
      GetType s 0 = SyntaxType.Normal ∧
      SetText emptyBuffer (bytes "int;") = .ok b2 ∧
      UpdateSyntax (fun _ => false) b2 freshSyntax 0 0 = .ok s2 ∧
      s2.m_syntax = [SyntaxType.Keyword, SyntaxType.Keyword, SyntaxType.Keyword,
        SyntaxType.Normal, SyntaxType.Normal] :=
  ⟨_, _, _, _, rfl, rfl, by decide, rfl, rfl, rfl, rfl, rfl, rfl⟩

/-- Claim C19, at the failing input: in `"/* one *//* two */"` the token `/*` opens a comment at
offset 0; the token `*//*` at offsets 7 to 10 contains `*/`, but it also contains `/*` and is
taken as an opening: the iteration that consumes it leaves the syntax map as it is and
remembers offset 7 instead of clearing the state, and at the end of the scan the offsets 0 to 6
are not classified as a comment. -/
theorem block_comment_not_closed_by_mixed_token :
    ∃ b s, SetText emptyBuffer (bytes "/* one *//* two */") = .ok b ∧
      (b.m_buffer.drop 7).take 4 = bytes "*//*" ∧
      strFind (bytes "*//*") [42, 47] = true ∧ strFind (bytes "*//*") [47, 42] = true ∧
      syntaxStep b.m_buffer 6 0 (List.replicate 19 SyntaxType.Normal) 3
        = (11, 7, List.replicate 19 SyntaxType.Normal, 6) ∧
      UpdateSyntax (fun _ => false) b freshSyntax 0 0 = .ok s ∧
      s.m_syntax.take 11 = [SyntaxType.Normal, SyntaxType.Normal, SyntaxType.Whitespace,
        SyntaxType.Normal, SyntaxType.Normal, SyntaxType.Normal, SyntaxType.Normal,
        SyntaxType.Comment, SyntaxType.Comment, SyntaxType.Comment, SyntaxType.Comment] :=
  ⟨_, _, rfl, by decide, by decide, by decide, by decide, rfl, by decide⟩

/-! ## The run around the start of a block scan -/

/-- A forward scan from a byte of the store that is not a space returns: the reads that decide
`startOnBlock` and `firstBlock` are of bytes of the store. -/
theorem scanBlocks_forward_returns (buf : List Nat) (pIsBlock pIsNotBlock : Nat → Bool)
    (hnot : ∀ ch, pIsNotBlock ch = (!pIsBlock ch && !isspace ch))
    (o : Int) (h0 : 0 ≤ o) (h1 : o < (buf.length : Int))
    (hsp : isspace (buf.getD o.toNat 0) = false) :
    ∃ r, scanBlocks buf pIsBlock pIsNotBlock 1 0 (buf.length : Int) o = .ok r := by
  unfold scanBlocks
  simp only
  obtain ⟨j1, f1, hw1, -⟩ := walkWhile_down buf isspace 0 (-1) rfl rfl (buf.length + 1) o false
    h0 h1 (by push_cast; omega)
  rw [hw1]
  simp only
  obtain ⟨c, f2, hw2, hc1, hc2, hcall, hcstop, hf2⟩ := walkWhile_up buf isspace
    (buf.length : Int) 1 rfl rfl (buf.length + 1) o false h0 (by omega) (by push_cast; omega)
  rw [hw2]
  simp only
  have hco : c = o := by
    by_contra hne
    have := hcall o (le_refl _) (by omega)
    rw [hsp] at this
    cases this
  subst hco
  rw [deref_ok buf c (by omega) (by omega)]
  simp only
  have hPc : (if pIsBlock (buf.getD c.toNat 0) = true then pIsBlock else pIsNotBlock)
      (buf.getD c.toNat 0) = true := by
    by_cases hx : pIsBlock (buf.getD c.toNat 0) = true
    · rw [if_pos hx]; exact hx
    · rw [if_neg hx, hnot, hsp]
      simpa using hx
  generalize (if pIsBlock (buf.getD c.toNat 0) = true then pIsBlock else pIsNotBlock) = P
    at hPc ⊢
  obtain ⟨i3, f3, hw3, hi1, hi2, hiall, histop, -⟩ := walkWhile_down buf P 0 (-1) rfl rfl
    (buf.length + 1) c false (by omega) (by omega) (by push_cast; omega)
  rw [hw3]
  simp only
  rw [deref_ok buf i3 hi1 (by omega)]
  simp only
  have hfb : ∃ fb : Int, (if ¬ P (buf.getD i3.toNat 0) = true then i3 + 1 else i3) = fb ∧
      0 ≤ fb ∧ fb ≤ c := by
    by_cases hx : P (buf.getD i3.toNat 0) = true
    · exact ⟨i3, by rw [if_neg (not_not.mpr hx)], hi1, hi2⟩
    · have hne : i3 ≠ c := by
        intro hxx
        rw [hxx] at hx
        exact hx hPc
      exact ⟨i3 + 1, by rw [if_pos hx], by omega, by omega⟩
  obtain ⟨fb, hfbeq, hfb0, hfbc⟩ := hfb
  rw [hfbeq]
  obtain ⟨fnb, f4, hw4, hn1, hn2, hnall, hnstop, -⟩ := walkWhile_up buf P
    (buf.length : Int) 1 rfl rfl (buf.length + 1) fb false hfb0 (by omega) (by push_cast; omega)
  rw [hw4]
  simp only
  obtain ⟨sb, f5, hw5, hs1, hs2, hsall, hsstop, hf5⟩ := walkWhile_up buf isspace
    (buf.length : Int) 1 rfl rfl (buf.length + 1) fnb false (by omega) hn2 (by push_cast; omega)
  rw [hw5]
  simp only
  by_cases hsl : sb = (buf.length : Int)
  · rw [if_pos hsl]
    exact ⟨_, rfl⟩
  rw [if_neg hsl, deref_ok buf sb (by omega) (by omega)]
  simp only
  obtain ⟨snb, f6, hw6, -⟩ := walkWhile_up buf
    (if pIsBlock (buf.getD sb.toNat 0) = true then pIsBlock else pIsNotBlock)
    (buf.length : Int) 1 rfl rfl (buf.length + 1) sb false (by omega) hs2 (by push_cast; omega)
  rw [hw6]
  exact ⟨_, rfl⟩

/-- Claim C21: for every store, with or without the sentinel, either policy and every start
offset `o` inside the store whose byte is not whitespace, the forward `GetBlock` returns a
result with `firstBlock ≤ o < firstNonBlock`; every byte from `firstBlock` up to but not
including `firstNonBlock` is in the class of the byte at `o` (block characters if that byte is
one, separators otherwise); the run is maximal: the byte at `firstBlock - 1`, if `firstBlock`
is not 0, and the byte at `firstNonBlock`, if `firstNonBlock` is not the store length, are not
in that class; and `startOnBlock` is true exactly when the byte at `o` is a block character. -/
theorem GetBlock_recentres (b : PicoVimBuffer) (alphaNumeric : Bool) (o : Int)
    (h0 : 0 ≤ o) (h1 : o < (b.m_buffer.length : Int))
    (hsp : isspace (b.m_buffer.getD o.toNat 0) = false) :
    ∃ r, GetBlock b alphaNumeric o SearchDirection.Forward = .ok r ∧
      r.firstBlock ≤ o ∧ o < r.firstNonBlock ∧ 0 ≤ r.firstBlock ∧
      r.firstNonBlock ≤ (b.m_buffer.length : Int) ∧
      (r.startOnBlock = true ↔
        (if alphaNumeric then IsWordChar else IsWORDChar) (b.m_buffer.getD o.toNat 0) = true) ∧
      (∀ k, r.firstBlock ≤ k → k < r.firstNonBlock →
        (if (if alphaNumeric then IsWordChar else IsWORDChar) (b.m_buffer.getD o.toNat 0)
          then (if alphaNumeric then IsWordChar else IsWORDChar)
          else (if alphaNumeric then IsNonWordChar else IsNonWORDChar))
          (b.m_buffer.getD k.toNat 0) = true) ∧
      (r.firstBlock = 0 ∨
        (if (if alphaNumeric then IsWordChar else IsWORDChar) (b.m_buffer.getD o.toNat 0)
          then (if alphaNumeric then IsWordChar else IsWORDChar)
          else (if alphaNumeric then IsNonWordChar else IsNonWORDChar))
          (b.m_buffer.getD (r.firstBlock - 1).toNat 0) = false) ∧
      (r.firstNonBlock = (b.m_buffer.length : Int) ∨
        (if (if alphaNumeric then IsWordChar else IsWORDChar) (b.m_buffer.getD o.toNat 0)
          then (if alphaNumeric then IsWordChar else IsWORDChar)
          else (if alphaNumeric then IsNonWordChar else IsNonWORDChar))
          (b.m_buffer.getD r.firstNonBlock.toNat 0) = false) := by
  have hnot : ∀ ch, (if alphaNumeric then IsNonWordChar else IsNonWORDChar) ch =
      (!(if alphaNumeric then IsWordChar else IsWORDChar) ch && !isspace ch) := by
    intro ch
    cases alphaNumeric <;> rfl
  obtain ⟨r, hr⟩ := scanBlocks_forward_returns b.m_buffer _ _ hnot o h0 h1 hsp
  obtain ⟨c, hc1, hc2, hcall, -, hstart, -, hfb0, hfbc, hcn, hns, hsb, hPall, hPprev, hPstop, -,
    -, -⟩ := scanBlocks_forward_spec b.m_buffer _ _ hnot o h0 h1 r hr
  have hco : c = o := by
    by_contra hne
    have := hcall o (le_refl _) (by omega)
    rw [hsp] at this
    cases this
  subst hco
  exact ⟨r, hr, hfbc, hcn, hfb0, by omega, by rw [hstart], hPall, hPprev, hPstop⟩

/-- Witness for C21 on the store `"ab."` plus terminator under the word policy: from the `.` at
offset 2 the run of separators is `[2, 4)` and goes on to the end of the store, and
`startOnBlock` is false; from the `b` at offset 1 the run of word characters is `[0, 2)`. -/
theorem GetBlock_recentres_witness :
    (GetBlock ⟨[97, 98, 46, 0], [4], 1, []⟩ true 2 SearchDirection.Forward).map
      (fun r => (r.startOnBlock, r.firstBlock, r.firstNonBlock)) = .ok (false, 2, 4) ∧
    (GetBlock ⟨[97, 98, 46, 0], [4], 1, []⟩ true 1 SearchDirection.Forward).map
      (fun r => (r.startOnBlock, r.firstBlock, r.firstNonBlock)) = .ok (true, 0, 2) ∧
    ∃ r, GetBlock ⟨[97, 98, 46, 0], [4], 1, []⟩ true 2 SearchDirection.Forward = .ok r ∧
      r.firstBlock ≤ 2 ∧ 2 < r.firstNonBlock ∧ 0 ≤ r.firstBlock ∧
      r.firstNonBlock ≤ (([97, 98, 46, 0] : List Nat).length : Int) ∧
      (r.startOnBlock = true ↔ IsWordChar 46 = true) :=
  ⟨by decide, by decide,
    match GetBlock_recentres ⟨[97, 98, 46, 0], [4], 1, []⟩ true 2 (by decide) (by decide)
      (by decide) with
    | ⟨r, hr, ha, hb, hc, hd, he, _⟩ => ⟨r, hr, ha, hb, hc, hd, he⟩⟩

/-- Claim C24, at the failing input: on the store with the text `"/* a\nb */"` and its
terminator, the full scan `UpdateSyntax(0, 0)` classifies every byte of the text as part of the
comment; `UpdateSyntax(5, 0)` on that result and the same store starts again at the line end
at offset 4 without the open comment, and classifies the `b` at offset 5 as `Normal`. -/
theorem resume_inside_block_comment :
    Sentinel (bytes "/* a\nb */" ++ [0]) ∧
    ∃ s1 s2,
      UpdateSyntax (fun _ => false) ⟨bytes "/* a\nb */" ++ [0], [5, 10], 2, []⟩ freshSyntax 0 0
        = .ok s1 ∧
      UpdateSyntax (fun _ => false) ⟨bytes "/* a\nb */" ++ [0], [5, 10], 2, []⟩ s1 5 0
        = .ok s2 ∧
      s1.m_syntax.getD 5 SyntaxType.Normal = SyntaxType.Comment ∧
      s2.m_syntax.getD 5 SyntaxType.Normal = SyntaxType.Normal ∧
      s2.m_syntax ≠ s1.m_syntax :=
  ⟨by decide, _, _, rfl, rfl, by decide, by decide, by decide⟩

/-- Claim C27, at the failing input: on the store with the text `"ab int;"` and its terminator
the first iteration of the main loop moves the scan position from 0 to 2; when the stop flag is
seen at the start of the second iteration, the scan returns with the processed offset 7, the
last offset of the store, which is beyond the scan position 2.  `GetType(3)` then answers from
the syntax map, which says `Normal` for the `i` of `int`, where the scan that is not cancelled
says `Keyword`. -/
theorem cancelled_scan_processed_offset :
    (syntaxStep (bytes "ab int;" ++ [0]) 0 8 (resize [] 8 SyntaxType.Normal) 0).1 = 2 ∧
    ∃ s1 s2,
      UpdateSyntax (fun k => decide (k = 1)) ⟨bytes "ab int;" ++ [0], [8], 1, []⟩ freshSyntax 0 0
        = .ok s1 ∧
      s1.m_processedChar = 7 ∧ ¬ s1.m_processedChar ≤ 2 ∧
      ¬ (s1.m_processedChar < 3 ∨ s1.m_syntax.length ≤ asSizeT 3) ∧
      GetType s1 3 = SyntaxType.Normal ∧
      UpdateSyntax (fun _ => false) ⟨bytes "ab int;" ++ [0], [8], 1, []⟩ freshSyntax 0 0
        = .ok s2 ∧
      GetType s2 3 = SyntaxType.Keyword :=
  ⟨by decide, _, _, rfl, by decide, by decide, by decide, by decide, rfl, by decide⟩

/-! ## The range of the text-added message -/

/-- Claim C28, at the failing input: inserting the one byte `x` at offset 2 of the store
`"a\r\nb"` plus terminator, of length 5, succeeds and publishes `PreBufferChange` with the
extent from 2 up to the store length 5 before the edit, and then `TextAdded` with the same
range from 2 to 5 and the cursor 3; the range of the inserted text is from 2 to 3. -/
theorem Insert_TextAdded_range :
    ∃ b1, Insert sampleCRLF 2 [120] 3 = .ok (true, b1) ∧
      b1.m_buffer = [97, 13, 120, 10, 98, 0] ∧
      b1.m_published.map (fun p => p.message) =
        [⟨BufferMessageType.PreBufferChange, 2, 5, none⟩,
         ⟨BufferMessageType.TextAdded, 2, 5, some 3⟩] ∧
      (5 : Int) ≠ 2 + (([120] : List Nat).length : Int) :=
  ⟨_, rfl, by decide, by decide, by decide⟩

/-! ## Landing positions on a line -/

/-- Claim C25, at the failing input: the store `"\n\nab"` plus terminator has the sentinel and
the complete line index `[1, 2, 5]`; line 0 has the bounds `[0, 1)` and no graphic character,
and `GetLinePos(0, LineFirstGraphChar)` returns 2, the offset of the `a` on line 2.  On the
store `" \n"` plus terminator no graphic character follows the start of line 0, and the search
runs to the end of the store and reads the byte under the end iterator. -/
theorem GetLinePos_first_graph_leaves_line :
    Sentinel [10, 10, 97, 98, 0] ∧ refLineEnds [10, 10, 97, 98, 0] = [1, 2, 5] ∧
    CompleteIndex [1, 2, 5] 5 ∧
    GetLineOffsets ⟨[10, 10, 97, 98, 0], [1, 2, 5], 3, []⟩ 0 = (true, 0, 1) ∧
    GetLinePos ⟨[10, 10, 97, 98, 0], [1, 2, 5], 3, []⟩ 0 LineLocation.LineFirstGraphChar
      = .ok 2 ∧
    ¬ (2 : Int) ≤ 1 ∧
    refLineEnds [32, 10, 0] = [2, 3] ∧
    GetLinePos ⟨[32, 10, 0], [2, 3], 2, []⟩ 0 LineLocation.LineFirstGraphChar
      = .error Fault.undefinedBehaviour :=
  ⟨by decide, by decide, by decide, by decide, by decide, by decide, by decide, by decide⟩

/-! ## Stepping by characters -/

/-- Claim C26: on a store `B` with the sentinel, a step of `+1` from `loc` with
`0 ≤ loc ≤ length - 1` returns `loc + 2` when `B[loc]` is CR and `B[loc + 1]` is LF and
`loc + 1` otherwise; a step of `-1` from `loc` with `1 ≤ loc ≤ length` returns `loc - 2` when
`loc ≥ 2`, `B[loc - 1]` is LF and `B[loc - 2]` is CR, and `loc - 1` otherwise; and a step
count of 0 returns `loc`.  Locations are `long`s and the store has fewer than `2 ^ 63` bytes. -/
theorem LocationFromOffsetByChars_single_step (b : PicoVimBuffer) (loc : Int)
    (hs : Sentinel b.m_buffer) (hsize : b.m_buffer.length < 2 ^ 63) :
    (0 ≤ loc → loc ≤ (b.m_buffer.length : Int) - 1 →
      LocationFromOffsetByChars b loc 1 =
        if b.m_buffer.getD loc.toNat 0 = CR ∧ b.m_buffer.getD (loc + 1).toNat 0 = LF
        then loc + 2 else loc + 1) ∧
    (1 ≤ loc → loc ≤ (b.m_buffer.length : Int) →
      LocationFromOffsetByChars b loc (-1) =
        if loc ≥ 2 ∧ b.m_buffer.getD (loc - 1).toNat 0 = LF ∧
          b.m_buffer.getD (loc - 2).toNat 0 = CR
        then loc - 2 else loc - 1) ∧
    LocationFromOffsetByChars b loc 0 = loc := by
  obtain ⟨hlen, hlast⟩ := hs
  refine ⟨?_, ?_, rfl⟩
  · intro h0 h1
    have e0 : asSizeT loc = loc.toNat := asSizeT_eq loc h0 (by omega)
    have e1 : asSizeT (loc + 1) = (loc + 1).toNat := asSizeT_eq (loc + 1) (by omega) (by omega)
    show stepChars b.m_buffer 1 CR LF 1 loc = _
    have hd : ((1 : Int) = -1) = False := by decide
    simp only [stepChars, hd, if_false, if_true, e0, e1]
    rw [if_neg (by omega)]
    by_cases hcr : b.m_buffer.getD loc.toNat 0 = CR
    · have hne : loc.toNat ≠ b.m_buffer.length - 1 := by
        intro hx
        rw [hx, hlast] at hcr
        revert hcr
        decide
      rw [if_pos hcr, if_neg (by omega)]
      by_cases hlf : b.m_buffer.getD (loc + 1).toNat 0 = LF
      · rw [if_pos hlf, if_pos ⟨hcr, hlf⟩]
        omega
      · rw [if_neg hlf, if_neg (fun h => hlf h.2)]
    · rw [if_neg hcr, if_neg (fun h => hcr h.1)]
  · intro h0 h1
    have e0 : asSizeT (loc + -1) = (loc - 1).toNat := by
      have : loc + -1 = loc - 1 := by omega
      rw [this]
      exact asSizeT_eq (loc - 1) (by omega) (by omega)
    show stepChars b.m_buffer (-1) LF CR 1 loc = _
    have hd : ((-1 : Int) = 1) = False := by decide
    simp only [stepChars, hd, if_false, if_true, e0]
    rw [if_neg (by omega)]
    by_cases hlf : b.m_buffer.getD (loc - 1).toNat 0 = LF
    · rw [if_pos hlf]
      by_cases h2 : loc ≥ 2
      · have e1 : asSizeT (loc + -1 + -1) = (loc - 2).toNat := by
          have : loc + -1 + -1 = loc - 2 := by omega
          rw [this]
          exact asSizeT_eq (loc - 2) (by omega) (by omega)
        rw [e1, if_neg (by omega)]
        by_cases hcr : b.m_buffer.getD (loc - 2).toNat 0 = CR
        · rw [if_pos hcr, if_pos ⟨h2, hlf, hcr⟩]
          omega
        · rw [if_neg hcr, if_neg (fun h => hcr h.2.2)]
          omega
      · have hneg := asSizeT_neg (loc + -1 + -1) (by omega) (by omega)
        rw [if_pos (by omega), if_neg (fun h => h2 h.1)]
        omega
    · rw [if_neg hlf, if_neg (fun h => hlf h.2.1)]
      omega

/-- Witness for C26 on the store `"a\r\nb"` plus terminator: forward from 1 goes over the CR LF
pair to 3, forward from 0 goes to 1, backward from 3 goes over the pair to 1, backward from 1
goes to 0, and no step stays. -/
theorem LocationFromOffsetByChars_single_step_witness :
    LocationFromOffsetByChars sampleCRLF 1 1 = 3 ∧ LocationFromOffsetByChars sampleCRLF 0 1 = 1 ∧
    LocationFromOffsetByChars sampleCRLF 3 (-1) = 1 ∧
    LocationFromOffsetByChars sampleCRLF 1 (-1) = 0 ∧
    LocationFromOffsetByChars sampleCRLF 4 0 = 4 :=
  ⟨(LocationFromOffsetByChars_single_step sampleCRLF 1 (by decide) (by decide)).1
      (by decide) (by decide),
   (LocationFromOffsetByChars_single_step sampleCRLF 0 (by decide) (by decide)).1
      (by decide) (by decide),
   (LocationFromOffsetByChars_single_step sampleCRLF 3 (by decide) (by decide)).2.1
      (by decide) (by decide),
   (LocationFromOffsetByChars_single_step sampleCRLF 1 (by decide) (by decide)).2.1
      (by decide) (by decide),
   (LocationFromOffsetByChars_single_step sampleCRLF 4 (by decide) (by decide)).2.2⟩

/-! ## The line of an offset -/

theorem countLE_cons (x : Int) (xs : List Int) (v : Int) :
    countLE (x :: xs) v = if x ≤ v then countLE xs v + 1 else 0 := by
  unfold countLE
  rw [List.takeWhile_cons]
  by_cases h : x ≤ v
  · simp [h]
  · simp [h]

/-- In a strictly increasing index the entries that are not above `v` are exactly the first
`countLE` ones. -/
theorem countLE_spec (xs : List Int) (v : Int) (hsorted : xs.Pairwise (fun x y => x < y)) :
    ∀ j, j < xs.length → (xs.getD j 0 ≤ v ↔ j < countLE xs v) := by
  induction xs with
  | nil => intro j hj; simp at hj
  | cons x xs ih =>
    intro j hj
    rw [countLE_cons]
    rw [List.pairwise_cons] at hsorted
    by_cases h : x ≤ v
    · rw [if_pos h]
      cases j with
      | zero => simp [h]
      | succ j =>
        have := ih hsorted.2 j (by simpa using hj)
        simp only [List.getD_cons_succ]
        rw [this]
        omega
    · rw [if_neg h]
      cases j with
      | zero => simp [h]
      | succ j =>
        simp only [List.getD_cons_succ]
        have hj2 : j < xs.length := by simpa using hj
        have hmem : xs.getD j 0 ∈ xs := by
          rw [List.getD_eq_getElem _ _ hj2]
          exact List.getElem_mem _
        have := hsorted.1 _ hmem
        constructor
        · intro hle; omega
        · intro hlt; omega

theorem LineFromOffset_eq (b : PicoVimBuffer) (o : Int)
    (hsorted : b.m_lineEnds.Pairwise (fun x y => x < y)) :
    LineFromOffset b o =
      min (max 0 ((countLE b.m_lineEnds o : Nat) : Int)) ((b.m_lineEnds.length : Int) - 1) := by
  rw [← insertItrLine_eq b.m_lineEnds o hsorted]
  rfl

/-- Claim C30: for a line index that is not empty, is strictly increasing and ends at the store
length, and an offset `o` with `0 ≤ o < length`, `GetLineOffsets` of the line returned by
`LineFromOffset(o)` succeeds with `lineStart ≤ o < lineEnd`, and no other line number has this
property; for `o ≥ length` the last line is returned; and for `o < 0` line 0 is returned, the
entries of a line index being offsets and so not negative.  Line numbers are `long`s and the
index has fewer than `2 ^ 63` entries. -/
theorem LineFromOffset_agrees (b : PicoVimBuffer) (o : Int) (hne : b.m_lineEnds ≠ [])
    (hidx : CompleteIndex b.m_lineEnds b.m_buffer.length)
    (hsize : b.m_lineEnds.length < 2 ^ 63) :
    (0 ≤ o → o < (b.m_buffer.length : Int) →
      ∃ s e, GetLineOffsets b (LineFromOffset b o) = (true, s, e) ∧ s ≤ o ∧ o < e ∧
        ∀ l s1 e1, -2 ^ 63 ≤ l → l < 2 ^ 63 → GetLineOffsets b l = (true, s1, e1) →
          s1 ≤ o → o < e1 → l = LineFromOffset b o) ∧
    ((b.m_buffer.length : Int) ≤ o → LineFromOffset b o = (b.m_lineEnds.length : Int) - 1) ∧
    (o < 0 → (∀ x ∈ b.m_lineEnds, 0 ≤ x) → LineFromOffset b o = 0) := by
  obtain ⟨hsorted, hlast⟩ := hidx
  have hpos : 0 < b.m_lineEnds.length := List.length_pos.mpr hne
  have hspec := countLE_spec b.m_lineEnds o hsorted
  have hle := countLE_le b.m_lineEnds o
  have hlastD : b.m_lineEnds.getD (b.m_lineEnds.length - 1) 0 = (b.m_buffer.length : Int) := by
    rw [List.getD_eq_getElem _ _ (by omega)]
    rw [List.getLast?_eq_getElem?, List.getElem?_eq_getElem (by omega)] at hlast
    exact Option.some.inj hlast
  rw [LineFromOffset_eq b o hsorted]
  refine ⟨?_, ?_, ?_⟩
  · intro h0 h1
    have hk : countLE b.m_lineEnds o < b.m_lineEnds.length := by
      by_contra hcon
      have := (hspec (b.m_lineEnds.length - 1) (by omega)).mpr (by omega)
      rw [hlastD] at this
      omega
    have hline : min (max 0 ((countLE b.m_lineEnds o : Nat) : Int))
        ((b.m_lineEnds.length : Int) - 1) = ((countLE b.m_lineEnds o : Nat) : Int) := by
      omega
    rw [hline]
    generalize countLE b.m_lineEnds o = k at *
    have hk1 := (hspec k hk)
    refine ⟨(if (k : Int) = 0 then 0 else b.m_lineEnds.getD ((k : Int) - 1).toNat 0),
      b.m_lineEnds.getD ((k : Int)).toNat 0, ?_, ?_, ?_, ?_⟩
    · unfold GetLineOffsets
      rw [asSizeT_eq (k : Int) (by omega) (by omega), if_neg (by omega)]
    · show (if (k : Int) = 0 then 0 else b.m_lineEnds.getD ((k : Int) - 1).toNat 0) ≤ o
      by_cases hk0 : (k : Int) = 0
      · rw [if_pos hk0]; exact h0
      · rw [if_neg hk0]
        have e : ((k : Int) - 1).toNat = k - 1 := by omega
        rw [e]
        exact (hspec (k - 1) (by omega)).mpr (by omega)
    · show o < b.m_lineEnds.getD ((k : Int)).toNat 0
      have e : ((k : Int)).toNat = k := by omega
      rw [e]
      by_contra hcon
      have := hk1.mp (by omega)
      omega
    · intro l s1 e1 hl0 hl1 hget hs1 he1
      unfold GetLineOffsets at hget
      by_cases hl : 0 ≤ l
      · rw [asSizeT_eq l hl (by omega)] at hget
        by_cases hlt : b.m_lineEnds.length ≤ l.toNat
        · rw [if_pos hlt] at hget
          cases hget
        · rw [if_neg hlt] at hget
          simp only [Prod.mk.injEq, true_and] at hget
          obtain ⟨hs1eq, he1eq⟩ := hget
          have hge : ¬ l.toNat < k := by
            intro hx
            have := (hspec l.toNat (by omega)).mpr hx
            omega
          by_cases hl0 : l = 0
          · rw [if_pos hl0] at hs1eq
            omega
          · rw [if_neg hl0] at hs1eq
            have hlt2 := (hspec (l - 1).toNat (by omega)).mp (by omega)
            omega
      · have := asSizeT_neg l (by omega) hl0
        rw [if_pos (by omega)] at hget
        cases hget
  · intro h0
    have hk : countLE b.m_lineEnds o = b.m_lineEnds.length := by
      have := (hspec (b.m_lineEnds.length - 1) (by omega)).mp (by omega)
      omega
    omega
  · intro h0 hnn
    have hk : countLE b.m_lineEnds o = 0 := by
      by_contra hcon
      have h1 := (hspec 0 (by omega)).mpr (by omega)
      have hmem : b.m_lineEnds.getD 0 0 ∈ b.m_lineEnds := by
        rw [List.getD_eq_getElem _ _ hpos]
        exact List.getElem_mem _
      have := hnn _ hmem
      omega
    omega

/-- Witness for C30 on the index `[3, 5]` of the store `"a\r\nb"` plus terminator: offset 2 is
on line 0, offset 3 on line 1, offsets from 5 on are given the last line 1, and negative
offsets line 0. -/
theorem LineFromOffset_agrees_witness :
    (∃ s e, GetLineOffsets sampleCRLF (LineFromOffset sampleCRLF 3) = (true, s, e) ∧
      s ≤ 3 ∧ 3 < e ∧
      ∀ l s1 e1, -2 ^ 63 ≤ l → l < 2 ^ 63 → GetLineOffsets sampleCRLF l = (true, s1, e1) →
        s1 ≤ 3 → 3 < e1 → l = LineFromOffset sampleCRLF 3) ∧
    LineFromOffset sampleCRLF 3 = 1 ∧ LineFromOffset sampleCRLF 2 = 0 ∧
    LineFromOffset sampleCRLF 7 = 1 ∧ LineFromOffset sampleCRLF (-4) = 0 :=
  ⟨(LineFromOffset_agrees sampleCRLF 3 (by decide) (by decide) (by decide)).1
      (by decide) (by decide),
   by decide, by decide, by decide, by decide⟩

/-! ## Progress and termination of the tokenizer -/

/-- An iteration of the main loop that does not see the stop flag, does not start at the end of
the store and finds a token passes the no-progress check and goes on with the result of
`syntaxStep`, whatever the later values of the flag. -/
theorem syntaxLoop_step_stop (stop : Nat → Bool) (buf : List Nat) (fuel iter c lp mlcb : Nat)
    (syn : List SyntaxType) (proc : Int) (hc : c < buf.length) (hlp : lp = buf.length ∨ lp < c)
    (hstop : stop iter = false) (hf : find_first_not_of buf c delim ≠ buf.length) :
    syntaxLoop stop buf (fuel + 1) iter c lp mlcb syn proc =
      syntaxLoop stop buf fuel (iter + 1) (syntaxStep buf c mlcb syn proc).1 c
        (syntaxStep buf c mlcb syn proc).2.1 (syntaxStep buf c mlcb syn proc).2.2.1
        (syntaxStep buf c mlcb syn proc).2.2.2 := by
  have hlt := token_nonempty buf c hf (by omega)
  rw [syntaxLoop, if_neg (by omega), if_neg (by omega), hstop]
  simp only [Bool.false_eq_true, if_false]
  rw [if_neg hf, if_neg (by omega)]
  unfold syntaxStep
  simp only
  split
  · rfl
  · split
    · rfl
    · split
      · split <;> rfl
      · rfl

/-- The main loop returns from every scan position `c` within as many iterations as there are
bytes from `c` to the end of the store, whatever the stop flag does: the no-progress assertion
is not triggered and the iterations are not used up. -/
theorem syntaxLoop_returns (stop : Nat → Bool) (buf : List Nat) :
    ∀ (fuel iter c lp mlcb : Nat) (syn : List SyntaxType) (proc : Int),
      c ≤ buf.length → (lp = buf.length ∨ lp < c) → buf.length - c ≤ fuel →
      ∃ r, syntaxLoop stop buf fuel iter c lp mlcb syn proc = .ok r := by
  intro fuel
  induction fuel with
  | zero =>
    intro iter c lp mlcb syn proc h1 h2 h3
    rw [syntaxLoop, if_pos (by omega)]
    exact ⟨_, rfl⟩
  | succ fuel ih =>
    intro iter c lp mlcb syn proc h1 h2 h3
    by_cases hc : c = buf.length
    · rw [syntaxLoop, if_pos hc]
      exact ⟨_, rfl⟩
    · by_cases hstop : stop iter = true
      · rw [syntaxLoop, if_neg hc, if_neg (by omega), if_pos hstop]
        exact ⟨_, rfl⟩
      · have hstop1 : stop iter = false := by simpa using hstop
        by_cases hf : find_first_not_of buf c delim = buf.length
        · rw [syntaxLoop, if_neg hc, if_neg (by omega), hstop1]
          simp only [Bool.false_eq_true, if_false]
          rw [if_pos hf]
          exact ⟨_, rfl⟩
        · rw [syntaxLoop_step_stop stop buf fuel iter c lp mlcb syn proc (by omega) h2 hstop1 hf]
          have hp := syntaxStep_progress buf c mlcb syn proc h1 hf
          exact ih _ _ _ _ _ _ hp.2 (Or.inr hp.1) (by omega)

/-- The walks back at the start of `UpdateSyntax` return an offset at or before their start when
they start at offset 0 or on a byte of the store. -/
theorem walkBack_ok (buf : List Nat) (syms : List Nat) :
    ∀ (fuel itr : Nat), (itr = 0 ∨ itr < buf.length) → itr + 1 ≤ fuel →
      ∃ j, walkBack buf syms fuel itr = .ok j ∧ j ≤ itr := by
  intro fuel
  induction fuel with
  | zero => intro itr h1 h2; omega
  | succ fuel ih =>
    intro itr h1 h2
    rw [walkBack]
    by_cases h0 : itr > 0
    · rw [if_pos h0, deref_ok buf (itr : Int) (by omega) (by omega)]
      simp only
      by_cases hm : buf.getD ((itr : Int)).toNat 0 ∉ syms
      · rw [if_pos hm]
        obtain ⟨j, hj, hle⟩ := ih (itr - 1) (by omega) (by omega)
        exact ⟨j, hj, by omega⟩
      · rw [if_neg hm]
        exact ⟨itr, rfl, le_refl _⟩
    · rw [if_neg h0]
      exact ⟨itr, rfl, le_refl _⟩

/-- Claim C23: for every store, with or without the sentinel, every `startOffset` in
`[0, length)`, every `endOffset ≥ 0`, every syntax map and every behaviour of the stop flag,
`UpdateSyntax` returns: the no-progress assertion is not triggered.  Every iteration of the
main loop that finds a token moves the scan position strictly forward and not beyond the end
of the store, and from a scan position `c` the loop returns within `length - c` iterations, so
within `length` of them. -/
theorem UpdateSyntax_terminates (stop : Nat → Bool) (b : PicoVimBuffer) (s : PicoVimSyntaxGlsl)
    (startOffset endOffset : Int) (h0 : 0 ≤ startOffset)
    (h1 : startOffset < (b.m_buffer.length : Int)) (he : 0 ≤ endOffset) :
    (∃ s1, UpdateSyntax stop b s startOffset endOffset = .ok s1) ∧
    (∀ (c mlcb : Nat) (syn : List SyntaxType) (proc : Int), c ≤ b.m_buffer.length →
      find_first_not_of b.m_buffer c delim ≠ b.m_buffer.length →
      c < (syntaxStep b.m_buffer c mlcb syn proc).1 ∧
        (syntaxStep b.m_buffer c mlcb syn proc).1 ≤ b.m_buffer.length) ∧
    (∀ (fuel iter c lp mlcb : Nat) (syn : List SyntaxType) (proc : Int),
      c ≤ b.m_buffer.length → (lp = b.m_buffer.length ∨ lp < c) →
      b.m_buffer.length - c ≤ fuel →
      ∃ r, syntaxLoop stop b.m_buffer fuel iter c lp mlcb syn proc = .ok r) := by
  refine ⟨?_, fun c mlcb syn proc hc hf => syntaxStep_progress b.m_buffer c mlcb syn proc hc hf,
    syntaxLoop_returns stop b.m_buffer⟩
  unfold UpdateSyntax
  rw [if_neg (by omega), if_neg (by omega)]
  simp only
  obtain ⟨j1, hj1, hle1⟩ := walkBack_ok b.m_buffer lineEnd (b.m_buffer.length + 1)
    startOffset.toNat (Or.inr (by omega)) (by omega)
  rw [hj1]
  simp only
  obtain ⟨j2, hj2, hle2⟩ := walkBack_ok b.m_buffer delim (b.m_buffer.length + 1) j1
    (Or.inr (by omega)) (by omega)
  rw [hj2]
  simp only
  obtain ⟨r, hr⟩ := syntaxLoop_returns stop b.m_buffer (b.m_buffer.length + 1) 0 j2
    b.m_buffer.length b.m_buffer.length
    (resize s.m_syntax b.m_buffer.length SyntaxType.Normal) s.m_processedChar (by omega)
    (Or.inl rfl) (by omega)
  rw [hr]
  exact ⟨_, rfl⟩

/-- Witness for C23 on the store `"a\n  // b\nc"` plus terminator, scanned from offset 7 with
the stop flag never set. -/
theorem UpdateSyntax_terminates_witness :
    ∃ s1, UpdateSyntax (fun _ => false) commentBuffer freshSyntax 7 0 = .ok s1 :=
  (UpdateSyntax_terminates (fun _ => false) commentBuffer freshSyntax 7 0 (by decide)
    (by decide) (by decide)).1

/-! ## The patched index and the rebuilt index when no CR is involved -/

/-- In a store without CR a line ends at `p` exactly when the byte before `p` is LF. -/
theorem isLineEnd_noCR (buf : List Nat) (hcr : CR ∉ buf) (p : Nat) (hp1 : 1 ≤ p)
    (hp : p ≤ buf.length) : isLineEnd buf p = decide (buf.getD (p - 1) 0 = LF) := by
  have hne : buf.getD (p - 1) 0 ≠ CR := by
    rw [List.getD_eq_getElem _ _ (by omega)]
    intro hx
    exact hcr (hx ▸ List.getElem_mem _)
  unfold isLineEnd
  rw [decide_eq_false hne]
  simp

theorem splice_getD_left (buf t : List Nat) (o i : Nat) (ho : o ≤ buf.length) (hi : i < o) :
    (buf.take o ++ t ++ buf.drop o).getD i 0 = buf.getD i 0 := by
  rw [List.append_assoc, List.getD_append _ _ _ _ (by rw [List.length_take]; omega)]
  simp only [List.getD_eq_getElem?_getD, List.getElem?_take, if_pos hi]

theorem splice_getD_mid (buf t : List Nat) (o i : Nat) (ho : o ≤ buf.length) (hi : o ≤ i)
    (hi2 : i < o + t.length) :
    (buf.take o ++ t ++ buf.drop o).getD i 0 = t.getD (i - o) 0 := by
  have hl : (buf.take o).length = o := by rw [List.length_take]; omega
  rw [List.append_assoc, List.getD_append_right _ _ _ _ (by omega), hl,
    List.getD_append _ _ _ _ (by omega)]

theorem splice_getD_right (buf t : List Nat) (o i : Nat) (ho : o ≤ buf.length)
    (hi : o + t.length ≤ i) :
    (buf.take o ++ t ++ buf.drop o).getD i 0 = buf.getD (i - t.length) 0 := by
  have hl : (buf.take o).length = o := by rw [List.length_take]; omega
  rw [List.append_assoc, List.getD_append_right _ _ _ _ (by omega), hl,
    List.getD_append_right _ _ _ _ (by omega), getD_drop]
  congr 1
  omega

theorem erase_getD_left (buf : List Nat) (s e i : Nat) (hs : s ≤ buf.length) (hi : i < s) :
    (buf.take s ++ buf.drop e).getD i 0 = buf.getD i 0 := by
  rw [List.getD_append _ _ _ _ (by rw [List.length_take]; omega)]
  simp only [List.getD_eq_getElem?_getD, List.getElem?_take, if_pos hi]

theorem erase_getD_right (buf : List Nat) (s e i : Nat) (hs : s ≤ buf.length) (hse : s ≤ e)
    (hi : s ≤ i) : (buf.take s ++ buf.drop e).getD i 0 = buf.getD (i + (e - s)) 0 := by
  have hl : (buf.take s).length = s := by rw [List.length_take]; omega
  rw [List.getD_append_right _ _ _ _ (by omega), hl, getD_drop]
  congr 1
  omega

/-- The positions of a range that pass a test, split at `m`. -/
theorem filter_range_split (p : Nat → Bool) (a m n : Nat) :
    ((List.range' a (m + n)).filter p).map Int.ofNat =
      ((List.range' a m).filter p).map Int.ofNat ++
        ((List.range' (a + m) n).filter p).map Int.ofNat := by
  rw [show m + n = n + m by omega, ← List.range'_append_1, List.filter_append, List.map_append]

/-- The positions of a range moved up by `k` that pass a test are the positions of the range
passing the test moved down, each plus `k`. -/
theorem filter_range_shift (p : Nat → Bool) (a k n : Nat) :
    ((List.range' (a + k) n).filter p).map Int.ofNat =
      (((List.range' a n).filter (fun j => p (j + k))).map Int.ofNat).map
        (fun x => x + (k : Int)) := by
  rw [show a + k = k + a by omega, ← List.map_add_range', List.filter_map, List.map_map,
    List.map_map]
  have hf : (p ∘ fun x => k + x) = fun j => p (j + k) := by
    funext j
    show p (k + j) = p (j + k)
    rw [Nat.add_comm]
  rw [hf]
  apply List.map_congr_left
  intro j _
  show Int.ofNat (k + j) = Int.ofNat j + (k : Int)
  simp only [Int.ofNat_eq_coe]
  omega

/-- The entries of the reference index that are not above `o`. -/
theorem refLineEnds_filter_le (buf : List Nat) (o : Nat) (hlen : 0 < buf.length)
    (ho : o ≤ buf.length - 1) :
    (refLineEnds buf).filter (fun x => decide (x ≤ (o : Int))) =
      ((List.range' 1 o).filter (isLineEnd buf)).map Int.ofNat := by
  unfold refLineEnds
  rw [show buf.length - 1 = o + (buf.length - 1 - o) by omega, filter_range_split,
    List.filter_append, List.filter_append]
  have h1 : (((List.range' 1 o).filter (isLineEnd buf)).map Int.ofNat).filter
      (fun x => decide (x ≤ (o : Int))) = ((List.range' 1 o).filter (isLineEnd buf)).map Int.ofNat := by
    rw [List.filter_eq_self]
    intro x hx
    rw [List.mem_map] at hx
    obtain ⟨k, hk, rfl⟩ := hx
    rw [List.mem_filter, List.mem_range'_1] at hk
    simp only [Int.ofNat_eq_coe, decide_eq_true_eq]
    omega
  have h2 : (((List.range' (1 + o) (buf.length - 1 - o)).filter (isLineEnd buf)).map
      Int.ofNat).filter (fun x => decide (x ≤ (o : Int))) = [] := by
    rw [List.filter_eq_nil_iff]
    intro x hx
    rw [List.mem_map] at hx
    obtain ⟨k, hk, rfl⟩ := hx
    rw [List.mem_filter, List.mem_range'_1] at hk
    simp only [Int.ofNat_eq_coe, decide_eq_true_eq]
    omega
  have h3 : [(buf.length : Int)].filter (fun x => decide (x ≤ (o : Int))) = [] := by
    rw [List.filter_eq_nil_iff]
    intro x hx
    rw [List.mem_singleton] at hx
    subst hx
    simp only [decide_eq_true_eq]
    omega
  rw [h1, h2, h3]
  simp

/-- The entries of the reference index that are above `o`. -/
theorem refLineEnds_filter_gt (buf : List Nat) (o : Nat) (hlen : 0 < buf.length)
    (ho : o ≤ buf.length - 1) :
    (refLineEnds buf).filter (fun x => decide ((o : Int) < x)) =
      ((List.range' (1 + o) (buf.length - 1 - o)).filter (isLineEnd buf)).map Int.ofNat ++
        [(buf.length : Int)] := by
  unfold refLineEnds
  rw [show buf.length - 1 = o + (buf.length - 1 - o) by omega, filter_range_split,
    List.filter_append, List.filter_append]
  have h1 : (((List.range' 1 o).filter (isLineEnd buf)).map Int.ofNat).filter
      (fun x => decide ((o : Int) < x)) = [] := by
    rw [List.filter_eq_nil_iff]
    intro x hx
    rw [List.mem_map] at hx
    obtain ⟨k, hk, rfl⟩ := hx
    rw [List.mem_filter, List.mem_range'_1] at hk
    simp only [Int.ofNat_eq_coe, decide_eq_true_eq]
    omega
  have h2 : (((List.range' (1 + o) (buf.length - 1 - o)).filter (isLineEnd buf)).map
      Int.ofNat).filter (fun x => decide ((o : Int) < x)) =
      ((List.range' (1 + o) (buf.length - 1 - o)).filter (isLineEnd buf)).map Int.ofNat := by
    rw [List.filter_eq_self]
    intro x hx
    rw [List.mem_map] at hx
    obtain ⟨k, hk, rfl⟩ := hx
    rw [List.mem_filter, List.mem_range'_1] at hk
    simp only [Int.ofNat_eq_coe, decide_eq_true_eq]
    omega
  have h3 : [(buf.length : Int)].filter (fun x => decide ((o : Int) < x)) =
      [(buf.length : Int)] := by
    rw [List.filter_eq_self]
    intro x hx
    rw [List.mem_singleton] at hx
    subst hx
    simp only [decide_eq_true_eq]
    omega
  rw [h1, h2, h3]
  simp
/-- Without CR in the store and in the text, the reference index of the store with `t` spliced
in at `o` is the reference index of the store, split at `o`, with the line ends of `t` in
between and the later entries moved up by the length of `t`. -/
theorem refLineEnds_splice (buf t : List Nat) (o : Nat) (hbuf : CR ∉ buf) (ht : CR ∉ t)
    (hlen : 0 < buf.length) (ho : o ≤ buf.length - 1) :
    refLineEnds (buf.take o ++ t ++ buf.drop o) =
      (refLineEnds buf).filter (fun x => decide (x ≤ (o : Int))) ++
        (stringLineEnds t 0).map (fun (j : Nat) => (j : Int) + (o : Int)) ++
        ((refLineEnds buf).filter (fun x => decide ((o : Int) < x))).map
          (fun x => x + (t.length : Int)) := by
  have hcr : CR ∉ buf.take o ++ t ++ buf.drop o := by
    intro hx
    rw [List.mem_append, List.mem_append] at hx
    rcases hx with (hx | hx) | hx
    · exact hbuf (List.mem_of_mem_take hx)
    · exact ht hx
    · exact hbuf (List.mem_of_mem_drop hx)
  have hl : (buf.take o ++ t ++ buf.drop o).length = buf.length + t.length := by
    simp only [List.length_append, List.length_take, List.length_drop]
    omega
  rw [refLineEnds_filter_le buf o hlen ho, refLineEnds_filter_gt buf o hlen ho]
  unfold refLineEnds stringLineEnds
  rw [hl, show buf.length + t.length - 1 = o + (t.length + (buf.length - 1 - o)) by omega,
    filter_range_split, filter_range_split]
  have hA : (List.range' 1 o).filter (isLineEnd (buf.take o ++ t ++ buf.drop o)) =
      (List.range' 1 o).filter (isLineEnd buf) := by
    apply List.filter_congr
    intro k hk
    rw [List.mem_range'_1] at hk
    rw [isLineEnd_noCR _ hcr k (by omega) (by omega), isLineEnd_noCR _ hbuf k (by omega)
      (by omega), splice_getD_left buf t o (k - 1) (by omega) (by omega)]
  have hB : ((List.range' (1 + o) t.length).filter
      (isLineEnd (buf.take o ++ t ++ buf.drop o))).map Int.ofNat =
      ((List.range' (0 + 1) (t.length - 0)).filter (isLineEnd t)).map
        (fun (j : Nat) => (j : Int) + (o : Int)) := by
    rw [filter_range_shift, List.map_map]
    have hc : (List.range' 1 t.length).filter
        (fun j => isLineEnd (buf.take o ++ t ++ buf.drop o) (j + o)) =
        (List.range' (0 + 1) (t.length - 0)).filter (isLineEnd t) := by
      apply List.filter_congr
      intro k hk
      rw [List.mem_range'_1] at hk
      rw [isLineEnd_noCR _ hcr (k + o) (by omega) (by omega), isLineEnd_noCR _ ht k (by omega)
        (by omega), splice_getD_mid buf t o (k + o - 1) (by omega) (by omega) (by omega)]
      congr 3
      omega
    rw [hc]
    rfl
  have hC : ((List.range' (1 + o + t.length) (buf.length - 1 - o)).filter
      (isLineEnd (buf.take o ++ t ++ buf.drop o))).map Int.ofNat =
      (((List.range' (1 + o) (buf.length - 1 - o)).filter (isLineEnd buf)).map Int.ofNat).map
        (fun x => x + (t.length : Int)) := by
    rw [filter_range_shift]
    have hc : (List.range' (1 + o) (buf.length - 1 - o)).filter
        (fun j => isLineEnd (buf.take o ++ t ++ buf.drop o) (j + t.length)) =
        (List.range' (1 + o) (buf.length - 1 - o)).filter (isLineEnd buf) := by
      apply List.filter_congr
      intro k hk
      rw [List.mem_range'_1] at hk
      rw [isLineEnd_noCR _ hcr (k + t.length) (by omega) (by omega),
        isLineEnd_noCR _ hbuf k (by omega) (by omega),
        splice_getD_right buf t o (k + t.length - 1) (by omega) (by omega)]
      congr 3
      omega
    rw [hc]
  rw [hA, hB, hC]
  simp only [List.map_append, List.append_assoc, List.map_cons, List.map_nil, Nat.cast_add]

/-- Without CR in the store, the reference index of the store with the bytes from `s` up to
`e` erased is the reference index of the store without the entries above `s` and not above
`e`, the later entries moved down by `e - s`. -/
theorem refLineEnds_erase (buf : List Nat) (s e : Nat) (hbuf : CR ∉ buf)
    (hlen : 0 < buf.length) (hse : s ≤ e) (he : e ≤ buf.length - 1) :
    refLineEnds (buf.take s ++ buf.drop e) =
      (refLineEnds buf).filter (fun x => decide (x ≤ (s : Int))) ++
        ((refLineEnds buf).filter (fun x => decide ((e : Int) < x))).map
          (fun x => x - ((e : Int) - (s : Int))) := by
  have hcr : CR ∉ buf.take s ++ buf.drop e := by
    intro hx
    rw [List.mem_append] at hx
    rcases hx with hx | hx
    · exact hbuf (List.mem_of_mem_take hx)
    · exact hbuf (List.mem_of_mem_drop hx)
  have hl : (buf.take s ++ buf.drop e).length = buf.length - (e - s) := by
    simp only [List.length_append, List.length_take, List.length_drop]
    omega
  rw [refLineEnds_filter_le buf s hlen (by omega), refLineEnds_filter_gt buf e hlen he]
  unfold refLineEnds
  rw [hl, show buf.length - (e - s) - 1 = s + (buf.length - 1 - e) by omega, filter_range_split]
  have hA : (List.range' 1 s).filter (isLineEnd (buf.take s ++ buf.drop e)) =
      (List.range' 1 s).filter (isLineEnd buf) := by
    apply List.filter_congr
    intro k hk
    rw [List.mem_range'_1] at hk
    rw [isLineEnd_noCR _ hcr k (by omega) (by omega), isLineEnd_noCR _ hbuf k (by omega)
      (by omega), erase_getD_left buf s e (k - 1) (by omega) (by omega)]
  have hC : ((List.range' (1 + e) (buf.length - 1 - e)).filter (isLineEnd buf)).map Int.ofNat =
      (((List.range' (1 + s) (buf.length - 1 - e)).filter
        (isLineEnd (buf.take s ++ buf.drop e))).map Int.ofNat).map
        (fun x => x + ((e - s : Nat) : Int)) := by
    rw [show 1 + e = 1 + s + (e - s) by omega, filter_range_shift]
    have hc : (List.range' (1 + s) (buf.length - 1 - e)).filter
        (fun j => isLineEnd buf (j + (e - s))) =
        (List.range' (1 + s) (buf.length - 1 - e)).filter
          (isLineEnd (buf.take s ++ buf.drop e)) := by
      apply List.filter_congr
      intro k hk
      rw [List.mem_range'_1] at hk
      rw [isLineEnd_noCR _ hcr k (by omega) (by omega),
        isLineEnd_noCR _ hbuf (k + (e - s)) (by omega) (by omega),
        erase_getD_right buf s e (k - 1) (by omega) hse (by omega)]
      congr 3
      omega
    rw [hc]
  have hD : ∀ Y : List Int, (Y.map (fun x => x + ((e - s : Nat) : Int))).map
      (fun x => x - ((e : Int) - (s : Int))) = Y := by
    intro Y
    rw [List.map_map]
    conv_rhs => rw [← List.map_id Y]
    apply List.map_congr_left
    intro x _
    show x + ((e - s : Nat) : Int) - ((e : Int) - (s : Int)) = x
    omega
  have hL : ((buf.length - (e - s) : Nat) : Int) = (buf.length : Int) - ((e : Int) - (s : Int)) := by
    omega
  rw [hA, hC, List.map_append, hD, List.append_assoc, hL]
  rfl
/-- Claim C29: for a store with the sentinel that contains no CR and whose line index is the
one `FindLineEnds` computes for it, (a) for every text `t` without CR and every offset `o` with
`0 ≤ o ≤ length - 1`, `Insert(o, t)` succeeds and the line index it leaves is the one that
`FindLineEnds` computes for the resulting store, and (b) for every `0 ≤ start ≤ end ≤
length - 1`, `Delete(start, end)` succeeds and the line index it leaves is the one that
`FindLineEnds` computes for the resulting store.  The store has fewer than `2 ^ 63` bytes. -/
theorem patch_equals_rebuild_without_CR (b b0 : PicoVimBuffer)
    (hs : Sentinel b.m_buffer) (hcr : CR ∉ b.m_buffer)
    (hidx : FindLineEnds (fun _ => false) b = .ok b0) (hsame : b0.m_lineEnds = b.m_lineEnds)
    (hsize : b.m_buffer.length < 2 ^ 63) :
    (∀ (t : List Nat) (o c : Int), CR ∉ t → 0 ≤ o → o ≤ (b.m_buffer.length : Int) - 1 →
      ∃ b1 b2, Insert b o t c = .ok (true, b1) ∧
        FindLineEnds (fun _ => false) b1 = .ok b2 ∧ b2.m_lineEnds = b1.m_lineEnds) ∧
    (∀ (s e c : Int), 0 ≤ s → s ≤ e → e ≤ (b.m_buffer.length : Int) - 1 →
      ∃ b1 b2, Delete b s e c = .ok (true, b1) ∧
        FindLineEnds (fun _ => false) b1 = .ok b2 ∧ b2.m_lineEnds = b1.m_lineEnds) := by
  have href : b.m_lineEnds = refLineEnds b.m_buffer := by
    rw [FindLineEnds_eq b hs] at hidx
    have := Except.ok.inj hidx
    rw [← hsame, ← this]
  have hlen : 0 < b.m_buffer.length := hs.1
  constructor
  · intro t o c ht h0 h1
    obtain ⟨n, rfl⟩ := Int.eq_ofNat_of_zero_le h0
    have hacc : ¬ asSizeT (n : Int) > b.m_buffer.length := by
      have := asSizeT_le (n : Int) h0
      have e : ((n : Int)).toNat = n := Int.toNat_ofNat n
      omega
    obtain ⟨b1, lines, hins, hscan, hbuf, hends, -, -⟩ := Insert_accepted b (n : Int) t c hacc
    rw [insertScanLoop_eq t (n : Int) (t.length + 1) 0 [] (by omega) (by omega)] at hscan
    have hlines := Except.ok.inj hscan
    rw [List.nil_append] at hlines
    rw [Int.toNat_ofNat] at hbuf
    have hs1 : Sentinel b1.m_buffer := by
      rw [hbuf]
      exact sentinel_splice _ hs n t (by omega)
    refine ⟨b1, _, hins, FindLineEnds_eq b1 hs1, ?_⟩
    show refLineEnds b1.m_buffer = b1.m_lineEnds
    rw [hends, href, insertLineEnds_eq _ (n : Int) _ _ (refLineEnds_pairwise _), hbuf,
      refLineEnds_splice b.m_buffer t n hcr ht hlen (by omega), ← hlines]
  · intro s e c h0 hse he
    obtain ⟨ns, rfl⟩ := Int.eq_ofNat_of_zero_le h0
    obtain ⟨ne, rfl⟩ := Int.eq_ofNat_of_zero_le (le_trans h0 hse)
    have hsorted : b.m_lineEnds.Pairwise (fun x y => x < y) := by
      rw [href]; exact refLineEnds_pairwise _
    have hlast : b.m_lineEnds.getLast? = some (b.m_buffer.length : Int) := by
      rw [href]
      unfold refLineEnds
      rw [List.getLast?_append]
      rfl
    have hk : lower_bound b.m_lineEnds (ns : Int) < b.m_lineEnds.length :=
      lower_bound_lt _ _ _ hlast (by omega)
    obtain ⟨b1, hdel, hbuf, hends, hs1, -, -⟩ := Delete_accepted b (ns : Int) (ne : Int) c hs
      hsize h0 hse he hk
    rw [Int.toNat_ofNat, Int.toNat_ofNat] at hbuf
    refine ⟨b1, _, hdel, FindLineEnds_eq b1 hs1, ?_⟩
    show refLineEnds b1.m_buffer = b1.m_lineEnds
    rw [hends, deleteLineEnds_eq _ _ _ hsorted hse hk, href, hbuf,
      refLineEnds_erase b.m_buffer ns ne hcr hlen (by omega) (by omega)]

/-- Witness for C29 on the store `"a\nb"` plus terminator with the index `[2, 4]`: inserting
`"x\ny"` at offset 1 and deleting the line break at `[1, 2)`. -/
theorem patch_equals_rebuild_without_CR_witness :
    (∃ b1 b2, Insert ⟨[97, 10, 98, 0], [2, 4], 2, []⟩ 1 [120, 10, 121] 4 = .ok (true, b1) ∧
      FindLineEnds (fun _ => false) b1 = .ok b2 ∧ b2.m_lineEnds = b1.m_lineEnds) ∧
    (∃ b1 b2, Delete ⟨[97, 10, 98, 0], [2, 4], 2, []⟩ 1 2 1 = .ok (true, b1) ∧
      FindLineEnds (fun _ => false) b1 = .ok b2 ∧ b2.m_lineEnds = b1.m_lineEnds) :=
  ⟨(patch_equals_rebuild_without_CR ⟨[97, 10, 98, 0], [2, 4], 2, []⟩
      ⟨[97, 10, 98, 0], [2, 4], 2, []⟩ (by decide) (by decide) (by decide) rfl (by decide)).1
      [120, 10, 121] 1 4 (by decide) (by decide) (by decide),
   (patch_equals_rebuild_without_CR ⟨[97, 10, 98, 0], [2, 4], 2, []⟩
      ⟨[97, 10, 98, 0], [2, 4], 2, []⟩ (by decide) (by decide) (by decide) rfl (by decide)).2
      1 2 1 (by decide) (by decide) (by decide)⟩

/-! ## Insert followed by Delete, on the line index -/

/-- A strictly increasing index is its entries not above `v` followed by its entries above
`v`. -/
theorem filter_le_append_filter_gt (xs : List Int) (v : Int)
    (hsorted : xs.Pairwise (fun x y => x < y)) :
    xs.filter (fun x => decide (x ≤ v)) ++ xs.filter (fun x => decide (v < x)) = xs := by
  rw [← take_countLE xs v hsorted, ← drop_countLE xs v hsorted, List.take_append_drop]

/-- Deleting the range that an insertion at `o` of `n` bytes has filled undoes the patch of the
index: the entries not above `o` stay, the line ends `lines` of the inserted text, which lie
above `o` and not above `o + n`, go, and the later entries move back by `n`. -/
theorem delete_patch_undoes_insert_patch (xs : List Int) (o : Int) (n : Nat) (lines : List Int)
    (hsorted : xs.Pairwise (fun x y => x < y))
    (hmem : ∀ y ∈ lines, o < y ∧ y ≤ o + (n : Int)) :
    (xs.filter (fun x => decide (x ≤ o)) ++ lines ++
        (xs.filter (fun x => decide (o < x))).map (fun x => x + (n : Int))).filter
        (fun x => decide (x ≤ o)) ++
      ((xs.filter (fun x => decide (x ≤ o)) ++ lines ++
        (xs.filter (fun x => decide (o < x))).map (fun x => x + (n : Int))).filter
        (fun x => decide (o + (n : Int) < x))).map (fun x => x - (o + (n : Int) - o)) = xs := by
  have hA1 : (xs.filter (fun x => decide (x ≤ o))).filter (fun x => decide (x ≤ o)) =
      xs.filter (fun x => decide (x ≤ o)) := by
    rw [List.filter_eq_self]
    intro x hx
    exact (List.mem_filter.mp hx).2
  have hL1 : lines.filter (fun x => decide (x ≤ o)) = [] := by
    rw [List.filter_eq_nil_iff]
    intro x hx
    have := hmem x hx
    simp only [decide_eq_true_eq]
    omega
  have hB1 : ((xs.filter (fun x => decide (o < x))).map (fun x => x + (n : Int))).filter
      (fun x => decide (x ≤ o)) = [] := by
    rw [List.filter_eq_nil_iff]
    intro x hx
    obtain ⟨y, hy, rfl⟩ := List.mem_map.mp hx
    have := (List.mem_filter.mp hy).2
    simp only [decide_eq_true_eq] at this ⊢
    omega
  have hA2 : (xs.filter (fun x => decide (x ≤ o))).filter
      (fun x => decide (o + (n : Int) < x)) = [] := by
    rw [List.filter_eq_nil_iff]
    intro x hx
    have := (List.mem_filter.mp hx).2
    simp only [decide_eq_true_eq] at this ⊢
    omega
  have hL2 : lines.filter (fun x => decide (o + (n : Int) < x)) = [] := by
    rw [List.filter_eq_nil_iff]
    intro x hx
    have := hmem x hx
    simp only [decide_eq_true_eq]
    omega
  have hB2 : ((xs.filter (fun x => decide (o < x))).map (fun x => x + (n : Int))).filter
      (fun x => decide (o + (n : Int) < x)) =
      (xs.filter (fun x => decide (o < x))).map (fun x => x + (n : Int)) := by
    rw [List.filter_eq_self]
    intro x hx
    obtain ⟨y, hy, rfl⟩ := List.mem_map.mp hx
    have := (List.mem_filter.mp hy).2
    simp only [decide_eq_true_eq] at this ⊢
    omega
  have hback : ((xs.filter (fun x => decide (o < x))).map (fun x => x + (n : Int))).map
      (fun x => x - (o + (n : Int) - o)) = xs.filter (fun x => decide (o < x)) := by
    rw [List.map_map]
    conv_rhs => rw [← List.map_id (xs.filter (fun x => decide (o < x)))]
    apply List.map_congr_left
    intro x _
    show x + (n : Int) - (o + (n : Int) - o) = x
    omega
  rw [List.filter_append, List.filter_append, List.filter_append, List.filter_append,
    hA1, hL1, hB1, hA2, hL2, hB2, List.append_nil, List.append_nil, List.nil_append,
    List.nil_append, hback]
  exact filter_le_append_filter_gt xs o hsorted

/-- Claim C31: on a store with the sentinel, a strictly increasing line index that ends at the
store length and a processed-line counter equal to the number of entries, for every text `t`,
whatever CR and LF it holds, and every offset `o` with `0 ≤ o ≤ length - 1`, `Insert(o, t)`
and then `Delete(o, o + length t)` both return true and leave the line index and the
processed-line counter as they were; and after each of the two steps the counter is the number
of entries of the index.  The store after the insertion has fewer than `2 ^ 63` bytes. -/
theorem Insert_Delete_restores_index (b : PicoVimBuffer) (o : Int) (t : List Nat) (c1 c2 : Int)
    (hs : Sentinel b.m_buffer) (hidx : CompleteIndex b.m_lineEnds b.m_buffer.length)
    (hproc : b.m_processedLine = (b.m_lineEnds.length : Int))
    (hsize : b.m_buffer.length + t.length < 2 ^ 63) (h0 : 0 ≤ o)
    (h1 : o ≤ (b.m_buffer.length : Int) - 1) :
    ∃ b1 b2, Insert b o t c1 = .ok (true, b1) ∧
      Delete b1 o (o + (t.length : Int)) c2 = .ok (true, b2) ∧
      b1.m_processedLine = (b1.m_lineEnds.length : Int) ∧
      b2.m_lineEnds = b.m_lineEnds ∧ b2.m_processedLine = b.m_processedLine ∧
      b2.m_processedLine = (b2.m_lineEnds.length : Int) := by
  have hlen := hs.1
  have hle := asSizeT_le o h0
  obtain ⟨b1, lines, hb1, hscan, hbuf, hends, -, -⟩ := Insert_accepted b o t c1 (by omega)
  obtain ⟨b1k, hb1k, hidx1k, hp1k⟩ := Insert_keeps_index b o t c1 hidx h0 h1
  have e1 : b1k = b1 := by
    rw [hb1] at hb1k
    exact (Prod.mk.inj (Except.ok.inj hb1k)).2.symm
  subst e1
  have hp1 := hp1k hproc
  have hlines : lines = (stringLineEnds t 0).map (fun (j : Nat) => (j : Int) + o) := by
    rw [insertScanLoop_eq t o (t.length + 1) 0 [] (by omega) (by omega)] at hscan
    exact (Except.ok.inj hscan).symm
  have hmem : ∀ y ∈ lines, o < y ∧ y ≤ o + (t.length : Int) := by
    intro y hy
    rw [hlines] at hy
    obtain ⟨j, hj, rfl⟩ := List.mem_map.mp hy
    have := stringLineEnds_mem t 0 j hj
    show o < (j : Int) + o ∧ (j : Int) + o ≤ o + (t.length : Int)
    omega
  have hlen1 : b1k.m_buffer.length = b.m_buffer.length + t.length := by
    rw [hbuf]
    simp only [List.length_append, List.length_take, List.length_drop]
    omega
  have hs1 : Sentinel b1k.m_buffer := by
    rw [hbuf]
    exact sentinel_splice b.m_buffer hs o.toNat t (by omega)
  have hk := lower_bound_lt b1k.m_lineEnds o _ hidx1k.2 (by omega)
  obtain ⟨b2, hb2, -, hends2, -, -, -⟩ := Delete_accepted b1k o (o + (t.length : Int)) c2 hs1
    (by omega) h0 (by omega) (by omega) hk
  obtain ⟨b2k, hb2k, -, hp2k⟩ := Delete_keeps_index b1k o (o + (t.length : Int)) c2 hs1 hidx1k
    (by omega) h0 (by omega) (by omega)
  have e2 : b2k = b2 := by
    rw [hb2] at hb2k
    exact (Prod.mk.inj (Except.ok.inj hb2k)).2.symm
  subst e2
  have hp2 := hp2k hp1
  have hrest : b2k.m_lineEnds = b.m_lineEnds := by
    rw [hends2, deleteLineEnds_eq _ _ _ hidx1k.1 (by omega) hk, hends,
      insertLineEnds_eq _ _ _ _ hidx.1]
    exact delete_patch_undoes_insert_patch b.m_lineEnds o t.length lines hidx.1 hmem
  refine ⟨b1k, b2k, hb1, hb2, hp1, hrest, ?_, hp2⟩
  rw [hp2, hrest, hproc]

/-- Witness for C31: inserting `"x\r"` between the CR and the LF of `"a\r\nb"` plus terminator,
with the index `[3, 5]` and the counter 2, and deleting it again. -/
theorem Insert_Delete_restores_index_witness :
    ∃ b1 b2, Insert sampleCRLF 2 [120, 13] 4 = .ok (true, b1) ∧
      Delete b1 2 (2 + (([120, 13] : List Nat).length : Int)) 2 = .ok (true, b2) ∧
      b1.m_processedLine = (b1.m_lineEnds.length : Int) ∧
      b2.m_lineEnds = sampleCRLF.m_lineEnds ∧
      b2.m_processedLine = sampleCRLF.m_processedLine ∧
      b2.m_processedLine = (b2.m_lineEnds.length : Int) :=
  Insert_Delete_restores_index sampleCRLF 2 [120, 13] 4 2 (by decide) (by decide) (by decide)
    (by decide) (by decide) (by decide)

/-! ## The range of character stepping -/

/-- Every store read of the stepping loop is at a subscript inside the store: each read follows
a test of its subscript against `m_buffer.size()`. -/
theorem stepCharsReads_lt (buf : List Nat) (dir : Int) (firstCR nextCR : Nat) :
    ∀ (count : Nat) (current : Int), ∀ i ∈ stepCharsReads buf dir firstCR nextCR count current,
      i < buf.length := by
  intro count
  induction count with
  | zero => intro current i hi; simp [stepCharsReads] at hi
  | succ count ih =>
    intro current i hi
    rw [stepCharsReads] at hi
    simp only at hi
    generalize (if dir = -1 then current + dir else current) = c1 at hi
    by_cases h1 : asSizeT c1 ≥ buf.length
    · rw [if_pos h1] at hi
      cases hi
    · rw [if_neg h1] at hi
      by_cases h2 : buf.getD (asSizeT c1) 0 = firstCR
      · rw [if_pos h2] at hi
        by_cases h3 : asSizeT (c1 + dir) ≥ buf.length
        · rw [if_pos h3, List.mem_singleton] at hi
          omega
        · rw [if_neg h3, List.mem_cons, List.mem_cons] at hi
          rcases hi with hi | hi | hi
          · omega
          · omega
          · exact ih _ i hi
      · rw [if_neg h2, List.mem_cons] at hi
        rcases hi with hi | hi
        · omega
        · exact ih _ i hi

/-- Stepping forward from a location of the store, its end included, never goes back and stops
at the end of the store at the latest. -/
theorem stepChars_forward_bounds (buf : List Nat) (hsize : buf.length < 2 ^ 63) :
    ∀ (count : Nat) (current : Int), 0 ≤ current → current ≤ (buf.length : Int) →
      current ≤ stepChars buf 1 CR LF count current ∧
        stepChars buf 1 CR LF count current ≤ (buf.length : Int) := by
  intro count
  induction count with
  | zero => intro current h0 h1; exact ⟨le_refl _, h1⟩
  | succ count ih =>
    intro current h0 h1
    have hd : ((1 : Int) = -1) = False := by decide
    have e0 : asSizeT current = current.toNat := asSizeT_eq current h0 (by omega)
    rw [stepChars]
    simp only [hd, if_false, if_true, e0]
    split
    · exact ⟨le_refl _, h1⟩
    · rename_i hlt
      have e1 : asSizeT (current + 1) = (current + 1).toNat :=
        asSizeT_eq (current + 1) (by omega) (by omega)
      split
      · rw [e1]
        split
        · exact ⟨le_refl _, h1⟩
        · rename_i hlt2
          split
          · have := ih (current + 1 + 1) (by omega) (by omega)
            omega
          · have := ih (current + 1) (by omega) (by omega)
            omega
      · have := ih (current + 1) (by omega) (by omega)
        omega

/-- Stepping backward from a location of the store, its end included, never goes forward and
stops at -1, one before the first byte, at the latest. -/
theorem stepChars_backward_bounds (buf : List Nat) (hsize : buf.length < 2 ^ 63) :
    ∀ (count : Nat) (current : Int), 0 ≤ current → current ≤ (buf.length : Int) →
      -1 ≤ stepChars buf (-1) LF CR count current ∧
        stepChars buf (-1) LF CR count current ≤ current := by
  intro count
  induction count with
  | zero =>
    intro current h0 h1
    rw [stepChars]
    omega
  | succ count ih =>
    intro current h0 h1
    have hd : ((-1 : Int) = 1) = False := by decide
    rw [stepChars]
    simp only [hd, if_false, if_true]
    by_cases hc0 : current = 0
    · subst hc0
      have := asSizeT_neg ((0 : Int) + -1) (by omega) (by omega)
      rw [if_pos (by omega)]
      omega
    · have e0 : asSizeT (current + -1) = (current + -1).toNat :=
        asSizeT_eq (current + -1) (by omega) (by omega)
      rw [e0, if_neg (by omega)]
      split
      · by_cases hc1 : current = 1
        · subst hc1
          have := asSizeT_neg ((1 : Int) + -1 + -1) (by omega) (by omega)
          rw [if_pos (by omega)]
          omega
        · have e1 : asSizeT (current + -1 + -1) = (current + -1 + -1).toNat :=
            asSizeT_eq (current + -1 + -1) (by omega) (by omega)
          rw [e1, if_neg (by omega)]
          split
          · have := ih (current + -1 + -1) (by omega) (by omega)
            omega
          · have := ih (current + -1) (by omega) (by omega)
            omega
      · have := ih (current + -1) (by omega) (by omega)
        omega

/-- What holds of character stepping from a location `loc` with `0 ≤ loc ≤ length`, for every
step count `n` above `LONG_MIN`: the result is at least -1 and at most the store length, it is
at least `loc` for `n > 0` and at most `loc` for `n ≤ 0`, and every store read is at a
subscript inside the store.  The store has fewer than `2 ^ 63` bytes. -/
theorem LocationFromOffsetByChars_bounds (b : PicoVimBuffer) (loc n : Int)
    (hsize : b.m_buffer.length < 2 ^ 63) (h0 : 0 ≤ loc) (h1 : loc ≤ (b.m_buffer.length : Int))
    (_hn : -2 ^ 63 < n) :
    -1 ≤ LocationFromOffsetByChars b loc n ∧
    LocationFromOffsetByChars b loc n ≤ (b.m_buffer.length : Int) ∧
    (0 < n → loc ≤ LocationFromOffsetByChars b loc n) ∧
    (n ≤ 0 → LocationFromOffsetByChars b loc n ≤ loc) ∧
    ∀ i ∈ LocationFromOffsetByCharsReads b loc n, i < b.m_buffer.length := by
  have hreads : ∀ i ∈ LocationFromOffsetByCharsReads b loc n, i < b.m_buffer.length :=
    stepCharsReads_lt _ _ _ _ _ _
  by_cases hn : 0 < n
  · have e : LocationFromOffsetByChars b loc n = stepChars b.m_buffer 1 CR LF n.natAbs loc := by
      unfold LocationFromOffsetByChars
      simp only [gt_iff_lt, hn, if_true]
      rfl
    have := stepChars_forward_bounds b.m_buffer hsize n.natAbs loc h0 h1
    rw [e]
    exact ⟨by omega, this.2, fun _ => this.1, fun h => by omega, hreads⟩
  · have e : LocationFromOffsetByChars b loc n =
        stepChars b.m_buffer (-1) LF CR n.natAbs loc := by
      unfold LocationFromOffsetByChars
      simp only [gt_iff_lt, hn, if_false]
      rfl
    have := stepChars_backward_bounds b.m_buffer hsize n.natAbs loc h0 h1
    rw [e]
    exact ⟨this.1, by omega, fun h => absurd h hn, fun _ => this.2, hreads⟩

/-- Claim C32, at the failing input: on the store `"a"` plus terminator, which has the
sentinel, stepping backward by one character from location 0 returns -1 and not 0, and so
does stepping backward by two characters from location 1; neither call reads outside the
store. -/
theorem LocationFromOffsetByChars_before_start :
    Sentinel [97, 0] ∧
    LocationFromOffsetByChars ⟨[97, 0], [2], 1, []⟩ 0 (-1) = -1 ∧
    LocationFromOffsetByChars ⟨[97, 0], [2], 1, []⟩ 1 (-2) = -1 ∧
    LocationFromOffsetByCharsReads ⟨[97, 0], [2], 1, []⟩ 0 (-1) = [] ∧
    LocationFromOffsetByCharsReads ⟨[97, 0], [2], 1, []⟩ 1 (-2) = [0] :=
  ⟨by decide, by decide, by decide, by decide, by decide⟩

end PicoVim
